import Mathlib

/-!
# Extendible hash index (BusTub): directory + bucket page protocol

A shallow embedding of `src/container/hash/extendible_hash_table.cpp`.

The coordinator (`ExtendibleHashTable`: constructor, `GetValue`, `Insert`,
`SplitInsert`, `Remove`, `Merge`) is translated from the source.  The bucket
page, the directory page and the buffer pool are not among the source files;
they are modelled from the specification (sections 3, 4.1, 4.2 and 6) and every
such definition says so in its doc comment.

Conventions
* `uint32_t` values are natural numbers reduced modulo `2^32` where the source
  can overflow; local depths are `u8` and wrap modulo `256`.
* Arrays of a page are total functions on indices; only indices below the
  array size are ever meaningful.
* Latches are not modelled: the embedding is sequential.
-/

namespace bustub

/-! ## Bucket page (spec 3 and 4.1) -/

/-- Modelled from the spec: a bucket slot (section 3, "Bucket slot") with its
key, value, occupied bit and readable bit.  The class `HashTableBucketPage`
is not among the source files. -/
structure Slot (K V : Type) where
  key : K
  value : V
  occupied : Bool
  readable : Bool
deriving DecidableEq

/-- Modelled from the spec: a bucket page is a fixed array of `B` slots
(section 3, "Bucket page"). -/
abbrev HashTableBucketPage (K V : Type) := List (Slot K V)

section Bucket

variable {K V : Type} [DecidableEq K] [DecidableEq V]

/-- The slot is readable and stores exactly the pair `(k, v)`. -/
def Slot.holds (s : Slot K V) (k : K) (v : V) : Bool :=
  s.readable && (decide (s.key = k) && decide (s.value = v))

/-- The slot is readable and its key is `k`. -/
def Slot.hasKey (s : Slot K V) (k : K) : Bool :=
  s.readable && decide (s.key = k)

namespace HashTableBucketPage

/-- Modelled from the spec: a freshly allocated page is all zero, so each of
its `B` slots is neither occupied nor readable (section 3, lifecycle of a
bucket slot). -/
def fresh [Inhabited K] [Inhabited V] (B : Nat) : HashTableBucketPage K V :=
  List.replicate B ⟨default, default, false, false⟩

/-- The values of the readable slots whose key is `key`, in slot order. -/
def valuesOf (b : HashTableBucketPage K V) (key : K) : List V :=
  (b.filter (fun s => s.hasKey key)).map Slot.value

/-- Modelled from the spec: bucket `GetValue(key, cmp, out values)` (4.1)
appends every value whose slot is readable and whose key equals `key`, and
returns true iff at least one was appended. -/
def GetValue (b : HashTableBucketPage K V) (key : K) (result : List V) : Bool × List V :=
  (!(valuesOf b key).isEmpty, result ++ valuesOf b key)

/-- Modelled from the spec: `CheckKeyValueExist(key, value, cmp)` (4.1) tells
whether the exact pair is present as a readable slot. -/
def CheckKeyValueExist (b : HashTableBucketPage K V) (key : K) (value : V) : Bool :=
  b.any (fun s => s.holds key value)

/-- Write `(key, value)` into the first slot with `¬occupied ∨ ¬readable`,
setting both bits; `none` when there is no such slot. -/
def writeFirstFree (key : K) (value : V) : HashTableBucketPage K V → Option (HashTableBucketPage K V)
  | [] => none
  | s :: rest =>
    if !s.occupied || !s.readable then some (⟨key, value, true, true⟩ :: rest)
    else (writeFirstFree key value rest).map (fun r => s :: r)

/-- Modelled from the spec: bucket `Insert(key, value, cmp)` (4.1).  If a
readable slot already holds the pair, return false.  Otherwise write into the
first slot with `¬occupied ∨ ¬readable` and return true; if no such slot
exists return false. -/
def Insert (b : HashTableBucketPage K V) (key : K) (value : V) : Bool × HashTableBucketPage K V :=
  if CheckKeyValueExist b key value then (false, b)
  else
    match writeFirstFree key value b with
    | some b1 => (true, b1)
    | none => (false, b)

/-- Clear the readable bit of the first readable slot holding `(key, value)`;
`none` when no slot matches. -/
def clearFirst (key : K) (value : V) : HashTableBucketPage K V → Option (HashTableBucketPage K V)
  | [] => none
  | s :: rest =>
    if s.holds key value then some ({ s with readable := false } :: rest)
    else (clearFirst key value rest).map (fun r => s :: r)

/-- Modelled from the spec: bucket `Remove(key, value, cmp)` (4.1) finds the
first readable slot matching both key and value and clears its readable bit
(the occupied bit remains: a tombstone).  Returns true iff a slot was cleared. -/
def Remove (b : HashTableBucketPage K V) (key : K) (value : V) : Bool × HashTableBucketPage K V :=
  match clearFirst key value b with
  | some b1 => (true, b1)
  | none => (false, b)

/-- Modelled from the spec: the number of readable slots (4.1, `IsFull` /
`IsEmpty` count readable slots, not occupied ones). -/
def NumReadable (b : HashTableBucketPage K V) : Nat :=
  b.countP (fun s => s.readable)

/-- Modelled from the spec: `IsFull` (4.1): the readable count equals the
capacity `B`. -/
def IsFull (B : Nat) (b : HashTableBucketPage K V) : Bool :=
  decide (NumReadable b = B)

/-- Modelled from the spec: `IsEmpty` (4.1): no slot is readable; a bucket
full of tombstones is empty. -/
def IsEmpty (b : HashTableBucketPage K V) : Bool :=
  decide (NumReadable b = 0)

/-- The readable pairs of the bucket, in slot order: the bucket's contents. -/
def pairs (b : HashTableBucketPage K V) : List (K × V) :=
  (b.filter (fun s => s.readable)).map (fun s => (s.key, s.value))

/-- Modelled from the spec: `EmptyArray(out keys, out values)` (4.1), the
drain.  Appends every readable pair to the output and clears both bits on
every slot. -/
def EmptyArray (b : HashTableBucketPage K V) (out : List (K × V)) :
    List (K × V) × HashTableBucketPage K V :=
  (out ++ pairs b, b.map (fun s => { s with occupied := false, readable := false }))

end HashTableBucketPage

end Bucket

/-! ## Machine arithmetic -/

/-- The shift `a << s` on 32-bit operands.  A shift count of 32 or more is
undefined in C++; the model yields `0` there. -/
def shl32 (a s : Nat) : Nat :=
  if s < 32 then (a <<< s) % 2 ^ 32 else 0

/-- The subtraction `a - b` on `uint32_t`, wrapping modulo `2^32`. -/
def sub32 (a b : Nat) : Nat :=
  (a % 2 ^ 32 + 2 ^ 32 - b % 2 ^ 32) % 2 ^ 32

/-! ## Directory page (spec 3, 4.2 and 6) -/

/-- Modelled from the spec: `MAX_DEPTH` (section 6, "a common choice is 9
(512 slots)"); the macro lives in a header that is not among the source
files. -/
def MAX_DEPTH : Nat := 9

/-- Modelled from the spec: `DIRECTORY_ARRAY_SIZE = 2^MAX_DEPTH` (sections 3
and 6), the capacity of the two directory arrays. -/
def DIRECTORY_ARRAY_SIZE : Nat := 2 ^ MAX_DEPTH

/-- Modelled from the spec: the directory page (section 3, "Directory page"):
the global depth, the array of bucket page ids and the parallel array of
local depths.  The class `HashTableDirectoryPage` is not among the source
files. -/
structure HashTableDirectoryPage where
  global_depth : Nat
  local_depths : Nat → Nat
  bucket_page_ids : Nat → Nat

namespace HashTableDirectoryPage

/-- Modelled from the spec: a page handed out by `NewPage` is all zero. -/
def zero : HashTableDirectoryPage :=
  { global_depth := 0, local_depths := fun _ => 0, bucket_page_ids := fun _ => 0 }

/-- Modelled from the spec: `InitTable()` (4.2) zeroes the local depths and
sets `global_depth = 0`. -/
def InitTable (d : HashTableDirectoryPage) : HashTableDirectoryPage :=
  { d with global_depth := 0, local_depths := fun _ => 0 }

/-- Modelled from the spec: `GetGlobalDepth()`. -/
def GetGlobalDepth (d : HashTableDirectoryPage) : Nat := d.global_depth

/-- Modelled from the spec: `GetGlobalDepthMask()` (4.2) returns
`(1 << global_depth) - 1`. -/
def GetGlobalDepthMask (d : HashTableDirectoryPage) : Nat :=
  sub32 (shl32 1 d.global_depth) 1

/-- Modelled from the spec: the number of live slots, `2^global_depth`
(section 3: "only the first `2^global_depth` slots are live"). -/
def Size (d : HashTableDirectoryPage) : Nat := 2 ^ d.global_depth

/-- Modelled from the spec: `IncrGlobalDepth()` (4.2) doubles the live range:
for every `i < 2^gd` it copies `bucket_page_id[i]` and `local_depth[i]` to
index `i + 2^gd`, then sets `global_depth = gd + 1`.  It refuses (no-op) if
`gd == MAX_DEPTH`. -/
def IncrGlobalDepth (d : HashTableDirectoryPage) : HashTableDirectoryPage :=
  if d.global_depth = MAX_DEPTH then d
  else
    { global_depth := d.global_depth + 1
      local_depths := fun j =>
        if d.Size ≤ j ∧ j < 2 * d.Size then d.local_depths (j - d.Size) else d.local_depths j
      bucket_page_ids := fun j =>
        if d.Size ≤ j ∧ j < 2 * d.Size then d.bucket_page_ids (j - d.Size)
        else d.bucket_page_ids j }

/-- Modelled from the spec: `GetBucketPageId(i)` (4.2), elementary. -/
def GetBucketPageId (d : HashTableDirectoryPage) (i : Nat) : Nat := d.bucket_page_ids i

/-- Modelled from the spec: `SetBucketPageId(i, pid)` (4.2), elementary. -/
def SetBucketPageId (d : HashTableDirectoryPage) (i pid : Nat) : HashTableDirectoryPage :=
  { d with bucket_page_ids := Function.update d.bucket_page_ids i pid }

/-- Modelled from the spec: `GetLocalDepth(i)`, the `u8` local depth of slot
`i` read as a `uint32_t`. -/
def GetLocalDepth (d : HashTableDirectoryPage) (i : Nat) : Nat := d.local_depths i

/-- Modelled from the spec: `SetLocalDepth(i, depth)`, the elementary setter
used by the constructor (4.3); the stored depth is a `u8`. -/
def SetLocalDepth (d : HashTableDirectoryPage) (i depth : Nat) : HashTableDirectoryPage :=
  { d with local_depths := Function.update d.local_depths i (depth % 256) }

/-- Modelled from the spec: `IncrLocalDepth(i)` (4.2), an elementary mutator:
it adds one to the `u8` local depth of slot `i` and touches nothing else.
The code is not among the source files.  The comment at its call site in
`SplitInsert` (line 160, "increase local depth and the global depth") and the
re-read of the global depth at line 162 suggest that the code also doubles
the live range when the local depth equals the global depth; the spec does
not say so.  With the definition below no call of the coordinator raises the
global depth. -/
def IncrLocalDepth (d : HashTableDirectoryPage) (i : Nat) : HashTableDirectoryPage :=
  { d with local_depths := Function.update d.local_depths i ((d.local_depths i + 1) % 256) }

/-- Modelled from the spec: `DecrLocalDepth(i)` (4.2), an elementary mutator:
it subtracts one from the `u8` local depth of slot `i` and touches nothing
else.  The code is not among the source files.  The comment at its call site
in `SplitInsert` (line 165, "decrease local and global depth") suggests that
the code also lowers the global depth; the spec says the source never does
(section 9). -/
def DecrLocalDepth (d : HashTableDirectoryPage) (i : Nat) : HashTableDirectoryPage :=
  { d with local_depths := Function.update d.local_depths i ((d.local_depths i + 255) % 256) }

/-- Modelled from the spec: `SeparatePageId(from_idx, new_idx, new_pid)` (4.2;
spelled `SeperatePageId` at the call site), called after a local-depth
increment on the slot `from_idx`.  Every live slot `j` that agrees with
`new_idx` in the lowest `new_local_depth` bits gets `bucket_page_id[j] =
new_pid`, where `new_local_depth` is the incremented local depth of
`from_idx`.  Local depths are not written. -/
def SeperatePageId (d : HashTableDirectoryPage) (from_idx new_idx new_pid : Nat) :
    HashTableDirectoryPage :=
  { d with bucket_page_ids := fun j =>
      if j < d.Size ∧ j % 2 ^ d.local_depths from_idx = new_idx % 2 ^ d.local_depths from_idx
      then new_pid else d.bucket_page_ids j }

/-- Modelled from the spec: `MergePageId(from_idx, mask, merge_pid)` (4.2).
For every live slot `j` with `(j & mask) == (from_idx & mask)` it sets
`bucket_page_id[j] = merge_pid` and decrements the local depth of `j`. -/
def MergePageId (d : HashTableDirectoryPage) (from_idx mask merge_pid : Nat) :
    HashTableDirectoryPage :=
  { d with
    bucket_page_ids := fun j =>
      if j < d.Size ∧ j &&& mask = from_idx &&& mask then merge_pid else d.bucket_page_ids j
    local_depths := fun j =>
      if j < d.Size ∧ j &&& mask = from_idx &&& mask then (d.local_depths j + 255) % 256
      else d.local_depths j }

end HashTableDirectoryPage

/-! ## Buffer pool (spec 6) -/

/-- A call the coordinator makes on the buffer pool. -/
inductive PoolEvent where
  | NewPage (page_id : Nat)
  | FetchPage (page_id : Nat)
  | UnpinPage (page_id : Nat) (is_dirty : Bool)
deriving DecidableEq

/-- Modelled from the spec: the buffer pool as the coordinator sees it
(section 6): the next page id to allocate, the reference (pin) count of each
page, and the calls received so far, oldest first.  The class
`BufferPoolManager` is not among the source files. -/
structure BufferPoolManager where
  next_page_id : Nat
  pin_count : Nat → Nat
  events : List PoolEvent

namespace BufferPoolManager

/-- Modelled from the spec: `NewPage(out page_id)` (6) allocates a page id not
handed out before and pins the page once. -/
def NewPage (bpm : BufferPoolManager) : Nat × BufferPoolManager :=
  (bpm.next_page_id,
   { next_page_id := bpm.next_page_id + 1
     pin_count := Function.update bpm.pin_count bpm.next_page_id 1
     events := bpm.events ++ [PoolEvent.NewPage bpm.next_page_id] })

/-- Modelled from the spec: `FetchPage(page_id)` (6) adds exactly one to the
reference count of the page. -/
def FetchPage (bpm : BufferPoolManager) (page_id : Nat) : BufferPoolManager :=
  { bpm with
    pin_count := Function.update bpm.pin_count page_id (bpm.pin_count page_id + 1)
    events := bpm.events ++ [PoolEvent.FetchPage page_id] }

/-- Modelled from the spec: `UnpinPage(page_id, is_dirty)` (6) takes one off
the reference count of the page (a page that is not pinned stays at zero). -/
def UnpinPage (bpm : BufferPoolManager) (page_id : Nat) (is_dirty : Bool) : BufferPoolManager :=
  { bpm with
    pin_count := Function.update bpm.pin_count page_id (bpm.pin_count page_id - 1)
    events := bpm.events ++ [PoolEvent.UnpinPage page_id is_dirty] }

end BufferPoolManager

/-! ## Index coordinator (`extendible_hash_table.cpp`) -/

/-- The state of `ExtendibleHashTable`: the buffer pool it talks to, the id of
its directory page, and the contents of the pages it reaches through the pool
(the directory page, and the bucket page stored under each page id). -/
structure ExtendibleHashTable (K V : Type) where
  bpm : BufferPoolManager
  directory_page_id : Nat
  dir : HashTableDirectoryPage
  buckets : Nat → HashTableBucketPage K V

namespace ExtendibleHashTable

section Coordinator

variable {K V : Type} [DecidableEq K] [DecidableEq V]

/-- The constructor `ExtendibleHashTable::ExtendibleHashTable` (lines 25-43),
run against the pool `bpm` whose pages hold `pages`; `B` is the bucket
capacity. -/
def ctor [Inhabited K] [Inhabited V] (B : Nat) (bpm : BufferPoolManager)
    (pages : Nat → HashTableBucketPage K V) : ExtendibleHashTable K V :=
  let r1 := bpm.NewPage
  let directory_page_id := r1.1
  let d_page := HashTableDirectoryPage.zero
  let d_page := d_page.InitTable
  let d_page := d_page.IncrGlobalDepth
  let r2 := r1.2.NewPage
  let first_bucket_page_id := r2.1
  let pages := Function.update pages first_bucket_page_id (HashTableBucketPage.fresh B)
  let d_page := d_page.SetBucketPageId 0 first_bucket_page_id
  let d_page := d_page.SetBucketPageId 1 first_bucket_page_id
  let d_page := d_page.SetLocalDepth 0 0
  let d_page := d_page.SetLocalDepth 1 0
  let bpm := r2.2.UnpinPage directory_page_id true
  let bpm := bpm.UnpinPage first_bucket_page_id false
  { bpm := bpm, directory_page_id := directory_page_id, dir := d_page, buckets := pages }

/-- Method `Hash` (lines 55-58): the 64-bit hash downcast to 32 bits. -/
def Hash (hash_fn : K → Nat) (key : K) : Nat := hash_fn key % 2 ^ 32

/-- Method `KeyToDirectoryIndex` (lines 60-65): `Hash(key) & GetGlobalDepthMask()`. -/
def KeyToDirectoryIndex (hash_fn : K → Nat) (key : K) (dir_page : HashTableDirectoryPage) : Nat :=
  Hash hash_fn key &&& dir_page.GetGlobalDepthMask

/-- Method `KeyToPageId` (lines 67-71). -/
def KeyToPageId (hash_fn : K → Nat) (key : K) (dir_page : HashTableDirectoryPage) : Nat :=
  dir_page.GetBucketPageId (KeyToDirectoryIndex hash_fn key dir_page)

/-- Method `FetchDirectoryPage` (lines 73-78): one `FetchPage` of the directory. -/
def FetchDirectoryPage (t : ExtendibleHashTable K V) : ExtendibleHashTable K V :=
  { t with bpm := t.bpm.FetchPage t.directory_page_id }

/-- Method `FetchBucketPage` (lines 80-85): one `FetchPage` of the bucket page. -/
def FetchBucketPage (t : ExtendibleHashTable K V) (bucket_page_id : Nat) : ExtendibleHashTable K V :=
  { t with bpm := t.bpm.FetchPage bucket_page_id }

/-- The call `buffer_pool_manager_->UnpinPage(page_id, is_dirty, nullptr)`. -/
def UnpinPage (t : ExtendibleHashTable K V) (page_id : Nat) (is_dirty : Bool) :
    ExtendibleHashTable K V :=
  { t with bpm := t.bpm.UnpinPage page_id is_dirty }

/-- Method `GetValue` (lines 90-106).  Returns the flag, the extended `result`
vector and the state after the call. -/
def GetValue (hash_fn : K → Nat) (t : ExtendibleHashTable K V) (key : K) (result : List V) :
    Bool × List V × ExtendibleHashTable K V :=
  let t := t.FetchDirectoryPage
  let index := KeyToDirectoryIndex hash_fn key t.dir
  let bucket_page_id := t.dir.GetBucketPageId index
  let t := t.FetchBucketPage bucket_page_id
  let r := (t.buckets bucket_page_id).GetValue key result
  let t := t.UnpinPage t.directory_page_id false
  let t := t.UnpinPage bucket_page_id false
  (r.1, r.2, t)

/-- The redistribution loop of `SplitInsert` (lines 181-189): each drained
pair goes to the new page when its directory slot resolves to `new_page_id`
and back to the old page otherwise; the result of the bucket insert is
dropped, as in the source. -/
def redistribute (hash_fn : K → Nat) (dir : HashTableDirectoryPage) (old_page_id new_page_id : Nat) :
    List (K × V) → (Nat → HashTableBucketPage K V) → (Nat → HashTableBucketPage K V)
  | [], pages => pages
  | (k, v) :: rest, pages =>
    let tmp_index := KeyToDirectoryIndex hash_fn k dir
    let tmp_page_id := dir.GetBucketPageId tmp_index
    if tmp_page_id = new_page_id then
      redistribute hash_fn dir old_page_id new_page_id rest
        (Function.update pages new_page_id ((pages new_page_id).Insert k v).2)
    else
      redistribute hash_fn dir old_page_id new_page_id rest
        (Function.update pages old_page_id ((pages old_page_id).Insert k v).2)

/-- The depth transform of `SplitInsert` (lines 151-170) on directory slot
`index`: the directory after it, `new_idx`, and whether the out-of-bound exit
(lines 164-169, with its `DecrLocalDepth`) is taken. -/
def splitDepthTransform (dir : HashTableDirectoryPage) (index : Nat) :
    HashTableDirectoryPage × Nat × Bool :=
  let local_depth := dir.GetLocalDepth index
  if local_depth < dir.GetGlobalDepth then
    let d := dir.IncrLocalDepth index
    let local_depth := d.GetLocalDepth index
    (d, index ^^^ shl32 1 (sub32 local_depth 1), false)
  else if local_depth = dir.GetGlobalDepth then
    let d := dir.IncrLocalDepth index
    let global_depth := d.GetGlobalDepth
    let new_idx := index ||| shl32 1 (sub32 global_depth 1)
    if new_idx ≥ DIRECTORY_ARRAY_SIZE then (d.DecrLocalDepth index, new_idx, true)
    else (d, new_idx, false)
  else (dir, index, false)

/-- Method `SplitInsert` (lines 143-195). -/
def SplitInsert [Inhabited K] [Inhabited V] (B : Nat) (hash_fn : K → Nat)
    (t : ExtendibleHashTable K V) (key : K) (value : V) : Bool × ExtendibleHashTable K V :=
  let t := t.FetchDirectoryPage
  let index := KeyToDirectoryIndex hash_fn key t.dir
  let old_page_id := t.dir.GetBucketPageId index
  let t := t.FetchBucketPage old_page_id
  let step := splitDepthTransform t.dir index
  if step.2.2 then
    let t := { t with dir := step.1 }
    let t := t.UnpinPage t.directory_page_id false
    let t := t.UnpinPage old_page_id false
    (false, t)
  else
    let new_idx := step.2.1
    let r := t.bpm.NewPage
    let new_page_id := r.1
    let pages := Function.update t.buckets new_page_id (HashTableBucketPage.fresh B)
    let d := step.1.SeperatePageId index new_idx new_page_id
    let drained := (pages old_page_id).EmptyArray []
    let pages := Function.update pages old_page_id drained.2
    let kvs := drained.1 ++ [(key, value)]
    let pages := redistribute hash_fn d old_page_id new_page_id kvs pages
    let t : ExtendibleHashTable K V := { t with bpm := r.2, dir := d, buckets := pages }
    let t := t.UnpinPage t.directory_page_id true
    let t := t.UnpinPage old_page_id true
    let t := t.UnpinPage new_page_id true
    (true, t)

/-- Method `Insert` (lines 111-141). -/
def Insert [Inhabited K] [Inhabited V] (B : Nat) (hash_fn : K → Nat)
    (t : ExtendibleHashTable K V) (key : K) (value : V) : Bool × ExtendibleHashTable K V :=
  let t := t.FetchDirectoryPage
  let index := KeyToDirectoryIndex hash_fn key t.dir
  let bucket_page_id := t.dir.GetBucketPageId index
  let t := t.FetchBucketPage bucket_page_id
  let r := (t.buckets bucket_page_id).Insert key value
  if r.1 then
    let t := { t with buckets := Function.update t.buckets bucket_page_id r.2 }
    let t := t.UnpinPage t.directory_page_id false
    let t := t.UnpinPage bucket_page_id true
    (true, t)
  else if (t.buckets bucket_page_id).IsFull B
      && !(t.buckets bucket_page_id).CheckKeyValueExist key value then
    let s := SplitInsert B hash_fn t key value
    let t := s.2.UnpinPage s.2.directory_page_id true
    let t := t.UnpinPage bucket_page_id true
    (s.1, t)
  else
    let t := t.UnpinPage t.directory_page_id false
    let t := t.UnpinPage bucket_page_id false
    (false, t)

/-- The structural update of `Merge` (lines 259-270) on directory slot
`index` with merge candidate `merge_page_index`. -/
def mergeTransform (dir : HashTableDirectoryPage) (index local_depth merge_page_index : Nat) :
    HashTableDirectoryPage :=
  if dir.GetLocalDepth index = dir.GetGlobalDepth then
    let merge_page_id := dir.GetBucketPageId merge_page_index
    let d := dir.SetBucketPageId index merge_page_id
    let d := d.SetBucketPageId merge_page_index merge_page_id
    d.DecrLocalDepth index
  else
    let next_local_mask := sub32 (shl32 1 local_depth) 1 >>> 1
    let merge_page_id := dir.GetBucketPageId merge_page_index
    let d := dir.MergePageId index next_local_mask merge_page_id
    d.DecrLocalDepth index

/-- Method `Merge` (lines 233-287).  The source recurses; `fuel` bounds the number of
nested calls and `none` means the bound was reached before the cascade
ended. -/
def Merge (hash_fn : K → Nat) :
    Nat → ExtendibleHashTable K V → K → V → Option (ExtendibleHashTable K V)
  | 0, _, _, _ => none
  | fuel + 1, t, key, value =>
    let t := t.FetchDirectoryPage
    let index := KeyToDirectoryIndex hash_fn key t.dir
    let local_depth := t.dir.GetLocalDepth index
    let merge_page_index := index ^^^ shl32 1 (sub32 local_depth 1)
    if local_depth = 0 ∨ local_depth ≠ t.dir.GetLocalDepth merge_page_index then
      some (t.UnpinPage t.directory_page_id false)
    else
      let page_id := t.dir.GetBucketPageId index
      let t := t.FetchBucketPage page_id
      if !(t.buckets page_id).IsEmpty then
        let t := t.UnpinPage t.directory_page_id false
        some (t.UnpinPage page_id false)
      else
        let t := t.UnpinPage page_id false
        let t := { t with dir := mergeTransform t.dir index local_depth merge_page_index }
        let new_index := KeyToDirectoryIndex hash_fn key t.dir
        let new_page_id := t.dir.GetBucketPageId new_index
        let t := t.UnpinPage t.directory_page_id true
        let t := t.FetchBucketPage new_page_id
        if (t.buckets new_page_id).IsEmpty then
          let t := t.UnpinPage new_page_id true
          Merge hash_fn fuel t key value
        else
          some (t.UnpinPage new_page_id false)

/-- Method `Remove` (lines 200-228).  `fuel` is handed to `Merge`; the result is
`none` only when the merge cascade did not end within `fuel` nested calls. -/
def Remove (hash_fn : K → Nat) (fuel : Nat) (t : ExtendibleHashTable K V) (key : K) (value : V) :
    Option (Bool × ExtendibleHashTable K V) :=
  let t := t.FetchDirectoryPage
  let index := KeyToDirectoryIndex hash_fn key t.dir
  let page_id := t.dir.GetBucketPageId index
  let t := t.FetchBucketPage page_id
  let r := (t.buckets page_id).Remove key value
  if !r.1 then
    let t := t.UnpinPage t.directory_page_id false
    let t := t.UnpinPage page_id false
    some (false, t)
  else
    let t := { t with buckets := Function.update t.buckets page_id r.2 }
    if (t.buckets page_id).IsEmpty && decide (t.dir.GetLocalDepth index > 0) then
      match Merge hash_fn fuel t key value with
      | none => none
      | some t =>
        let t := t.UnpinPage t.directory_page_id true
        let t := t.UnpinPage page_id true
        some (true, t)
    else
      let t := t.UnpinPage t.directory_page_id false
      let t := t.UnpinPage page_id true
      some (true, t)

end Coordinator

end ExtendibleHashTable

/-! ## Vocabulary of the properties -/

namespace BufferPoolManager

/-- A page id the pool has not handed out yet carries no pin. -/
def WF (bpm : BufferPoolManager) : Prop :=
  ∀ p, bpm.next_page_id ≤ p → bpm.pin_count p = 0

end BufferPoolManager

namespace HashTableBucketPage

/-- The slot invariant of the data model (spec 3): `readable ⇒ occupied`. -/
def SlotsWF {K V : Type} (b : HashTableBucketPage K V) : Prop :=
  ∀ s ∈ b, s.readable = true → s.occupied = true

/-- A bucket page in good shape: every readable slot is occupied and no pair
is stored twice. -/
def Good {K V : Type} (b : HashTableBucketPage K V) : Prop :=
  SlotsWF b ∧ (pairs b).Nodup

/-- Insert the pairs of a list one after the other, dropping each result. -/
def insertAll {K V : Type} [DecidableEq K] [DecidableEq V] (b : HashTableBucketPage K V) :
    List (K × V) → HashTableBucketPage K V
  | [] => b
  | (k, v) :: rest => insertAll (b.Insert k v).2 rest

end HashTableBucketPage

/-- The effect of one pool call on the number of outstanding pins of page
`p`: `NewPage` and `FetchPage` of `p` add one, `UnpinPage` of `p` takes one. -/
def pinDelta (p : Nat) : PoolEvent → Int
  | PoolEvent.NewPage q => if q = p then 1 else 0
  | PoolEvent.FetchPage q => if q = p then 1 else 0
  | PoolEvent.UnpinPage q _ => if q = p then -1 else 0

/-- Pins of page `p` taken and not yet given back along a list of pool
calls. -/
def outstanding (p : Nat) (events : List PoolEvent) : Int :=
  (events.map (pinDelta p)).sum

namespace HashTableDirectoryPage

/-- The depth invariant (spec 8, property 4) on the live slots. -/
def DepthInvariant (d : HashTableDirectoryPage) : Prop :=
  ∀ i < d.Size, ∀ j < d.Size, d.bucket_page_ids i = d.bucket_page_ids j →
    i % 2 ^ d.local_depths i = j % 2 ^ d.local_depths i ∧ d.local_depths i = d.local_depths j

instance (d : HashTableDirectoryPage) : Decidable d.DepthInvariant := by
  unfold DepthInvariant; infer_instance

/-- The number of live slots that hold the page id `pid`. -/
def pointerCount (d : HashTableDirectoryPage) (pid : Nat) : Nat :=
  ((List.range d.Size).filter (fun j => decide (d.bucket_page_ids j = pid))).length

/-- The pointer-count invariant (spec 8, property 5, with the bound of
section 3): the page of every live slot is held by exactly
`2^(global_depth - local_depth)` live slots, and `local_depth ≤ global_depth`. -/
def PointerCountInvariant (d : HashTableDirectoryPage) : Prop :=
  ∀ i < d.Size,
    d.pointerCount (d.bucket_page_ids i) = 2 ^ (d.global_depth - d.local_depths i) ∧
    d.local_depths i ≤ d.global_depth

instance (d : HashTableDirectoryPage) : Decidable d.PointerCountInvariant := by
  unfold PointerCountInvariant; infer_instance

/-- A directory of global depth one whose local depths are at most two and
are zero outside the two live slots: the shape every directory reachable from
a fresh index has in this model, where no call of the coordinator raises the
global depth. -/
def DirSmall (d : HashTableDirectoryPage) : Prop :=
  d.global_depth = 1 ∧ (∀ j, 2 ≤ j → d.local_depths j = 0) ∧ (∀ j, d.local_depths j ≤ 2)

end HashTableDirectoryPage

namespace ExtendibleHashTable

section Vocabulary

variable {K V : Type} [DecidableEq K] [DecidableEq V]

/-- The bucket page the directory resolves `key` to. -/
def bucketOf (hash_fn : K → Nat) (t : ExtendibleHashTable K V) (key : K) : HashTableBucketPage K V :=
  t.buckets (KeyToPageId hash_fn key t.dir)

/-- A call on the index. -/
inductive Op (K V : Type) where
  | getValue (key : K)
  | insert (key : K) (value : V)
  | remove (key : K) (value : V)

/-- Run one call; the flag is what the call returns.  `none` only when a
`Remove` did not end within `fuel` nested `Merge` calls. -/
def applyOp [Inhabited K] [Inhabited V] (B : Nat) (hash_fn : K → Nat) (fuel : Nat)
    (t : ExtendibleHashTable K V) : Op K V → Option (Bool × ExtendibleHashTable K V)
  | Op.getValue key => some ((GetValue hash_fn t key []).1, (GetValue hash_fn t key []).2.2)
  | Op.insert key value => some (Insert B hash_fn t key value)
  | Op.remove key value => Remove hash_fn fuel t key value

/-- Run a sequence of calls in order, collecting the returned flags. -/
def runOps [Inhabited K] [Inhabited V] (B : Nat) (hash_fn : K → Nat) (fuel : Nat) :
    ExtendibleHashTable K V → List (Op K V) → Option (List Bool × ExtendibleHashTable K V)
  | t, [] => some ([], t)
  | t, op :: rest =>
    match applyOp B hash_fn fuel t op with
    | none => none
    | some r =>
      match runOps B hash_fn fuel r.2 rest with
      | none => none
      | some q => some (r.1 :: q.1, q.2)

/-- The states an index can be in: those a freshly constructed index (on any
pool, its pages zeroed) reaches by `GetValue`, `Insert` and `Remove` calls. -/
inductive Reachable [Inhabited K] [Inhabited V] (B : Nat) (hash_fn : K → Nat) :
    ExtendibleHashTable K V → Prop
  | fresh (bpm : BufferPoolManager) :
      Reachable B hash_fn (ctor B bpm (fun _ => HashTableBucketPage.fresh B))
  | getValue {t : ExtendibleHashTable K V} (key : K) (result : List V) :
      Reachable B hash_fn t → Reachable B hash_fn (GetValue hash_fn t key result).2.2
  | insert {t : ExtendibleHashTable K V} (key : K) (value : V) :
      Reachable B hash_fn t → Reachable B hash_fn (Insert B hash_fn t key value).2
  | remove {t : ExtendibleHashTable K V} (fuel : Nat) (key : K) (value : V)
      (r : Bool × ExtendibleHashTable K V) :
      Reachable B hash_fn t → Remove hash_fn fuel t key value = some r → Reachable B hash_fn r.2

end Vocabulary

/-- A pool that has handed out no page yet. -/
def emptyPool : BufferPoolManager :=
  { next_page_id := 0, pin_count := fun _ => 0, events := [] }

/-- A freshly constructed index with integer keys and values and bucket
capacity `B`, on an empty pool (the set-up of the spec's scenarios S1-S6). -/
def freshIndex (B : Nat) : ExtendibleHashTable Nat Nat :=
  ctor B emptyPool (fun _ => HashTableBucketPage.fresh B)

/-- The pairs `(0,0), (2,0), ..., (2(n-1),0)`. -/
def evenPairs (n : Nat) : List (Nat × Nat) := (List.range n).map (fun i => (2 * i, 0))

/-- The index after `Insert` of the first `n` pairs of `evenPairs` into a fresh
index of capacity `B`: the directory is still the initial one and the one
bucket (page 1) holds exactly these pairs. -/
def FilledEven (B n : Nat) (t : ExtendibleHashTable Nat Nat) : Prop :=
  t.dir.global_depth = 1 ∧ t.dir.bucket_page_ids 0 = 1 ∧ t.dir.local_depths 0 = 0 ∧
  t.bpm.next_page_id = 2 ∧ (t.buckets 1).length = B ∧ (t.buckets 1).SlotsWF ∧
  (HashTableBucketPage.pairs (t.buckets 1)).Perm (evenPairs n)

end ExtendibleHashTable

/-! ## LRU replacer (`lru_replacer.cpp`) -/

/-- The type `frame_id_t` of the buffer pool, a 32-bit signed integer. -/
abbrev frame_id_t := Int

/-- The state of `LRUReplacer`: the capacity, the list `dlink_` of unpinned
frames (front first: the most recently unpinned frame is the head, the victim
candidate is the last element) and the key set of `unpinned_map_`.  The map
sends a frame to the iterator of its list node; in the list model the node of
a frame is the occurrence of that frame in `dlink_`. -/
structure LRUReplacer where
  capacity_ : Nat
  dlink_ : List frame_id_t
  unpinned_map_ : Finset frame_id_t
deriving DecidableEq

namespace LRUReplacer

/-- The constructor `LRUReplacer::LRUReplacer(num_pages)` (line 17): it stores
the capacity; list and map start empty. -/
def ctor (num_pages : Nat) : LRUReplacer :=
  { capacity_ := num_pages, dlink_ := [], unpinned_map_ := ∅ }

/-- Method `Victim` (lines 21-33).  `frame_id` is the content of the output
parameter before the call; the result is the returned flag, the content of
the output parameter after the call and the new state. -/
def Victim (r : LRUReplacer) (frame_id : frame_id_t) : Bool × frame_id_t × LRUReplacer :=
  match r.dlink_.getLast? with
  | none => (false, frame_id, r)
  | some back =>
    (true, back,
      { r with unpinned_map_ := r.unpinned_map_.erase back, dlink_ := r.dlink_.dropLast })

/-- Method `Pin` (lines 35-45).  `dlink_.erase(cur)` removes the list node the
map holds for `frame_id`, that is the occurrence of `frame_id` in the list. -/
def Pin (r : LRUReplacer) (frame_id : frame_id_t) : LRUReplacer :=
  if frame_id ∉ r.unpinned_map_ then r
  else
    { r with dlink_ := r.dlink_.erase frame_id, unpinned_map_ := r.unpinned_map_.erase frame_id }

/-- Method `Unpin` (lines 47-56). -/
def Unpin (r : LRUReplacer) (frame_id : frame_id_t) : LRUReplacer :=
  if frame_id ∈ r.unpinned_map_ ∨ r.unpinned_map_.card = r.capacity_ then r
  else
    { r with dlink_ := frame_id :: r.dlink_, unpinned_map_ := insert frame_id r.unpinned_map_ }

/-- Method `Size` (line 58): the size of the map. -/
def Size (r : LRUReplacer) : Nat := r.unpinned_map_.card

/-- A call on the replacer; `victim` carries the previous content of its
output parameter. -/
inductive Call where
  | victim (frame_id : frame_id_t)
  | pin (frame_id : frame_id_t)
  | unpin (frame_id : frame_id_t)
deriving DecidableEq

/-- Run one call. -/
def step (r : LRUReplacer) : Call → LRUReplacer
  | Call.victim x => (r.Victim x).2.2
  | Call.pin f => r.Pin f
  | Call.unpin f => r.Unpin f

/-- Run a sequence of calls in order. -/
def run (r : LRUReplacer) (calls : List Call) : LRUReplacer :=
  calls.foldl step r

/-- The states a replacer can be in: those reached from a new replacer of some
capacity by `Victim`, `Pin` and `Unpin` calls. -/
def Reachable (r : LRUReplacer) : Prop :=
  ∃ (C : Nat) (calls : List Call), run (ctor C) calls = r

/-- The invariant of the replacer (spec 3, "LRU replacer"): no frame occurs
twice in the list, the list is no longer than the capacity, and the keys of
the map are exactly the elements of the list. -/
def Inv (r : LRUReplacer) : Prop :=
  r.dlink_.Nodup ∧ r.dlink_.length ≤ r.capacity_ ∧ r.unpinned_map_ = r.dlink_.toFinset

/-- Unpin the frames of a list one after the other. -/
def unpinAll (r : LRUReplacer) (frames : List frame_id_t) : LRUReplacer :=
  frames.foldl Unpin r

/-- Call `Victim` `n` times; the returned flags and outputs, in call order,
and the final state.  The output parameter starts as `x`. -/
def victims : Nat → LRUReplacer → frame_id_t → List (Bool × frame_id_t) × LRUReplacer
  | 0, r, _ => ([], r)
  | n + 1, r, x =>
    let v := r.Victim x
    let rest := victims n v.2.2 v.2.1
    ((v.1, v.2.1) :: rest.1, rest.2)

end LRUReplacer

/-! ## Matrices (`p0_starter.h`) -/

/-- The exception types of `common/exception.h` that the matrix code throws. -/
inductive ExceptionType where
  | OUT_OF_RANGE
deriving DecidableEq, Repr

deriving instance DecidableEq for Except

/-- What a call can throw: a `bustub::Exception` of some type, or the
`std::bad_array_new_length` of an array new-expression whose size is
negative. -/
inductive Thrown where
  | Exception (type : ExceptionType)
  | bad_array_new_length
deriving DecidableEq, Repr

/-- The conversion `static_cast<int>(n)` of a `size_t` value to the 32-bit
`int`: the value modulo `2^32` in the range `[-2^31, 2^31)`. -/
def static_cast_int (n : Nat) : Int := Int.bmod (n : Int) (2 ^ 32)

/-- The state of a `RowMatrix<int>`: the two dimensions and the flattened
array `linear_`.  The row pointer `data_[i]` is `&linear_[i * cols_]`
(line 120), so `data_[i][j]` is `linear_[i * cols_ + j]`.  `int` arithmetic on
dimensions and elements is exact here: it is signed, and its overflow is
undefined in the source. -/
structure RowMatrix where
  rows_ : Int
  cols_ : Int
  linear_ : List Int
deriving DecidableEq, Repr

namespace RowMatrix

/-- The constructor `RowMatrix(rows, cols)` (lines 114-122): a zero-filled
array of `rows * cols` elements and an array of `rows` row pointers. -/
def ctor (rows cols : Int) : Except Thrown RowMatrix :=
  if rows * cols < 0 ∨ rows < 0 then throw Thrown.bad_array_new_length
  else pure { rows_ := rows, cols_ := cols, linear_ := List.replicate (rows * cols).toNat 0 }

/-- Method `GetRowCount` (line 128). -/
def GetRowCount (m : RowMatrix) : Int := m.rows_

/-- Method `GetColumnCount` (line 134). -/
def GetColumnCount (m : RowMatrix) : Int := m.cols_

/-- Method `GetElement` (lines 148-153). -/
def GetElement (m : RowMatrix) (i j : Int) : Except Thrown Int :=
  if i < 0 ∨ j < 0 ∨ i ≥ m.rows_ ∨ j ≥ m.cols_ then
    throw (Thrown.Exception ExceptionType.OUT_OF_RANGE)
  else pure (m.linear_.getD (i * m.cols_ + j).toNat 0)

/-- Method `SetElement` (lines 165-170); the result is the matrix after the
call. -/
def SetElement (m : RowMatrix) (i j : Int) (val : Int) : Except Thrown RowMatrix :=
  if i < 0 ∨ j < 0 ∨ i ≥ m.rows_ ∨ j ≥ m.cols_ then
    throw (Thrown.Exception ExceptionType.OUT_OF_RANGE)
  else pure { m with linear_ := m.linear_.set (i * m.cols_ + j).toNat val }

/-- Method `FillFrom` (lines 183-190); the result is the matrix after the
call.  The loop runs `i` from 0 while `i < static_cast<int>(source.size())`. -/
def FillFrom (m : RowMatrix) (source : List Int) : Except Thrown RowMatrix :=
  if static_cast_int source.length ≠ m.rows_ * m.cols_ then
    throw (Thrown.Exception ExceptionType.OUT_OF_RANGE)
  else
    pure { m with
      linear_ := (List.range (static_cast_int source.length).toNat).foldl
        (fun linear i => linear.set i (source.getD i 0)) m.linear_ }

/-- The representation invariant of a matrix object: what the constructor
establishes and `SetElement` and `FillFrom` keep. -/
def WF (m : RowMatrix) : Prop :=
  0 ≤ m.rows_ ∧ 0 ≤ m.rows_ * m.cols_ ∧ m.linear_.length = (m.rows_ * m.cols_).toNat

instance (m : RowMatrix) : Decidable (WF m) := by
  unfold WF
  infer_instance

/-- Both indices are in range. -/
def InRange (m : RowMatrix) (i j : Int) : Prop :=
  0 ≤ i ∧ i < m.rows_ ∧ 0 ≤ j ∧ j < m.cols_

instance (m : RowMatrix) (i j : Int) : Decidable (InRange m i j) := by
  unfold InRange
  infer_instance

end RowMatrix

namespace RowMatrixOperations

/-- Function `RowMatrixOperations::Add` (lines 227-245); `none` is the null
pointer.  The arguments are pointers to constant matrices, on which only
`GetElement` is called. -/
def Add (matrixA matrixB : RowMatrix) : Except Thrown (Option RowMatrix) :=
  let ca := matrixA.GetColumnCount
  let ra := matrixA.GetRowCount
  let cb := matrixB.GetColumnCount
  let rb := matrixB.GetRowCount
  if ca = cb ∧ ra = rb then do
    let matrix ← RowMatrix.ctor ra ca
    let matrix ← (List.range ra.toNat).foldlM (fun matrix (i : Nat) =>
      (List.range ca.toNat).foldlM (fun matrix (j : Nat) => do
        let va ← matrixA.GetElement i j
        let vb ← matrixB.GetElement i j
        RowMatrix.SetElement matrix i j (va + vb)) matrix) matrix
    pure (some matrix)
  else pure none

end RowMatrixOperations

/-! ## States for the directory scenarios -/

namespace ExtendibleHashTable

/-- A bucket of capacity 1 holding the pair `(key, 0)`. -/
def singletonBucket (key : Nat) : HashTableBucketPage Nat Nat :=
  ((HashTableBucketPage.fresh 1 : HashTableBucketPage Nat Nat).Insert key 0).2

end ExtendibleHashTable

/-! ## Matrix product (`p0_starter.h`) -/

namespace RowMatrix

end RowMatrix

namespace RowMatrixOperations

end RowMatrixOperations

/-! ## Query executors (`hash_join_executor`, `distinct_executor`)

The types `Value`, `Tuple` and `Schema`, the expressions, the plan nodes and
`HashUtil` are not among the source files; they are parameters here.  Values
are non-null and `CompareEquals` on them is equality.  A child executor is the
sequence of tuples its `Next` still has to produce. -/

/-- The two functions of `common/util/hash_util.h` the key hash functions
call. -/
structure HashUtil (Value : Type) where
  CombineHashes : Nat → Nat → Nat
  HashValue : Value → Nat

section Executors

variable {Value Tuple Schema T : Type} [DecidableEq Value]

/-- Method `operator==` of `HashJoinKey` (hash_join_executor.h lines 32-39) and
of `DistinctValueKey` (distinct_executor.h lines 29-36): it runs over the
indices of `other` and compares `values_[i]` with `other.values_[i]`; an index
beyond the own values does not compare equal. -/
def keyEquals (self other : List Value) : Bool :=
  (List.range other.length).all (fun i => decide (self[i]? = other[i]?))

/-- Method `operator()` of `HashJoinKeysHashFunction` (hash_join_executor.h
lines 44-52) and of `DistinctHashFunction` (distinct_executor.h lines 41-49). -/
def keyHash (u : HashUtil Value) (key : List Value) : Nat :=
  key.foldl (fun map_key v => u.CombineHashes map_key (u.HashValue v)) 0

/-- Lookup in the `std::unordered_map` `hm_`, an entry list here: the entry
whose key has the hash of `key` and to which `key == entry key` holds. -/
def mapFind (u : HashUtil Value) (hm : List (List Value × T)) (key : List Value) :
    Option (List Value × T) :=
  hm.find? (fun e => decide (keyHash u e.1 = keyHash u key) && keyEquals key e.1)

/-- Method `count` of the map. -/
def mapCount (u : HashUtil Value) (hm : List (List Value × T)) (key : List Value) : Nat :=
  if (mapFind u hm key).isSome then 1 else 0

/-- Method `insert` of the map: a new entry, unless the key is present. -/
def mapInsert (u : HashUtil Value) (hm : List (List Value × T)) (key : List Value) (v : T) :
    List (List Value × T) :=
  if (mapFind u hm key).isSome then hm else hm ++ [(key, v)]

/-- The value `hm_[key]` of a key that is present (the default value `d`
otherwise). -/
def mapAt (u : HashUtil Value) (hm : List (List Value × T)) (key : List Value) (d : T) : T :=
  match mapFind u hm key with
  | some e => e.2
  | none => d

/-- The statement `hm_[key] = f(hm_[key])` on a key that is present: the
first entry the lookup finds is rewritten. -/
def mapModify (u : HashUtil Value) (key : List Value) (f : T → T) :
    List (List Value × T) → List (List Value × T)
  | [] => []
  | e :: rest =>
    if decide (keyHash u e.1 = keyHash u key) && keyEquals key e.1 then (e.1, f e.2) :: rest
    else e :: mapModify u key f rest

/-- What a `HashJoinExecutor` gets from its plan and its children: the
`Evaluate` functions of the two join-key expressions, the output schemas of
the two children, and the tuple `Tuple(CombinedTuples(left, right), schema)`
built from a left and a right tuple. -/
structure HashJoinPlanNode (Value Tuple Schema : Type) where
  LeftJoinKeyExpression : Tuple → Schema → Value
  RightJoinKeyExpression : Tuple → Schema → Value
  left_schema : Schema
  right_schema : Schema
  CombinedTuples : Tuple → Tuple → Tuple
  hash_util : HashUtil Value

/-- The state of a `HashJoinExecutor`. -/
structure HashJoinExecutor (Value Tuple : Type) where
  left_child_ : List Tuple
  right_child_ : List Tuple
  hm_ : List (List Value × List Tuple)
  more_combination_ : Bool
  cur_vector_ : List Tuple
  cur_id_ : Nat
  cur_right_tuple_ : Tuple

namespace HashJoinExecutor

/-- Method `InsertCombine` (hash_join_executor.cpp lines 78-84). -/
def InsertCombine (u : HashUtil Value) (hm : List (List Value × List Tuple))
    (join_key : List Value) (join_tuple : Tuple) : List (List Value × List Tuple) :=
  let hm := if mapCount u hm join_key = 0 then mapInsert u hm join_key [] else hm
  mapModify u join_key (fun v => v ++ [join_tuple]) hm

/-- The constructor followed by `Init` (lines 25-42) on children that produce
`left` and `right`: the flags are set and the left child is drained into the
map. -/
def Init [Inhabited Tuple] (plan : HashJoinPlanNode Value Tuple Schema)
    (left right : List Tuple) : HashJoinExecutor Value Tuple :=
  { left_child_ := []
    right_child_ := right
    hm_ := left.foldl (fun hm tuple =>
      InsertCombine plan.hash_util hm
        [plan.LeftJoinKeyExpression tuple plan.left_schema] tuple) []
    more_combination_ := false
    cur_vector_ := []
    cur_id_ := 2 ^ 64 - 1
    cur_right_tuple_ := default }

/-- The loop of `Next` (lines 54-65) over the tuples the right child still
produces; `right_key` is the key object of this call of `Next`, to which each
round appends. -/
def scanRight [Inhabited Tuple] (plan : HashJoinPlanNode Value Tuple Schema)
    (s : HashJoinExecutor Value Tuple) :
    List Tuple → List Value → Option Tuple × HashJoinExecutor Value Tuple
  | [], _ => (none, { s with right_child_ := [] })
  | right_tuple :: rest, right_key =>
    let right_key := right_key ++ [plan.RightJoinKeyExpression right_tuple plan.left_schema]
    if mapCount plan.hash_util s.hm_ right_key = 0 then scanRight plan s rest right_key
    else
      let v := mapAt plan.hash_util s.hm_ right_key []
      (some (plan.CombinedTuples (v.getD 0 default) right_tuple),
        { s with
          right_child_ := rest
          more_combination_ := decide (v.length > 1)
          cur_id_ := 1
          cur_vector_ := v
          cur_right_tuple_ := right_tuple })

/-- Method `Next` (lines 44-67): `none` is the return value false, `some t`
the return value true with `*tuple = t`. -/
def Next [Inhabited Tuple] (plan : HashJoinPlanNode Value Tuple Schema)
    (s : HashJoinExecutor Value Tuple) : Option Tuple × HashJoinExecutor Value Tuple :=
  if s.more_combination_ then
    let cur_id := (s.cur_id_ + 1) % 2 ^ 64
    (some (plan.CombinedTuples (s.cur_vector_.getD s.cur_id_ default) s.cur_right_tuple_),
      { s with cur_id_ := cur_id, more_combination_ := decide (cur_id < s.cur_vector_.length) })
  else scanRight plan s s.right_child_ []

/-- Call `Next` until it returns false, at most `fuel` times: the tuples
produced and the final state; `none` if `Next` did not return false within
`fuel` calls. -/
def NextAll [Inhabited Tuple] (plan : HashJoinPlanNode Value Tuple Schema) :
    Nat → HashJoinExecutor Value Tuple → Option (List Tuple × HashJoinExecutor Value Tuple)
  | 0, _ => none
  | fuel + 1, s =>
    match Next plan s with
    | (none, s) => some ([], s)
    | (some t, s) => (NextAll plan fuel s).map (fun r => (t :: r.1, r.2))

/-- The join as the claim words it: for each right tuple in child order, the
combined tuples with its matching left tuples in left-child order, where a
left and a right tuple match if their join-key values are equal. -/
def joinResult (plan : HashJoinPlanNode Value Tuple Schema) (left right : List Tuple) :
    List Tuple :=
  (right.map (fun r =>
    (left.filter (fun l =>
      decide (plan.LeftJoinKeyExpression l plan.left_schema =
        plan.RightJoinKeyExpression r plan.right_schema))).map
      (fun l => plan.CombinedTuples l r))).flatten

/-- A join of one-column integer tables on their column: tuples are rows, both
children have the same schema, the key expressions read column 0, and the
output tuple is the left row followed by the right row.  The hash functions
are left open. -/
def columnJoinPlan (u : HashUtil Int) : HashJoinPlanNode Int (List Int) Unit :=
  { LeftJoinKeyExpression := fun tuple _ => tuple.getD 0 0
    RightJoinKeyExpression := fun tuple _ => tuple.getD 0 0
    left_schema := ()
    right_schema := ()
    CombinedTuples := fun left right => left ++ right
    hash_util := u }

end HashJoinExecutor

/-- What a `DistinctExecutor` gets from its plan: the column count of the
output schema, `tuple.GetValue(GetOutputSchema(), i)`, and `HashUtil`. -/
structure DistinctPlanNode (Value Tuple : Type) where
  column_count : Nat
  GetValue : Tuple → Nat → Value
  hash_util : HashUtil Value

/-- The state of a `DistinctExecutor`. -/
structure DistinctExecutor (Value Tuple : Type) where
  child_executor_ : List Tuple
  hm_ : List (List Value × Nat)

namespace DistinctExecutor

/-- The constructor followed by `Init` (distinct_executor.cpp lines 17-24) on
a child that produces `child`. -/
def Init (child : List Tuple) : DistinctExecutor Value Tuple :=
  { child_executor_ := child, hm_ := [] }

/-- The values `dk.values_` read from a child tuple (lines 31-33). -/
def rowOf (plan : DistinctPlanNode Value Tuple) (tmp_tuple : Tuple) : List Value :=
  (List.range plan.column_count).map (fun i => plan.GetValue tmp_tuple i)

/-- The loop of `Next` (lines 29-39) over the tuples the child still
produces, with the map `hm`; a produced tuple `Tuple(dk.values_, schema)` is
given by its values. -/
def scanChild (plan : DistinctPlanNode Value Tuple) (hm : List (List Value × Nat)) :
    List Tuple → Option (List Value) × DistinctExecutor Value Tuple
  | [] => (none, { child_executor_ := [], hm_ := hm })
  | tmp_tuple :: rest =>
    let dk := rowOf plan tmp_tuple
    if mapCount plan.hash_util hm dk = 0 then
      (some dk, { child_executor_ := rest, hm_ := mapInsert plan.hash_util hm dk 1 })
    else scanChild plan hm rest

/-- Method `Next` (lines 26-41): `none` is the return value false. -/
def Next (plan : DistinctPlanNode Value Tuple) (s : DistinctExecutor Value Tuple) :
    Option (List Value) × DistinctExecutor Value Tuple :=
  scanChild plan s.hm_ s.child_executor_

/-- Call `Next` until it returns false, at most `fuel` times: the rows
produced; `none` if `Next` did not return false within `fuel` calls. -/
def NextAll (plan : DistinctPlanNode Value Tuple) :
    Nat → DistinctExecutor Value Tuple → Option (List (List Value))
  | 0, _ => none
  | fuel + 1, s =>
    match Next plan s with
    | (none, _) => some []
    | (some row, s) => (NextAll plan fuel s).map (fun r => row :: r)

end DistinctExecutor

end Executors

/-! ## A full bucket of capacity one -/

namespace ExtendibleHashTable

/-- The index of bucket capacity 1 after `Insert(0,0)` into a fresh index: its
one bucket (page 1, held by both directory slots) is full. -/
def oneFullIndex : ExtendibleHashTable Nat Nat := (Insert 1 id (freshIndex 1) 0 0).2

end ExtendibleHashTable

/-! ## A state with two buckets at local depth one -/

namespace ExtendibleHashTable

/-- The index of bucket capacity 1 after `Insert` of `(0,0)`, `(1,0)`, `(2,0)`
and `(1,5)` into a fresh index: slot 0 holds page 2 with `(0,0)`, slot 1 holds
page 3 with `(1,5)`, both with local depth 1. -/
def mergeReadyIndex : ExtendibleHashTable Nat Nat :=
  (Insert 1 id (Insert 1 id (Insert 1 id oneFullIndex 1 0).2 2 0).2 1 5).2

end ExtendibleHashTable

/-! ## Nested loop join (`nested_loop_join_executor.cpp`)

As for the other executors, the tuple, schema and expression types are
parameters, and a child executor is the sequence of tuples its `Next` still
has to produce; `Init` of a child makes it produce its sequence again. -/

/-- What a `NestedLoopJoinExecutor` gets from its plan and its children: the
predicate (`none` for `nullptr`) as the function
`EvaluateJoin(left, left schema, right, right schema).GetAs<bool>()`, the
function `EvaluateJoin` of the expression of each output column, and the
output schemas of the two children. -/
structure NestedLoopJoinPlanNode (Value Tuple Schema : Type) where
  Predicate : Option (Tuple → Schema → Tuple → Schema → Bool)
  columns : List (Tuple → Schema → Tuple → Schema → Value)
  left_schema : Schema
  right_schema : Schema

/-- The state of a `NestedLoopJoinExecutor`. -/
structure NestedLoopJoinExecutor (Tuple : Type) where
  left_executor_ : List Tuple
  right_executor_ : List Tuple
  left_tuple_ : Tuple
  cur_left_available_ : Bool

namespace NestedLoopJoinExecutor

section NestedLoop

variable {Value Tuple Schema : Type}

/-- Method `Init` (nested_loop_join_executor.cpp lines 25-32) on an executor
in state `s` whose children produce `left` and `right` after their `Init`;
the member `left_tuple_` is not touched. -/
def Init (s : NestedLoopJoinExecutor Tuple) (left right : List Tuple) :
    NestedLoopJoinExecutor Tuple :=
  { s with
    left_executor_ := left
    right_executor_ := right
    cur_left_available_ := false }

/-- The test of lines 39-42: the pair is passed over when there is a
predicate and it does not evaluate to true. -/
def skipped (plan : NestedLoopJoinPlanNode Value Tuple Schema) (left_tuple right_tuple : Tuple) :
    Bool :=
  match plan.Predicate with
  | none => false
  | some predicate => !predicate left_tuple plan.left_schema right_tuple plan.right_schema

/-- The values `tmp_values` of lines 45-51; the produced tuple
`Tuple(tmp_values, output_schema)` is given by them. -/
def outputOf (plan : NestedLoopJoinPlanNode Value Tuple Schema) (left_tuple right_tuple : Tuple) :
    List Value :=
  plan.columns.map (fun col => col left_tuple plan.left_schema right_tuple plan.right_schema)

/-- The inner loop of `Next` (lines 38-55) over the tuples the right child
still produces: the produced values, if any, and what the right child has
left. -/
def scanRight (plan : NestedLoopJoinPlanNode Value Tuple Schema) (left_tuple : Tuple) :
    List Tuple → Option (List Value) × List Tuple
  | [] => (none, [])
  | right_tuple :: rest =>
    if skipped plan left_tuple right_tuple then scanRight plan left_tuple rest
    else (some (outputOf plan left_tuple right_tuple), rest)

/-- The outer loop of `Next` (lines 36-58) from a round in which
`cur_left_available_` is false, over the tuples the left child still
produces; `right` is what the right child produces after an `Init`. -/
def scanLeft (plan : NestedLoopJoinPlanNode Value Tuple Schema) (right : List Tuple)
    (s : NestedLoopJoinExecutor Tuple) :
    List Tuple → Option (List Value) × NestedLoopJoinExecutor Tuple
  | [] => (none, { s with left_executor_ := [] })
  | left_tuple :: rest =>
    let s := { s with left_executor_ := rest, left_tuple_ := left_tuple, cur_left_available_ := true }
    match scanRight plan left_tuple s.right_executor_ with
    | (some out, right_rest) => (some out, { s with right_executor_ := right_rest })
    | (none, _) =>
      scanLeft plan right { s with cur_left_available_ := false, right_executor_ := right } rest

/-- Method `Next` (lines 34-61): `none` is the return value false, `some
values` the return value true with `*tuple = Tuple(values, output_schema)`. -/
def Next (plan : NestedLoopJoinPlanNode Value Tuple Schema) (right : List Tuple)
    (s : NestedLoopJoinExecutor Tuple) : Option (List Value) × NestedLoopJoinExecutor Tuple :=
  if s.cur_left_available_ then
    match scanRight plan s.left_tuple_ s.right_executor_ with
    | (some out, right_rest) => (some out, { s with right_executor_ := right_rest })
    | (none, _) =>
      scanLeft plan right { s with cur_left_available_ := false, right_executor_ := right }
        s.left_executor_
  else scanLeft plan right s s.left_executor_

/-- Call `Next` until it returns false, at most `fuel` times: the tuples
produced; `none` if `Next` did not return false within `fuel` calls. -/
def NextAll (plan : NestedLoopJoinPlanNode Value Tuple Schema) (right : List Tuple) :
    Nat → NestedLoopJoinExecutor Tuple → Option (List (List Value))
  | 0, _ => none
  | fuel + 1, s =>
    match Next plan right s with
    | (none, _) => some []
    | (some out, s) => (NextAll plan right fuel s).map (fun r => out :: r)

/-- The pairs the claim names: each left tuple in order with each right tuple
in order, kept when the predicate is absent or evaluates to true. -/
def qualifyingPairs (plan : NestedLoopJoinPlanNode Value Tuple Schema) (left right : List Tuple) :
    List (Tuple × Tuple) :=
  (List.product left right).filter (fun p =>
    match plan.Predicate with
    | none => true
    | some predicate => predicate p.1 plan.left_schema p.2 plan.right_schema)

/-- The join as the claim words it: the projection of each qualifying pair,
in the order of the pairs. -/
def joinResult (plan : NestedLoopJoinPlanNode Value Tuple Schema) (left right : List Tuple) :
    List (List Value) :=
  (qualifyingPairs plan left right).map (fun p => outputOf plan p.1 p.2)

/-- What a state still has to produce: the outputs of the current left tuple
against what the right child has left, then those of the left tuples to
come. -/
def pending (plan : NestedLoopJoinPlanNode Value Tuple Schema) (right : List Tuple)
    (s : NestedLoopJoinExecutor Tuple) : List (List Value) :=
  if s.cur_left_available_ then
    joinResult plan [s.left_tuple_] s.right_executor_ ++ joinResult plan s.left_executor_ right
  else joinResult plan s.left_executor_ right

end NestedLoop

end NestedLoopJoinExecutor

/-! ## Vocabulary of the dirty-flag rule -/

namespace ExtendibleHashTable

/-- The calls the pool received while the index went from `t` to `t1`. -/
def callsOf {K V : Type} (t t1 : ExtendibleHashTable K V) : List PoolEvent :=
  t1.bpm.events.drop t.bpm.events.length

/-- A call that took the index from `t` to `t1` unpinned every page it changed
dirty: the pool received the calls `callsOf t t1` on top of those before, the
directory is unchanged unless there is an `UnpinPage` of the directory page
with `is_dirty = true` among them, and the bucket page `p` is unchanged unless
there is an `UnpinPage` of `p` with `is_dirty = true` among them. -/
def ChangedPagesUnpinnedDirty {K V : Type} (t t1 : ExtendibleHashTable K V) : Prop :=
  t1.bpm.events = t.bpm.events ++ callsOf t t1 ∧
  (PoolEvent.UnpinPage t.directory_page_id true ∉ callsOf t t1 → t1.dir = t.dir) ∧
  ∀ p, PoolEvent.UnpinPage p true ∉ callsOf t t1 → t1.buckets p = t.buckets p

/-- The index of bucket capacity 1 after `Insert` of `(0,0)` and `(1,0)` into a
fresh index: slot 0 holds page 2 with `(0,0)` at local depth 0, slot 1 holds
page 1 with `(1,0)` at local depth 1. -/
def splitOnceIndex : ExtendibleHashTable Nat Nat := (Insert 1 id oneFullIndex 1 0).2

/-- An index of bucket capacity 1 with a directory of global depth 2 (page 0)
in which slot 0 holds page 1 and slot 2 holds page 3, both at local depth 2,
and slots 1 and 3 share page 2 at local depth 1; page 1 holds `(0,0)`, page 2
holds `(1,0)` and page 3 holds `(2,0)`. -/
def unevenDepthIndex : ExtendibleHashTable Nat Nat :=
  { bpm := { next_page_id := 4, pin_count := fun _ => 0, events := [] }
    directory_page_id := 0
    dir :=
      { global_depth := 2
        local_depths := fun j => if j = 0 ∨ j = 2 then 2 else if j = 1 ∨ j = 3 then 1 else 0
        bucket_page_ids := fun j =>
          if j = 0 then 1 else if j = 2 then 3 else if j = 1 ∨ j = 3 then 2 else 0 }
    buckets := fun p =>
      if p = 1 then singletonBucket 0
      else if p = 2 then singletonBucket 1
      else if p = 3 then singletonBucket 2
      else HashTableBucketPage.fresh 1 }

end ExtendibleHashTable

/-! ## Page faults (spec 6 and 7)

The coordinator on a buffer pool whose `FetchPage` and `NewPage` can return
`nullptr`.  The source tests no page pointer; a call that uses a null pointer
has no return value here. -/

/-- Modelled from the spec: a buffer pool that can fail to fetch or to
allocate (section 7, page fault): whether `FetchPage` of a page id, and
`NewPage`, yield a page in a given state of the pool. -/
structure PoolFaults where
  fetchable : BufferPoolManager → Nat → Bool
  allocatable : BufferPoolManager → Bool

/-- The outcome of a call that uses a null page pointer. -/
inductive Fault where
  | null_dereference
deriving DecidableEq

/-- A pool that yields every page. -/
def noFaults : PoolFaults :=
  { fetchable := fun _ _ => true, allocatable := fun _ => true }

/-- A pool that yields no page (every frame is pinned by someone else). -/
def allFaults : PoolFaults :=
  { fetchable := fun _ _ => false, allocatable := fun _ => false }

/-- A pool that yields the directory page 0 and no other page. -/
def directoryOnly : PoolFaults :=
  { fetchable := fun _ p => decide (p = 0), allocatable := fun _ => false }

namespace BufferPoolManager

/-- Modelled from the spec: `FetchPage` on a pool that can fail; `none` is
`nullptr`, and a failed fetch pins nothing. -/
def FetchPageF (f : PoolFaults) (bpm : BufferPoolManager) (page_id : Nat) :
    Option BufferPoolManager :=
  if f.fetchable bpm page_id then some (bpm.FetchPage page_id) else none

/-- Modelled from the spec: `NewPage` on a pool that can fail; `none` is
`nullptr`, and a failed call allocates nothing. -/
def NewPageF (f : PoolFaults) (bpm : BufferPoolManager) : Option (Nat × BufferPoolManager) :=
  if f.allocatable bpm then some bpm.NewPage else none

end BufferPoolManager

namespace ExtendibleHashTable

section Faults

variable {K V : Type} [DecidableEq K] [DecidableEq V]

/-- Method `FetchDirectoryPage` (lines 73-78) on a pool that can fail: the
pointer is returned untested, `none` is `nullptr`. -/
def FetchDirectoryPageF (f : PoolFaults) (t : ExtendibleHashTable K V) :
    Option (ExtendibleHashTable K V) :=
  (t.bpm.FetchPageF f t.directory_page_id).map (fun bpm => { t with bpm := bpm })

/-- Method `FetchBucketPage` (lines 80-85) on a pool that can fail. -/
def FetchBucketPageF (f : PoolFaults) (t : ExtendibleHashTable K V) (bucket_page_id : Nat) :
    Option (ExtendibleHashTable K V) :=
  (t.bpm.FetchPageF f bucket_page_id).map (fun bpm => { t with bpm := bpm })

/-- Method `GetValue` (lines 90-106) on a pool that can fail:
`KeyToDirectoryIndex` reads the directory page and `RLatch` is called on the
bucket page, whatever the pointers are. -/
def GetValueF (f : PoolFaults) (hash_fn : K → Nat) (t : ExtendibleHashTable K V) (key : K)
    (result : List V) : Except Fault (Bool × List V × ExtendibleHashTable K V) :=
  match t.FetchDirectoryPageF f with
  | none => Except.error Fault.null_dereference
  | some t =>
    let index := KeyToDirectoryIndex hash_fn key t.dir
    let bucket_page_id := t.dir.GetBucketPageId index
    match t.FetchBucketPageF f bucket_page_id with
    | none => Except.error Fault.null_dereference
    | some t =>
      let r := (t.buckets bucket_page_id).GetValue key result
      let t := t.UnpinPage t.directory_page_id false
      let t := t.UnpinPage bucket_page_id false
      Except.ok (r.1, r.2, t)

/-- Method `SplitInsert` (lines 143-195) on a pool that can fail: the
directory page is read at once, `WLatch` is called on the new page, and the
old page is first used by `EmptyArray`, after the out-of-bound exit. -/
def SplitInsertF [Inhabited K] [Inhabited V] (f : PoolFaults) (B : Nat) (hash_fn : K → Nat)
    (t : ExtendibleHashTable K V) (key : K) (value : V) :
    Except Fault (Bool × ExtendibleHashTable K V) :=
  match t.FetchDirectoryPageF f with
  | none => Except.error Fault.null_dereference
  | some t =>
    let index := KeyToDirectoryIndex hash_fn key t.dir
    let old_page_id := t.dir.GetBucketPageId index
    let old_page := t.FetchBucketPageF f old_page_id
    let t := old_page.getD t
    let step := splitDepthTransform t.dir index
    if step.2.2 then
      let t := { t with dir := step.1 }
      let t := t.UnpinPage t.directory_page_id false
      let t := t.UnpinPage old_page_id false
      Except.ok (false, t)
    else
      match t.bpm.NewPageF f with
      | none => Except.error Fault.null_dereference
      | some r =>
        if old_page.isNone then Except.error Fault.null_dereference
        else
          let new_idx := step.2.1
          let new_page_id := r.1
          let pages := Function.update t.buckets new_page_id (HashTableBucketPage.fresh B)
          let d := step.1.SeperatePageId index new_idx new_page_id
          let drained := (pages old_page_id).EmptyArray []
          let pages := Function.update pages old_page_id drained.2
          let kvs := drained.1 ++ [(key, value)]
          let pages := redistribute hash_fn d old_page_id new_page_id kvs pages
          let t : ExtendibleHashTable K V := { t with bpm := r.2, dir := d, buckets := pages }
          let t := t.UnpinPage t.directory_page_id true
          let t := t.UnpinPage old_page_id true
          let t := t.UnpinPage new_page_id true
          Except.ok (true, t)

/-- Method `Insert` (lines 111-141) on a pool that can fail:
`KeyToDirectoryIndex` reads the directory page and `WLatch` is called on the
bucket page, whatever the pointers are. -/
def InsertF [Inhabited K] [Inhabited V] (f : PoolFaults) (B : Nat) (hash_fn : K → Nat)
    (t : ExtendibleHashTable K V) (key : K) (value : V) :
    Except Fault (Bool × ExtendibleHashTable K V) :=
  match t.FetchDirectoryPageF f with
  | none => Except.error Fault.null_dereference
  | some t =>
    let index := KeyToDirectoryIndex hash_fn key t.dir
    let bucket_page_id := t.dir.GetBucketPageId index
    match t.FetchBucketPageF f bucket_page_id with
    | none => Except.error Fault.null_dereference
    | some t =>
      let r := (t.buckets bucket_page_id).Insert key value
      if r.1 then
        let t := { t with buckets := Function.update t.buckets bucket_page_id r.2 }
        let t := t.UnpinPage t.directory_page_id false
        let t := t.UnpinPage bucket_page_id true
        Except.ok (true, t)
      else if (t.buckets bucket_page_id).IsFull B
          && !(t.buckets bucket_page_id).CheckKeyValueExist key value then
        match SplitInsertF f B hash_fn t key value with
        | Except.error e => Except.error e
        | Except.ok s =>
          let t := s.2.UnpinPage s.2.directory_page_id true
          let t := t.UnpinPage bucket_page_id true
          Except.ok (s.1, t)
      else
        let t := t.UnpinPage t.directory_page_id false
        let t := t.UnpinPage bucket_page_id false
        Except.ok (false, t)

/-- Method `Merge` (lines 233-287) on a pool that can fail:
`KeyToDirectoryIndex` reads the directory page, `RLatch` is called on the
bucket page and `WLatch` on the new page, whatever the pointers are.  `fuel`
bounds the number of nested calls as in `Merge`. -/
def MergeF (f : PoolFaults) (hash_fn : K → Nat) :
    Nat → ExtendibleHashTable K V → K → V → Option (Except Fault (ExtendibleHashTable K V))
  | 0, _, _, _ => none
  | fuel + 1, t, key, value =>
    match t.FetchDirectoryPageF f with
    | none => some (Except.error Fault.null_dereference)
    | some t =>
      let index := KeyToDirectoryIndex hash_fn key t.dir
      let local_depth := t.dir.GetLocalDepth index
      let merge_page_index := index ^^^ shl32 1 (sub32 local_depth 1)
      if local_depth = 0 ∨ local_depth ≠ t.dir.GetLocalDepth merge_page_index then
        some (Except.ok (t.UnpinPage t.directory_page_id false))
      else
        let page_id := t.dir.GetBucketPageId index
        match t.FetchBucketPageF f page_id with
        | none => some (Except.error Fault.null_dereference)
        | some t =>
          if !(t.buckets page_id).IsEmpty then
            let t := t.UnpinPage t.directory_page_id false
            some (Except.ok (t.UnpinPage page_id false))
          else
            let t := t.UnpinPage page_id false
            let t := { t with dir := mergeTransform t.dir index local_depth merge_page_index }
            let new_index := KeyToDirectoryIndex hash_fn key t.dir
            let new_page_id := t.dir.GetBucketPageId new_index
            let t := t.UnpinPage t.directory_page_id true
            match t.FetchBucketPageF f new_page_id with
            | none => some (Except.error Fault.null_dereference)
            | some t =>
              if (t.buckets new_page_id).IsEmpty then
                let t := t.UnpinPage new_page_id true
                MergeF f hash_fn fuel t key value
              else
                some (Except.ok (t.UnpinPage new_page_id false))

/-- Method `Remove` (lines 200-228) on a pool that can fail:
`KeyToDirectoryIndex` reads the directory page and `WLatch` is called on the
bucket page, whatever the pointers are. -/
def RemoveF (f : PoolFaults) (hash_fn : K → Nat) (fuel : Nat) (t : ExtendibleHashTable K V)
    (key : K) (value : V) : Option (Except Fault (Bool × ExtendibleHashTable K V)) :=
  match t.FetchDirectoryPageF f with
  | none => some (Except.error Fault.null_dereference)
  | some t =>
    let index := KeyToDirectoryIndex hash_fn key t.dir
    let page_id := t.dir.GetBucketPageId index
    match t.FetchBucketPageF f page_id with
    | none => some (Except.error Fault.null_dereference)
    | some t =>
      let r := (t.buckets page_id).Remove key value
      if !r.1 then
        let t := t.UnpinPage t.directory_page_id false
        let t := t.UnpinPage page_id false
        some (Except.ok (false, t))
      else
        let t := { t with buckets := Function.update t.buckets page_id r.2 }
        if (t.buckets page_id).IsEmpty && decide (t.dir.GetLocalDepth index > 0) then
          match MergeF f hash_fn fuel t key value with
          | none => none
          | some (Except.error e) => some (Except.error e)
          | some (Except.ok t) =>
            let t := t.UnpinPage t.directory_page_id true
            let t := t.UnpinPage page_id true
            some (Except.ok (true, t))
        else
          let t := t.UnpinPage t.directory_page_id false
          let t := t.UnpinPage page_id true
          some (Except.ok (true, t))

end Faults

end ExtendibleHashTable

/-! ## Lemmas on machine arithmetic and the directory mask -/

theorem sub32_one (a : Nat) (h0 : 0 < a) (h : a < 2 ^ 32) : sub32 a 1 = a - 1 := by
  unfold sub32
  have e : (2 : Nat) ^ 32 = 4294967296 := by norm_num
  rw [e] at h ⊢
  omega

theorem shl32_one (s : Nat) (h : s < 32) : shl32 1 s = 2 ^ s := by
  unfold shl32
  rw [if_pos h, Nat.shiftLeft_eq, one_mul]
  exact Nat.mod_eq_of_lt (Nat.pow_lt_pow_right (by norm_num) h)

theorem GetGlobalDepthMask_eq (d : HashTableDirectoryPage) (h : d.global_depth < 32) :
    d.GetGlobalDepthMask = 2 ^ d.global_depth - 1 := by
  unfold HashTableDirectoryPage.GetGlobalDepthMask
  rw [shl32_one _ h]
  exact sub32_one _ (Nat.pos_pow_of_pos _ (by norm_num)) (Nat.pow_lt_pow_right (by norm_num) h)

/-! ## Lemmas on the bucket page -/

namespace HashTableBucketPage

theorem pairs_fresh {K V : Type} [Inhabited K] [Inhabited V] (B : Nat) :
    pairs (fresh B : HashTableBucketPage K V) = [] := by
  simp [pairs, fresh, List.filter_eq_nil_iff]

theorem pairs_cons {K V : Type} (s : Slot K V) (rest : HashTableBucketPage K V) :
    pairs (s :: rest) = if s.readable then (s.key, s.value) :: pairs rest else pairs rest := by
  unfold pairs
  cases h : s.readable <;> simp [List.filter_cons, h]

theorem mem_pairs_iff {K V : Type} (b : HashTableBucketPage K V) (k : K) (v : V) :
    (k, v) ∈ pairs b ↔ ∃ s ∈ b, s.readable = true ∧ s.key = k ∧ s.value = v := by
  simp only [pairs, List.mem_map, List.mem_filter, Prod.mk.injEq]
  constructor
  · rintro ⟨s, ⟨hs, hr⟩, hk, hv⟩
    exact ⟨s, hs, hr, hk, hv⟩
  · rintro ⟨s, hs, hr, hk, hv⟩
    exact ⟨s, ⟨hs, hr⟩, hk, hv⟩

theorem holds_iff {K V : Type} [DecidableEq K] [DecidableEq V] (s : Slot K V) (k : K) (v : V) :
    s.holds k v = true ↔ s.readable = true ∧ s.key = k ∧ s.value = v := by
  simp [Slot.holds]

theorem CheckKeyValueExist_iff {K V : Type} [DecidableEq K] [DecidableEq V]
    (b : HashTableBucketPage K V) (k : K) (v : V) :
    b.CheckKeyValueExist k v = true ↔ (k, v) ∈ pairs b := by
  rw [mem_pairs_iff]
  simp [CheckKeyValueExist, List.any_eq_true, holds_iff]

theorem valuesOf_eq {K V : Type} [DecidableEq K] (b : HashTableBucketPage K V) (k : K) :
    valuesOf b k = ((pairs b).filter (fun p => decide (p.1 = k))).map Prod.snd := by
  induction b with
  | nil => simp [valuesOf, pairs]
  | cons s rest ih =>
    rw [pairs_cons]
    unfold valuesOf at ih ⊢
    simp only [Slot.hasKey] at ih ⊢
    cases hr : s.readable
    · simp [List.filter_cons, Slot.hasKey, hr, ih]
    · by_cases hk : s.key = k
      · simp [List.filter_cons, Slot.hasKey, hr, hk, ih]
      · simp [List.filter_cons, Slot.hasKey, hr, hk, ih]

theorem mem_valuesOf_iff {K V : Type} [DecidableEq K] (b : HashTableBucketPage K V) (k : K) (v : V) :
    v ∈ valuesOf b k ↔ (k, v) ∈ pairs b := by
  rw [valuesOf_eq]
  simp only [List.mem_map, List.mem_filter, decide_eq_true_eq]
  constructor
  · rintro ⟨⟨k1, v1⟩, ⟨hm, hk⟩, hv⟩
    simp only at hk hv
    subst hk; subst hv
    exact hm
  · intro h
    exact ⟨(k, v), ⟨h, rfl⟩, rfl⟩

theorem valuesOf_ne_nil_iff {K V : Type} [DecidableEq K] (b : HashTableBucketPage K V) (key : K) :
    valuesOf b key ≠ [] ↔ ∃ s ∈ b, s.readable = true ∧ s.key = key := by
  simp [valuesOf, List.filter_eq_nil_iff, Slot.hasKey]

theorem NumReadable_eq {K V : Type} (b : HashTableBucketPage K V) :
    NumReadable b = (pairs b).length := by
  simp [NumReadable, pairs, List.countP_eq_length_filter]

theorem SlotsWF_cons {K V : Type} (s : Slot K V) (rest : HashTableBucketPage K V) :
    SlotsWF (s :: rest) ↔ (s.readable = true → s.occupied = true) ∧ SlotsWF rest := by
  simp [SlotsWF]

theorem writeFirstFree_spec {K V : Type} (k : K) (v : V) :
    ∀ (b b1 : HashTableBucketPage K V), SlotsWF b → writeFirstFree k v b = some b1 →
      (pairs b1).Perm ((k, v) :: pairs b) ∧ SlotsWF b1 ∧ b1.length = b.length := by
  intro b
  induction b with
  | nil => intro b1 _ h; simp [writeFirstFree] at h
  | cons s rest ih =>
    intro b1 hwf h
    rw [SlotsWF_cons] at hwf
    unfold writeFirstFree at h
    by_cases hfree : (!s.occupied || !s.readable) = true
    · rw [if_pos hfree] at h
      have hb : b1 = ⟨k, v, true, true⟩ :: rest := (Option.some.inj h).symm
      subst hb
      have hnr : s.readable = false := by
        cases hr : s.readable
        · rfl
        · have ho := hwf.1 hr
          simp [hr, ho] at hfree
      refine ⟨?_, ?_, by simp⟩
      · rw [pairs_cons, pairs_cons, hnr]
        simp
      · rw [SlotsWF_cons]
        exact ⟨fun _ => rfl, hwf.2⟩
    · rw [if_neg hfree] at h
      cases hw : writeFirstFree k v rest with
      | none => rw [hw] at h; simp at h
      | some r =>
        rw [hw] at h
        have hb : b1 = s :: r := (Option.some.inj h).symm
        subst hb
        obtain ⟨hp, hwf1, hlen⟩ := ih r hwf.2 hw
        refine ⟨?_, ?_, by simp [hlen]⟩
        · rw [pairs_cons, pairs_cons]
          cases hr : s.readable
          · simpa using hp
          · simp only [if_true]
            exact (List.Perm.cons _ hp).trans (List.Perm.swap _ _ _)
        · rw [SlotsWF_cons]
          exact ⟨hwf.1, hwf1⟩

theorem writeFirstFree_isSome_iff {K V : Type} (k : K) (v : V) (b : HashTableBucketPage K V) :
    (writeFirstFree k v b).isSome = true ↔ ∃ s ∈ b, s.occupied = false ∨ s.readable = false := by
  induction b with
  | nil => simp [writeFirstFree]
  | cons s rest ih =>
    unfold writeFirstFree
    by_cases hfree : (!s.occupied || !s.readable) = true
    · rw [if_pos hfree]
      simp only [Option.isSome_some, List.mem_cons, exists_eq_or_imp, true_iff]
      left
      simpa using hfree
    · rw [if_neg hfree]
      simp only [Option.isSome_map', List.mem_cons, exists_eq_or_imp]
      rw [ih]
      constructor
      · intro hx; exact Or.inr hx
      · rintro (hx | hx)
        · exfalso; apply hfree; simpa using hx
        · exact hx

theorem bucket_Insert_false {K V : Type} [DecidableEq K] [DecidableEq V] (b : HashTableBucketPage K V)
    (k : K) (v : V) (h : (b.Insert k v).1 = false) : (b.Insert k v).2 = b := by
  unfold Insert at h ⊢
  by_cases hc : b.CheckKeyValueExist k v = true
  · simp [hc]
  · simp only [hc, if_false] at h ⊢
    cases hw : writeFirstFree k v b with
    | none => rfl
    | some r => simp [hw] at h

theorem bucket_Insert_of_exists {K V : Type} [DecidableEq K] [DecidableEq V] (b : HashTableBucketPage K V)
    (k : K) (v : V) (h : b.CheckKeyValueExist k v = true) : b.Insert k v = (false, b) := by
  simp [Insert, h]

theorem bucket_Insert_true {K V : Type} [DecidableEq K] [DecidableEq V] (b : HashTableBucketPage K V)
    (k : K) (v : V) (hwf : SlotsWF b) (h : (b.Insert k v).1 = true) :
    (k, v) ∉ pairs b ∧ (pairs (b.Insert k v).2).Perm ((k, v) :: pairs b) ∧
      SlotsWF (b.Insert k v).2 ∧ (b.Insert k v).2.length = b.length := by
  unfold Insert at h ⊢
  by_cases hc : b.CheckKeyValueExist k v = true
  · simp [hc] at h
  · simp only [hc, if_false] at h ⊢
    cases hw : writeFirstFree k v b with
    | none => simp [hw] at h
    | some r =>
      simp only []
      refine ⟨?_, writeFirstFree_spec k v b r hwf hw⟩
      rw [← CheckKeyValueExist_iff]
      exact hc

theorem bucket_Insert_good {K V : Type} [DecidableEq K] [DecidableEq V] (b : HashTableBucketPage K V)
    (k : K) (v : V) (hg : Good b) : Good (b.Insert k v).2 := by
  cases h : (b.Insert k v).1
  · rw [bucket_Insert_false b k v h]; exact hg
  · obtain ⟨hn, hp, hwf, _⟩ := bucket_Insert_true b k v hg.1 h
    exact ⟨hwf, hp.nodup_iff.mpr (List.nodup_cons.mpr ⟨hn, hg.2⟩)⟩

theorem bucket_Insert_length {K V : Type} [DecidableEq K] [DecidableEq V] (b : HashTableBucketPage K V)
    (k : K) (v : V) (hwf : SlotsWF b) : (b.Insert k v).2.length = b.length := by
  cases h : (b.Insert k v).1
  · rw [bucket_Insert_false b k v h]
  · exact (bucket_Insert_true b k v hwf h).2.2.2

theorem clearFirst_spec {K V : Type} [DecidableEq K] [DecidableEq V] (k : K) (v : V) :
    ∀ (b b1 : HashTableBucketPage K V), clearFirst k v b = some b1 →
      ∃ l1 s l2, b = l1 ++ s :: l2 ∧ s.holds k v = true ∧ (∀ x ∈ l1, x.holds k v = false) ∧
        b1 = l1 ++ { s with readable := false } :: l2 := by
  intro b
  induction b with
  | nil => intro b1 h; simp [clearFirst] at h
  | cons s rest ih =>
    intro b1 h
    unfold clearFirst at h
    by_cases hh : s.holds k v = true
    · rw [if_pos hh] at h
      exact ⟨[], s, rest, rfl, hh, by simp, (Option.some.inj h).symm⟩
    · rw [if_neg hh] at h
      cases hw : clearFirst k v rest with
      | none => rw [hw] at h; simp at h
      | some r =>
        rw [hw] at h
        obtain ⟨l1, s1, l2, e1, hs1, hl1, e2⟩ := ih r hw
        refine ⟨s :: l1, s1, l2, by simp [e1], hs1, ?_, ?_⟩
        · intro x hx
          rcases List.mem_cons.mp hx with hx | hx
          · subst hx; simpa using hh
          · exact hl1 x hx
        · rw [← Option.some.inj h, e2]; rfl

theorem clearFirst_isSome_iff {K V : Type} [DecidableEq K] [DecidableEq V] (k : K) (v : V)
    (b : HashTableBucketPage K V) :
    (clearFirst k v b).isSome = true ↔ b.CheckKeyValueExist k v = true := by
  induction b with
  | nil => simp [clearFirst, CheckKeyValueExist]
  | cons s rest ih =>
    unfold clearFirst
    by_cases hh : s.holds k v = true
    · simp [hh, CheckKeyValueExist]
    · rw [if_neg hh, Option.isSome_map', ih]
      simp [CheckKeyValueExist, hh]

theorem pairs_append {K V : Type} (l1 l2 : HashTableBucketPage K V) :
    pairs (l1 ++ l2) = pairs l1 ++ pairs l2 := by
  simp [pairs]

theorem not_mem_pairs_of_holds_false {K V : Type} [DecidableEq K] [DecidableEq V] (k : K) (v : V)
    (l : HashTableBucketPage K V) (h : ∀ x ∈ l, x.holds k v = false) : (k, v) ∉ pairs l := by
  rw [mem_pairs_iff]
  rintro ⟨s, hs, hr, hk, hv⟩
  have := h s hs
  rw [(holds_iff s k v).mpr ⟨hr, hk, hv⟩] at this
  exact Bool.noConfusion this

theorem clearFirst_pairs {K V : Type} [DecidableEq K] [DecidableEq V] (k : K) (v : V)
    (b b1 : HashTableBucketPage K V) (h : clearFirst k v b = some b1) :
    pairs b1 = (pairs b).erase (k, v) := by
  obtain ⟨l1, s, l2, e1, hs, hl1, e2⟩ := clearFirst_spec k v b b1 h
  obtain ⟨hr, hk, hv⟩ := (holds_iff s k v).mp hs
  have hn := not_mem_pairs_of_holds_false k v l1 hl1
  subst e1; subst e2
  rw [pairs_append, pairs_append, pairs_cons, pairs_cons, hr]
  simp only [if_true, Bool.false_eq_true, if_false]
  rw [List.erase_append_right _ hn, hk, hv, List.erase_cons_head]

theorem clearFirst_SlotsWF {K V : Type} [DecidableEq K] [DecidableEq V] (k : K) (v : V)
    (b b1 : HashTableBucketPage K V) (hwf : SlotsWF b) (h : clearFirst k v b = some b1) :
    SlotsWF b1 := by
  obtain ⟨l1, s, l2, e1, _, _, e2⟩ := clearFirst_spec k v b b1 h
  subst e1; subst e2
  intro x hx hr
  rcases List.mem_append.mp hx with hx | hx
  · exact hwf x (List.mem_append.mpr (Or.inl hx)) hr
  · rcases List.mem_cons.mp hx with hx | hx
    · subst hx; simp at hr
    · exact hwf x (List.mem_append.mpr (Or.inr (List.mem_cons_of_mem _ hx))) hr

theorem bucket_Remove_false_iff {K V : Type} [DecidableEq K] [DecidableEq V] (b : HashTableBucketPage K V)
    (k : K) (v : V) : (b.Remove k v).1 = false ↔ b.CheckKeyValueExist k v = false := by
  unfold Remove
  cases hc : clearFirst k v b with
  | none =>
    have := clearFirst_isSome_iff k v b
    rw [hc] at this
    simp only [Option.isSome_none, Bool.false_eq_true, false_iff, Bool.not_eq_true] at this
    simp [this]
  | some r =>
    have := clearFirst_isSome_iff k v b
    rw [hc] at this
    simp only [Option.isSome_some, true_iff] at this
    simp [this]

theorem bucket_Remove_false {K V : Type} [DecidableEq K] [DecidableEq V] (b : HashTableBucketPage K V)
    (k : K) (v : V) (h : (b.Remove k v).1 = false) : (b.Remove k v).2 = b := by
  unfold Remove at h ⊢
  cases hc : clearFirst k v b with
  | none => rfl
  | some r => simp [hc] at h

theorem bucket_Remove_true {K V : Type} [DecidableEq K] [DecidableEq V] (b : HashTableBucketPage K V)
    (k : K) (v : V) (h : (b.Remove k v).1 = true) :
    clearFirst k v b = some (b.Remove k v).2 := by
  unfold Remove at h ⊢
  cases hc : clearFirst k v b with
  | none => simp [hc] at h
  | some r => rfl

theorem bucket_Remove_good {K V : Type} [DecidableEq K] [DecidableEq V] (b : HashTableBucketPage K V)
    (k : K) (v : V) (hg : Good b) : Good (b.Remove k v).2 := by
  cases h : (b.Remove k v).1
  · rw [bucket_Remove_false b k v h]; exact hg
  · have hc := bucket_Remove_true b k v h
    refine ⟨clearFirst_SlotsWF k v b _ hg.1 hc, ?_⟩
    rw [clearFirst_pairs k v b _ hc]
    exact hg.2.erase _

theorem EmptyArray_pairs {K V : Type} (b : HashTableBucketPage K V) (out : List (K × V)) :
    pairs (b.EmptyArray out).2 = [] := by
  simp [EmptyArray, pairs, List.filter_eq_nil_iff]

theorem EmptyArray_good {K V : Type} (b : HashTableBucketPage K V) (out : List (K × V)) :
    Good (b.EmptyArray out).2 := by
  refine ⟨?_, by rw [EmptyArray_pairs]; exact List.nodup_nil⟩
  intro s hs hr
  simp only [EmptyArray, List.mem_map] at hs
  obtain ⟨x, _, hx⟩ := hs
  subst hx
  simp at hr

theorem fresh_good {K V : Type} [Inhabited K] [Inhabited V] (B : Nat) :
    Good (fresh B : HashTableBucketPage K V) := by
  refine ⟨?_, by rw [pairs_fresh]; exact List.nodup_nil⟩
  intro s hs hr
  simp only [fresh, List.mem_replicate] at hs
  rw [hs.2] at hr
  simp at hr

end HashTableBucketPage

/-! ## The constructor and `GetValue` -/

namespace ExtendibleHashTable

/-- C7: after construction the directory has `global_depth = 1`, directory
slots 0 and 1 both hold the page id of the single newly allocated bucket page
(the second page the pool hands out, the first being the directory page), and
`local_depth[0] = local_depth[1] = 0`; that bucket page is empty. -/
theorem ctor_directory_state {K V : Type} [Inhabited K] [Inhabited V] (B : Nat)
    (bpm : BufferPoolManager) (pages : Nat → HashTableBucketPage K V) :
    (ctor B bpm pages).dir.global_depth = 1 ∧
    (ctor B bpm pages).dir.bucket_page_ids 0 = bpm.next_page_id + 1 ∧
    (ctor B bpm pages).dir.bucket_page_ids 1 = bpm.next_page_id + 1 ∧
    (ctor B bpm pages).dir.local_depths 0 = 0 ∧
    (ctor B bpm pages).dir.local_depths 1 = 0 ∧
    (ctor B bpm pages).directory_page_id = bpm.next_page_id ∧
    (ctor B bpm pages).buckets (bpm.next_page_id + 1) = HashTableBucketPage.fresh B ∧
    (ctor B bpm pages).bpm.events = bpm.events ++
      [PoolEvent.NewPage bpm.next_page_id, PoolEvent.NewPage (bpm.next_page_id + 1),
       PoolEvent.UnpinPage bpm.next_page_id true,
       PoolEvent.UnpinPage (bpm.next_page_id + 1) false] := by
  simp [ctor, HashTableDirectoryPage.zero, HashTableDirectoryPage.InitTable,
    HashTableDirectoryPage.IncrGlobalDepth, HashTableDirectoryPage.SetBucketPageId,
    HashTableDirectoryPage.SetLocalDepth, BufferPoolManager.NewPage, BufferPoolManager.UnpinPage,
    MAX_DEPTH, HashTableDirectoryPage.Size]

/-- C6: `GetValue(key)` appends exactly the values of the readable slots with
that key in the bucket page stored at directory slot
`idx = hash(key) & (2^global_depth - 1)`, returns true iff at least one value
was appended, and leaves the directory (global depth, local depths, bucket
page ids) and all bucket contents unchanged. -/
theorem GetValue_reads_bucket_only {K V : Type} [DecidableEq K] [DecidableEq V]
    (hash_fn : K → Nat) (t : ExtendibleHashTable K V) (key : K) (result : List V) :
    (GetValue hash_fn t key result).2.1
        = result ++ ((t.buckets (t.dir.bucket_page_ids
            (KeyToDirectoryIndex hash_fn key t.dir))).filter
              (fun s => s.readable && decide (s.key = key))).map Slot.value ∧
    ((GetValue hash_fn t key result).1 = true ↔
        ∃ vs, (GetValue hash_fn t key result).2.1 = result ++ vs ∧ vs ≠ []) ∧
    (GetValue hash_fn t key result).2.2.dir = t.dir ∧
    (GetValue hash_fn t key result).2.2.buckets = t.buckets ∧
    (t.dir.global_depth < 32 →
      KeyToDirectoryIndex hash_fn key t.dir
        = Hash hash_fn key &&& (2 ^ t.dir.global_depth - 1)) := by
  refine ⟨rfl, ?_, rfl, rfl, ?_⟩
  · simp only [GetValue, HashTableBucketPage.GetValue, FetchDirectoryPage, FetchBucketPage,
      ExtendibleHashTable.UnpinPage, HashTableDirectoryPage.GetBucketPageId]
    constructor
    · intro h
      refine ⟨_, rfl, ?_⟩
      intro h0
      simp [h0] at h
    · rintro ⟨vs, hv, hne⟩
      have hvs := List.append_cancel_left hv
      subst hvs
      cases hv2 : HashTableBucketPage.valuesOf
          (t.buckets (t.dir.bucket_page_ids (KeyToDirectoryIndex hash_fn key t.dir))) key with
      | nil => exact absurd hv2 hne
      | cons a l => simp
  · intro h
    unfold KeyToDirectoryIndex
    rw [GetGlobalDepthMask_eq _ h]

/-! ## `Insert` of a pair that is already stored, `Remove` of one that is not -/

theorem bucketOf_eq {K V : Type} (hash_fn : K → Nat) (t : ExtendibleHashTable K V) (key : K) :
    bucketOf hash_fn t key
      = t.buckets (t.dir.bucket_page_ids (KeyToDirectoryIndex hash_fn key t.dir)) := rfl

theorem exists_slot_iff_check {K V : Type} [DecidableEq K] [DecidableEq V]
    (b : HashTableBucketPage K V) (k : K) (v : V) :
    (∃ s ∈ b, s.readable = true ∧ s.key = k ∧ s.value = v) ↔ b.CheckKeyValueExist k v = true := by
  rw [HashTableBucketPage.CheckKeyValueExist_iff, HashTableBucketPage.mem_pairs_iff]

/-- C4: a duplicate insert is atomic.  If `(key, value)` is already readable
in the bucket that `key` maps to, `Insert` returns false and leaves the
directory and every bucket unchanged; whether or not that bucket is full, the
pool sees only the two fetches and the two clean unpins of `Insert` itself, so
`SplitInsert` (which would fetch again and allocate) is not invoked. -/
theorem Insert_duplicate_is_atomic {K V : Type} [DecidableEq K] [DecidableEq V]
    [Inhabited K] [Inhabited V] (B : Nat) (hash_fn : K → Nat)
    (t : ExtendibleHashTable K V) (key : K) (value : V)
    (h : ∃ s ∈ bucketOf hash_fn t key, s.readable = true ∧ s.key = key ∧ s.value = value) :
    (Insert B hash_fn t key value).1 = false ∧
    (Insert B hash_fn t key value).2.dir = t.dir ∧
    (Insert B hash_fn t key value).2.buckets = t.buckets ∧
    (Insert B hash_fn t key value).2.bpm.next_page_id = t.bpm.next_page_id ∧
    (Insert B hash_fn t key value).2.bpm.events = t.bpm.events ++
      [PoolEvent.FetchPage t.directory_page_id,
       PoolEvent.FetchPage (KeyToPageId hash_fn key t.dir),
       PoolEvent.UnpinPage t.directory_page_id false,
       PoolEvent.UnpinPage (KeyToPageId hash_fn key t.dir) false] := by
  rw [exists_slot_iff_check, bucketOf_eq] at h
  simp [Insert, FetchDirectoryPage, FetchBucketPage, ExtendibleHashTable.UnpinPage,
    HashTableDirectoryPage.GetBucketPageId, HashTableBucketPage.bucket_Insert_of_exists _ _ _ h, h,
    BufferPoolManager.FetchPage, BufferPoolManager.UnpinPage, KeyToPageId]

/-- C5: `Remove(key, value)` returns false if and only if no readable slot of
the bucket at directory slot `hash(key) & mask` holds `(key, value)`; when it
returns false the directory and every bucket are unchanged and the pool sees
only the two fetches and two clean unpins of `Remove` itself (`Merge` is not
invoked). -/
theorem Remove_false_iff_not_stored {K V : Type} [DecidableEq K] [DecidableEq V]
    (hash_fn : K → Nat) (fuel : Nat) (t : ExtendibleHashTable K V) (key : K) (value : V) :
    ((∃ t1, Remove hash_fn fuel t key value = some (false, t1)) ↔
      ¬ ∃ s ∈ bucketOf hash_fn t key, s.readable = true ∧ s.key = key ∧ s.value = value) ∧
    (∀ t1, Remove hash_fn fuel t key value = some (false, t1) →
      t1.dir = t.dir ∧ t1.buckets = t.buckets ∧
      t1.bpm.next_page_id = t.bpm.next_page_id ∧
      t1.bpm.events = t.bpm.events ++
        [PoolEvent.FetchPage t.directory_page_id,
         PoolEvent.FetchPage (KeyToPageId hash_fn key t.dir),
         PoolEvent.UnpinPage t.directory_page_id false,
         PoolEvent.UnpinPage (KeyToPageId hash_fn key t.dir) false]) := by
  rw [exists_slot_iff_check, bucketOf_eq]
  by_cases hc : (t.buckets (t.dir.bucket_page_ids
      (KeyToDirectoryIndex hash_fn key t.dir))).CheckKeyValueExist key value = true
  · have hr : ((t.buckets (t.dir.bucket_page_ids
        (KeyToDirectoryIndex hash_fn key t.dir))).Remove key value).1 = true := by
      cases hx : ((t.buckets (t.dir.bucket_page_ids
        (KeyToDirectoryIndex hash_fn key t.dir))).Remove key value).1
      · rw [HashTableBucketPage.bucket_Remove_false_iff] at hx
        rw [hx] at hc
        exact Bool.noConfusion hc
      · rfl
    have hne : ∀ t1, Remove hash_fn fuel t key value ≠ some (false, t1) := by
      intro t1 h
      simp only [Remove, FetchDirectoryPage, FetchBucketPage,
        HashTableDirectoryPage.GetBucketPageId, hr, Bool.not_true, Bool.false_eq_true,
        if_false] at h
      split at h
      · split at h
        · exact Option.noConfusion h
        · simp at h
      · simp at h
    refine ⟨⟨fun ⟨t1, h1⟩ => absurd h1 (hne t1), fun hn => absurd hc hn⟩, ?_⟩
    intro t1 h1
    exact absurd h1 (hne t1)
  · have hcf : (t.buckets (t.dir.bucket_page_ids
        (KeyToDirectoryIndex hash_fn key t.dir))).CheckKeyValueExist key value = false := by
      simpa using hc
    have hr := (HashTableBucketPage.bucket_Remove_false_iff _ key value).mpr hcf
    have heq : Remove hash_fn fuel t key value = some (false,
        ((t.FetchDirectoryPage.FetchBucketPage (KeyToPageId hash_fn key t.dir)).UnpinPage
          t.directory_page_id false).UnpinPage (KeyToPageId hash_fn key t.dir) false) := by
      simp [Remove, FetchDirectoryPage, FetchBucketPage, HashTableDirectoryPage.GetBucketPageId,
        hr, ExtendibleHashTable.UnpinPage, KeyToPageId]
    refine ⟨⟨fun _ => hc, fun _ => ⟨_, heq⟩⟩, ?_⟩
    intro t1 h1
    rw [heq] at h1
    have e := (Prod.mk.inj (Option.some.inj h1)).2
    subst e
    simp [FetchDirectoryPage, FetchBucketPage, ExtendibleHashTable.UnpinPage,
      BufferPoolManager.FetchPage, BufferPoolManager.UnpinPage]

/-! ## Every reachable bucket page is in good shape -/

theorem good_update {K V : Type} (pages : Nat → HashTableBucketPage K V) (q : Nat)
    (b : HashTableBucketPage K V) (h : ∀ p, (pages p).Good) (hb : b.Good) :
    ∀ p, (Function.update pages q b p).Good := by
  intro p
  by_cases hp : p = q
  · subst hp; simpa using hb
  · simpa [Function.update_noteq hp] using h p

theorem redistribute_good {K V : Type} [DecidableEq K] [DecidableEq V] (hash_fn : K → Nat)
    (dir : HashTableDirectoryPage) (old_page_id new_page_id : Nat) :
    ∀ (kvs : List (K × V)) (pages : Nat → HashTableBucketPage K V), (∀ p, (pages p).Good) →
      ∀ p, (redistribute hash_fn dir old_page_id new_page_id kvs pages p).Good := by
  intro kvs
  induction kvs with
  | nil => intro pages h; simpa [redistribute] using h
  | cons kv rest ih =>
    intro pages h
    obtain ⟨k, v⟩ := kv
    unfold redistribute
    simp only []
    split
    · exact ih _ (good_update _ _ _ h (HashTableBucketPage.bucket_Insert_good _ _ _ (h _)))
    · exact ih _ (good_update _ _ _ h (HashTableBucketPage.bucket_Insert_good _ _ _ (h _)))

theorem SplitInsert_good {K V : Type} [DecidableEq K] [DecidableEq V] [Inhabited K] [Inhabited V]
    (B : Nat) (hash_fn : K → Nat) (t : ExtendibleHashTable K V) (key : K) (value : V)
    (h : ∀ p, (t.buckets p).Good) : ∀ p, ((SplitInsert B hash_fn t key value).2.buckets p).Good := by
  unfold SplitInsert
  simp only []
  split
  · simpa [ExtendibleHashTable.UnpinPage, FetchBucketPage, FetchDirectoryPage] using h
  · simp only [ExtendibleHashTable.UnpinPage, FetchBucketPage, FetchDirectoryPage]
    apply redistribute_good
    apply good_update
    · exact good_update _ _ _ h (HashTableBucketPage.fresh_good B)
    · exact HashTableBucketPage.EmptyArray_good _ _

theorem Insert_good {K V : Type} [DecidableEq K] [DecidableEq V] [Inhabited K] [Inhabited V]
    (B : Nat) (hash_fn : K → Nat) (t : ExtendibleHashTable K V) (key : K) (value : V)
    (h : ∀ p, (t.buckets p).Good) : ∀ p, ((Insert B hash_fn t key value).2.buckets p).Good := by
  unfold Insert
  simp only []
  split
  · simp only [ExtendibleHashTable.UnpinPage, FetchBucketPage, FetchDirectoryPage]
    exact good_update _ _ _ h (HashTableBucketPage.bucket_Insert_good _ _ _ (h _))
  · split
    · simp only [ExtendibleHashTable.UnpinPage]
      exact SplitInsert_good B hash_fn _ key value h
    · simpa [ExtendibleHashTable.UnpinPage, FetchBucketPage, FetchDirectoryPage] using h

theorem Merge_buckets {K V : Type} [DecidableEq K] [DecidableEq V] (hash_fn : K → Nat) :
    ∀ (fuel : Nat) (t t1 : ExtendibleHashTable K V) (key : K) (value : V),
      Merge hash_fn fuel t key value = some t1 → t1.buckets = t.buckets := by
  intro fuel
  induction fuel with
  | zero => intro t t1 key value h; simp [Merge] at h
  | succ n ih =>
    intro t t1 key value h
    unfold Merge at h
    simp only [] at h
    split at h
    · rw [← Option.some.inj h]; rfl
    · split at h
      · rw [← Option.some.inj h]; rfl
      · split at h
        · rw [ih _ _ _ _ h]; rfl
        · rw [← Option.some.inj h]; rfl

theorem Remove_good {K V : Type} [DecidableEq K] [DecidableEq V]
    (hash_fn : K → Nat) (fuel : Nat) (t : ExtendibleHashTable K V) (key : K) (value : V)
    (r : Bool × ExtendibleHashTable K V) (hr : Remove hash_fn fuel t key value = some r)
    (h : ∀ p, (t.buckets p).Good) : ∀ p, (r.2.buckets p).Good := by
  unfold Remove at hr
  simp only [] at hr
  split at hr
  · rw [← Option.some.inj hr]
    simpa [ExtendibleHashTable.UnpinPage, FetchBucketPage, FetchDirectoryPage] using h
  · split at hr
    · split at hr
      · exact Option.noConfusion hr
      · rename_i t2 hm
        rw [← Option.some.inj hr]
        simp only [ExtendibleHashTable.UnpinPage]
        rw [Merge_buckets hash_fn _ _ _ _ _ hm]
        exact good_update _ _ _ h (HashTableBucketPage.bucket_Remove_good _ _ _ (h _))
    · rw [← Option.some.inj hr]
      simp only [ExtendibleHashTable.UnpinPage, FetchBucketPage, FetchDirectoryPage]
      exact good_update _ _ _ h (HashTableBucketPage.bucket_Remove_good _ _ _ (h _))

theorem ctor_good {K V : Type} [Inhabited K] [Inhabited V] (B : Nat) (bpm : BufferPoolManager) :
    ∀ p, ((ctor B bpm (fun _ => (HashTableBucketPage.fresh B : HashTableBucketPage K V))).buckets
      p).Good := by
  intro p
  unfold ctor
  simp only []
  exact good_update _ _ _ (fun _ => HashTableBucketPage.fresh_good B)
    (HashTableBucketPage.fresh_good B) p

theorem Reachable_good {K V : Type} [DecidableEq K] [DecidableEq V] [Inhabited K] [Inhabited V]
    (B : Nat) (hash_fn : K → Nat) (t : ExtendibleHashTable K V)
    (h : Reachable B hash_fn t) : ∀ p, (t.buckets p).Good := by
  induction h with
  | fresh bpm => exact ctor_good B bpm
  | getValue key result _ ih => exact ih
  | insert key value _ ih => exact Insert_good B hash_fn _ key value ih
  | remove fuel key value r _ hr ih => exact Remove_good hash_fn fuel _ key value r hr ih

/-! ## `Remove` of one of two values stored under a key -/

theorem IsEmpty_false_of_mem {K V : Type} (b : HashTableBucketPage K V) (kv : K × V)
    (h : kv ∈ HashTableBucketPage.pairs b) : b.IsEmpty = false := by
  unfold HashTableBucketPage.IsEmpty
  rw [HashTableBucketPage.NumReadable_eq]
  have : 0 < (HashTableBucketPage.pairs b).length := List.length_pos_of_mem h
  simp only [decide_eq_false_iff_not]
  omega

/-- What `Remove` does when the pair is stored and the bucket keeps another
pair: no merge, whatever the fuel. -/
theorem Remove_keeps_nonempty {K V : Type} [DecidableEq K] [DecidableEq V]
    (hash_fn : K → Nat) (fuel : Nat) (t : ExtendibleHashTable K V) (key : K) (value : V)
    (hc : (bucketOf hash_fn t key).CheckKeyValueExist key value = true)
    (hne : (((bucketOf hash_fn t key).Remove key value).2).IsEmpty = false) :
    Remove hash_fn fuel t key value = some (true,
      (({ t.FetchDirectoryPage.FetchBucketPage (KeyToPageId hash_fn key t.dir) with
          buckets := Function.update t.buckets (KeyToPageId hash_fn key t.dir)
            ((bucketOf hash_fn t key).Remove key value).2 } :
          ExtendibleHashTable K V).UnpinPage t.directory_page_id false).UnpinPage
        (KeyToPageId hash_fn key t.dir) true) := by
  have hr : ((bucketOf hash_fn t key).Remove key value).1 = true := by
    cases hx : ((bucketOf hash_fn t key).Remove key value).1
    · rw [HashTableBucketPage.bucket_Remove_false_iff] at hx
      rw [hx] at hc
      exact Bool.noConfusion hc
    · rfl
  rw [bucketOf_eq] at hr hne
  simp [Remove, FetchDirectoryPage, FetchBucketPage, HashTableDirectoryPage.GetBucketPageId,
    hr, hne, ExtendibleHashTable.UnpinPage, KeyToPageId, bucketOf]

/-- Remove specificity on any state whose bucket for `k` stores no pair
twice. -/
theorem Remove_specific_of_nodup {K V : Type} [DecidableEq K] [DecidableEq V]
    (hash_fn : K → Nat) (fuel : Nat)
    (t : ExtendibleHashTable K V) (k : K) (v v' : V)
    (hnd : (HashTableBucketPage.pairs (bucketOf hash_fn t k)).Nodup)
    (hv : ∃ s ∈ bucketOf hash_fn t k, s.readable = true ∧ s.key = k ∧ s.value = v)
    (hv' : ∃ s ∈ bucketOf hash_fn t k, s.readable = true ∧ s.key = k ∧ s.value = v')
    (hne : v ≠ v') :
    ∃ t1, Remove hash_fn fuel t k v = some (true, t1) ∧
      t1.dir = t.dir ∧
      (∀ p, p ≠ KeyToPageId hash_fn k t.dir → t1.buckets p = t.buckets p) ∧
      (∃ l1 s l2, bucketOf hash_fn t k = l1 ++ s :: l2 ∧
          s.readable = true ∧ s.key = k ∧ s.value = v ∧
          bucketOf hash_fn t1 k = l1 ++ { s with readable := false } :: l2) ∧
      (GetValue hash_fn t1 k []).1 = true ∧
      v' ∈ (GetValue hash_fn t1 k []).2.1 ∧
      v ∉ (GetValue hash_fn t1 k []).2.1 := by
  have hc := (exists_slot_iff_check _ k v).mp hv
  have hm' : (k, v') ∈ HashTableBucketPage.pairs (bucketOf hash_fn t k) :=
    (HashTableBucketPage.mem_pairs_iff _ k v').mpr hv'
  have hrt : ((bucketOf hash_fn t k).Remove k v).1 = true := by
    cases hx : ((bucketOf hash_fn t k).Remove k v).1
    · rw [HashTableBucketPage.bucket_Remove_false_iff] at hx
      rw [hx] at hc
      exact Bool.noConfusion hc
    · rfl
  have hcl := HashTableBucketPage.bucket_Remove_true _ k v hrt
  have hpairs := HashTableBucketPage.clearFirst_pairs k v _ _ hcl
  have hkv : (k, v') ≠ (k, v) := fun e => hne (Prod.mk.inj e).2.symm
  have hm1 : (k, v') ∈ HashTableBucketPage.pairs ((bucketOf hash_fn t k).Remove k v).2 := by
    rw [hpairs]
    exact (List.mem_erase_of_ne hkv).mpr hm'
  have hn1 : (k, v) ∉ HashTableBucketPage.pairs ((bucketOf hash_fn t k).Remove k v).2 := by
    rw [hpairs]
    intro hmem
    exact ((List.Nodup.mem_erase_iff hnd).mp hmem).1 rfl
  have hrem := Remove_keeps_nonempty hash_fn fuel t k v hc (IsEmpty_false_of_mem _ _ hm1)
  refine ⟨_, hrem, rfl, ?_, ?_, ?_⟩
  · intro p hp
    simp [ExtendibleHashTable.UnpinPage, FetchBucketPage, FetchDirectoryPage,
      Function.update_noteq hp]
  · obtain ⟨l1, s, l2, e1, hs, _, e2⟩ := HashTableBucketPage.clearFirst_spec k v _ _ hcl
    obtain ⟨hr, hk, hval⟩ := (HashTableBucketPage.holds_iff s k v).mp hs
    refine ⟨l1, s, l2, e1, hr, hk, hval, ?_⟩
    rw [← e2]
    simp [bucketOf, ExtendibleHashTable.UnpinPage, FetchBucketPage, FetchDirectoryPage]
  · have hb : ∀ res, GetValue hash_fn
        (((({ t.FetchDirectoryPage.FetchBucketPage (KeyToPageId hash_fn k t.dir) with
          buckets := Function.update t.buckets (KeyToPageId hash_fn k t.dir)
            ((bucketOf hash_fn t k).Remove k v).2 } :
          ExtendibleHashTable K V).UnpinPage t.directory_page_id false).UnpinPage
        (KeyToPageId hash_fn k t.dir) true)) k res
        = ((((bucketOf hash_fn t k).Remove k v).2.GetValue k res).1,
           (((bucketOf hash_fn t k).Remove k v).2.GetValue k res).2,
           (GetValue hash_fn
        (((({ t.FetchDirectoryPage.FetchBucketPage (KeyToPageId hash_fn k t.dir) with
          buckets := Function.update t.buckets (KeyToPageId hash_fn k t.dir)
            ((bucketOf hash_fn t k).Remove k v).2 } :
          ExtendibleHashTable K V).UnpinPage t.directory_page_id false).UnpinPage
        (KeyToPageId hash_fn k t.dir) true)) k res).2.2) := by
      intro res
      simp [GetValue, ExtendibleHashTable.UnpinPage, FetchBucketPage, FetchDirectoryPage,
        KeyToPageId, HashTableDirectoryPage.GetBucketPageId]
    rw [hb]
    simp only [HashTableBucketPage.GetValue, List.nil_append]
    refine ⟨?_, ?_, ?_⟩
    · have hmem := (HashTableBucketPage.mem_valuesOf_iff _ k v').mpr hm1
      cases hl : HashTableBucketPage.valuesOf ((bucketOf hash_fn t k).Remove k v).2 k with
      | nil => rw [hl] at hmem; exact absurd hmem (List.not_mem_nil _)
      | cons a l => simp
    · exact (HashTableBucketPage.mem_valuesOf_iff _ k v').mpr hm1
    · intro hmem
      exact hn1 ((HashTableBucketPage.mem_valuesOf_iff _ k v).mp hmem)

/-- C3: Remove specificity.  In every reachable index state in which `(k, v)`
and `(k, v')` with `v ≠ v'` are both stored, `Remove(k, v)` returns true (for
any bound on the merge cascade, which is not entered), clears the readable bit
of exactly one slot, which held `(k, v)`, leaves the directory and every other
bucket as they were, and a subsequent `GetValue(k)` returns true, still
returns `v'` and no longer returns `v`. -/
theorem Remove_is_specific {K V : Type} [DecidableEq K] [DecidableEq V]
    [Inhabited K] [Inhabited V] (B : Nat) (hash_fn : K → Nat) (fuel : Nat)
    (t : ExtendibleHashTable K V) (k : K) (v v' : V)
    (hreach : Reachable B hash_fn t)
    (hv : ∃ s ∈ bucketOf hash_fn t k, s.readable = true ∧ s.key = k ∧ s.value = v)
    (hv' : ∃ s ∈ bucketOf hash_fn t k, s.readable = true ∧ s.key = k ∧ s.value = v')
    (hne : v ≠ v') :
    ∃ t1, Remove hash_fn fuel t k v = some (true, t1) ∧
      t1.dir = t.dir ∧
      (∀ p, p ≠ KeyToPageId hash_fn k t.dir → t1.buckets p = t.buckets p) ∧
      (∃ l1 s l2, bucketOf hash_fn t k = l1 ++ s :: l2 ∧
          s.readable = true ∧ s.key = k ∧ s.value = v ∧
          bucketOf hash_fn t1 k = l1 ++ { s with readable := false } :: l2) ∧
      (GetValue hash_fn t1 k []).1 = true ∧
      v' ∈ (GetValue hash_fn t1 k []).2.1 ∧
      v ∉ (GetValue hash_fn t1 k []).2.1 :=
  Remove_specific_of_nodup hash_fn fuel t k v v'
    (Reachable_good B hash_fn t hreach (KeyToPageId hash_fn k t.dir)).2 hv hv' hne

/-- C3 at the spec's scenario S4: after inserting `(5,50)` and `(5,51)`,
`Remove(5,50)` leaves `GetValue(5)` returning `51` and not `50`. -/
theorem Remove_is_specific_witness :
    Reachable 4 id (Insert 4 id (Insert 4 id (freshIndex 4) 5 50).2 5 51).2 ∧
    (∃ s ∈ bucketOf id (Insert 4 id (Insert 4 id (freshIndex 4) 5 50).2 5 51).2 5,
      s.readable = true ∧ s.key = 5 ∧ s.value = 50) ∧
    (∃ s ∈ bucketOf id (Insert 4 id (Insert 4 id (freshIndex 4) 5 50).2 5 51).2 5,
      s.readable = true ∧ s.key = 5 ∧ s.value = 51) ∧
    ∃ t1, Remove id 0 (Insert 4 id (Insert 4 id (freshIndex 4) 5 50).2 5 51).2 5 50
        = some (true, t1) ∧
      t1.dir = (Insert 4 id (Insert 4 id (freshIndex 4) 5 50).2 5 51).2.dir ∧
      (∀ p, p ≠ KeyToPageId id 5 (Insert 4 id (Insert 4 id (freshIndex 4) 5 50).2 5 51).2.dir →
        t1.buckets p = (Insert 4 id (Insert 4 id (freshIndex 4) 5 50).2 5 51).2.buckets p) ∧
      (∃ l1 s l2,
          bucketOf id (Insert 4 id (Insert 4 id (freshIndex 4) 5 50).2 5 51).2 5 = l1 ++ s :: l2 ∧
          s.readable = true ∧ s.key = 5 ∧ s.value = 50 ∧
          bucketOf id t1 5 = l1 ++ { s with readable := false } :: l2) ∧
      (GetValue id t1 5 []).1 = true ∧
      51 ∈ (GetValue id t1 5 []).2.1 ∧
      50 ∉ (GetValue id t1 5 []).2.1 :=
  ⟨Reachable.insert 5 51 (Reachable.insert 5 50 (Reachable.fresh emptyPool)),
   by decide!, by decide!,
   Remove_is_specific 4 id 0 _ 5 50 51
     (Reachable.insert 5 51 (Reachable.insert 5 50 (Reachable.fresh emptyPool)))
     (by decide!) (by decide!) (by decide)⟩

/-- C4 on a full bucket: with capacity 1 and `(0,0)` stored, a second
`Insert(0,0)` returns false, changes nothing and does not split. -/
theorem Insert_duplicate_is_atomic_witness :
    (∃ s ∈ bucketOf id (Insert 1 id (freshIndex 1) 0 0).2 0,
      s.readable = true ∧ s.key = 0 ∧ s.value = 0) ∧
    (bucketOf id (Insert 1 id (freshIndex 1) 0 0).2 0).IsFull 1 = true ∧
    (Insert 1 id (Insert 1 id (freshIndex 1) 0 0).2 0 0).1 = false ∧
    (Insert 1 id (Insert 1 id (freshIndex 1) 0 0).2 0 0).2.dir
      = (Insert 1 id (freshIndex 1) 0 0).2.dir ∧
    (Insert 1 id (Insert 1 id (freshIndex 1) 0 0).2 0 0).2.buckets
      = (Insert 1 id (freshIndex 1) 0 0).2.buckets ∧
    (Insert 1 id (Insert 1 id (freshIndex 1) 0 0).2 0 0).2.bpm.next_page_id
      = (Insert 1 id (freshIndex 1) 0 0).2.bpm.next_page_id ∧
    (Insert 1 id (Insert 1 id (freshIndex 1) 0 0).2 0 0).2.bpm.events
      = (Insert 1 id (freshIndex 1) 0 0).2.bpm.events ++
        [PoolEvent.FetchPage (Insert 1 id (freshIndex 1) 0 0).2.directory_page_id,
         PoolEvent.FetchPage (KeyToPageId id 0 (Insert 1 id (freshIndex 1) 0 0).2.dir),
         PoolEvent.UnpinPage (Insert 1 id (freshIndex 1) 0 0).2.directory_page_id false,
         PoolEvent.UnpinPage (KeyToPageId id 0 (Insert 1 id (freshIndex 1) 0 0).2.dir) false] :=
  ⟨by decide!, by decide!,
   Insert_duplicate_is_atomic 1 id (Insert 1 id (freshIndex 1) 0 0).2 0 0 (by decide!)⟩

/-! ## Single-level split: an accepted pair that is not stored -/

/-- C1 fails on the code.  With bucket capacity 4 and the identity hash, the
five inserts `(0,0), (4,0), (8,0), (12,0), (16,0)` (spec scenario S2) all
return true, yet `GetValue(16)` afterwards returns false with no value: the
fifth insert escalates to `SplitInsert`, the single split leaves all five keys
in the old bucket, the bucket insert of `(16,0)` fails there and its result is
dropped. -/
theorem Insert_split_accepts_but_drops_pair :
    (runOps 4 id 0 (freshIndex 4)
        [Op.insert 0 0, Op.insert 4 0, Op.insert 8 0, Op.insert 12 0, Op.insert 16 0]).map
        (fun r => (r.1, (GetValue id r.2 16 []).1, (GetValue id r.2 16 []).2.1))
      = some ([true, true, true, true, true], false, []) := by
  decide!

/-- C2 fails on the code.  After `(0,0), (4,0), (8,0), (12,0)` fill the bucket
(capacity 4, identity hash), `Insert(16,0)` called twice returns true both
times, and `GetValue(16)` afterwards contains no value at all: neither call
stored the pair, so the second one is not recognised as a duplicate. -/
theorem Insert_twice_second_call_returns_true :
    (runOps 4 id 0 (freshIndex 4)
        [Op.insert 0 0, Op.insert 4 0, Op.insert 8 0, Op.insert 12 0,
         Op.insert 16 0, Op.insert 16 0]).map
        (fun r => (r.1, (GetValue id r.2 16 []).1, (GetValue id r.2 16 []).2.1))
      = some ([true, true, true, true, true, true], false, []) := by
  decide!

/-! ## Pin accounting -/

open HashTableDirectoryPage (DirSmall)

theorem FetchPage_pin (bpm : BufferPoolManager) (q p : Nat) :
    (bpm.FetchPage q).pin_count p = if p = q then bpm.pin_count p + 1 else bpm.pin_count p := by
  unfold BufferPoolManager.FetchPage
  by_cases h : p = q
  · subst h; simp
  · simp [h]

theorem UnpinPage_pin (bpm : BufferPoolManager) (q p : Nat) (d : Bool) :
    (bpm.UnpinPage q d).pin_count p = if p = q then bpm.pin_count p - 1 else bpm.pin_count p := by
  unfold BufferPoolManager.UnpinPage
  by_cases h : p = q
  · subst h; simp
  · simp [h]

theorem NewPage_pin (bpm : BufferPoolManager) (p : Nat) :
    bpm.NewPage.2.pin_count p = if p = bpm.next_page_id then 1 else bpm.pin_count p := by
  unfold BufferPoolManager.NewPage
  by_cases h : p = bpm.next_page_id
  · subst h; simp
  · simp [h]

theorem FetchPage_next (bpm : BufferPoolManager) (q : Nat) :
    (bpm.FetchPage q).next_page_id = bpm.next_page_id := rfl

theorem UnpinPage_next (bpm : BufferPoolManager) (q : Nat) (d : Bool) :
    (bpm.UnpinPage q d).next_page_id = bpm.next_page_id := rfl

theorem NewPage_next (bpm : BufferPoolManager) :
    bpm.NewPage.2.next_page_id = bpm.next_page_id + 1 := rfl

theorem NewPage_id (bpm : BufferPoolManager) : bpm.NewPage.1 = bpm.next_page_id := rfl

theorem FetchPage_outstanding (bpm : BufferPoolManager) (q p : Nat) :
    outstanding p (bpm.FetchPage q).events
      = outstanding p bpm.events + (if p = q then 1 else 0) := by
  simp [BufferPoolManager.FetchPage, outstanding, pinDelta, eq_comm]

theorem UnpinPage_outstanding (bpm : BufferPoolManager) (q p : Nat) (d : Bool) :
    outstanding p (bpm.UnpinPage q d).events
      = outstanding p bpm.events + (if p = q then -1 else 0) := by
  simp [BufferPoolManager.UnpinPage, outstanding, pinDelta, eq_comm]

theorem NewPage_outstanding (bpm : BufferPoolManager) (p : Nat) :
    outstanding p bpm.NewPage.2.events
      = outstanding p bpm.events + (if p = bpm.next_page_id then 1 else 0) := by
  simp [BufferPoolManager.NewPage, outstanding, pinDelta, eq_comm]

theorem GetValue_pins {K V : Type} [DecidableEq K] [DecidableEq V]
    (hash_fn : K → Nat) (t : ExtendibleHashTable K V) (key : K) (result : List V) (p : Nat) :
    (GetValue hash_fn t key result).2.2.bpm.pin_count p = t.bpm.pin_count p ∧
    (GetValue hash_fn t key result).2.2.bpm.next_page_id = t.bpm.next_page_id ∧
    outstanding p (GetValue hash_fn t key result).2.2.bpm.events = outstanding p t.bpm.events := by
  simp only [GetValue, FetchDirectoryPage, FetchBucketPage, ExtendibleHashTable.UnpinPage,
    FetchPage_pin, UnpinPage_pin, FetchPage_next, UnpinPage_next, FetchPage_outstanding,
    UnpinPage_outstanding]
  refine ⟨?_, trivial, ?_⟩
  · split_ifs <;> omega
  · split_ifs <;> omega

theorem SplitInsert_pins {K V : Type} [DecidableEq K] [DecidableEq V] [Inhabited K] [Inhabited V]
    (B : Nat) (hash_fn : K → Nat) (t : ExtendibleHashTable K V) (key : K) (value : V) (p : Nat) :
    (SplitInsert B hash_fn t key value).2.bpm.pin_count p
      = (if (SplitInsert B hash_fn t key value).1 = true ∧ p = t.bpm.next_page_id then 0
         else t.bpm.pin_count p) ∧
    (SplitInsert B hash_fn t key value).2.bpm.next_page_id
      = (if (SplitInsert B hash_fn t key value).1 = true then t.bpm.next_page_id + 1
         else t.bpm.next_page_id) ∧
    (SplitInsert B hash_fn t key value).2.directory_page_id = t.directory_page_id ∧
    outstanding p (SplitInsert B hash_fn t key value).2.bpm.events = outstanding p t.bpm.events := by
  unfold SplitInsert
  simp only []
  split
  · simp only [FetchDirectoryPage, FetchBucketPage, ExtendibleHashTable.UnpinPage,
      FetchPage_pin, UnpinPage_pin, FetchPage_next, UnpinPage_next, FetchPage_outstanding,
      UnpinPage_outstanding]
    refine ⟨?_, ?_, trivial, ?_⟩
    · simp only [Bool.false_eq_true, false_and, if_false]
      split_ifs <;> omega
    · simp
    · split_ifs <;> omega
  · simp only [FetchDirectoryPage, FetchBucketPage, ExtendibleHashTable.UnpinPage,
      FetchPage_pin, UnpinPage_pin, NewPage_pin, NewPage_id, FetchPage_next, UnpinPage_next,
      NewPage_next, FetchPage_outstanding, UnpinPage_outstanding, NewPage_outstanding]
    refine ⟨?_, ?_, trivial, ?_⟩
    · simp only [true_and]
      split_ifs <;> omega
    · simp
    · split_ifs <;> omega

theorem Insert_pins {K V : Type} [DecidableEq K] [DecidableEq V] [Inhabited K] [Inhabited V]
    (B : Nat) (hash_fn : K → Nat) (t : ExtendibleHashTable K V) (key : K) (value : V) (p : Nat)
    (h0 : t.bpm.pin_count t.bpm.next_page_id = 0) :
    (Insert B hash_fn t key value).2.bpm.pin_count p = t.bpm.pin_count p ∧
    t.bpm.next_page_id ≤ (Insert B hash_fn t key value).2.bpm.next_page_id ∧
    outstanding p (Insert B hash_fn t key value).2.bpm.events = outstanding p t.bpm.events := by
  unfold Insert
  simp only []
  split
  · simp only [FetchDirectoryPage, FetchBucketPage, ExtendibleHashTable.UnpinPage,
      FetchPage_pin, UnpinPage_pin, FetchPage_next, UnpinPage_next, FetchPage_outstanding,
      UnpinPage_outstanding]
    refine ⟨?_, le_refl _, ?_⟩
    · split_ifs <;> omega
    · split_ifs <;> omega
  · split
    · obtain ⟨h1, h2, h3, h4⟩ := SplitInsert_pins B hash_fn
        (t.FetchDirectoryPage.FetchBucketPage
          (t.FetchDirectoryPage.dir.GetBucketPageId
            (KeyToDirectoryIndex hash_fn key t.FetchDirectoryPage.dir))) key value p
      simp only [ExtendibleHashTable.UnpinPage, UnpinPage_pin, UnpinPage_next,
        UnpinPage_outstanding, h1, h2, h3, h4]
      simp only [FetchDirectoryPage, FetchBucketPage, FetchPage_pin, FetchPage_next,
        FetchPage_outstanding]
      refine ⟨?_, ?_, ?_⟩
      · split_ifs <;> simp_all
      · split_ifs <;> omega
      · split_ifs <;> omega
    · simp only [FetchDirectoryPage, FetchBucketPage, ExtendibleHashTable.UnpinPage,
        FetchPage_pin, UnpinPage_pin, FetchPage_next, UnpinPage_next, FetchPage_outstanding,
        UnpinPage_outstanding]
      refine ⟨?_, le_refl _, ?_⟩
      · split_ifs <;> omega
      · split_ifs <;> omega

theorem Merge_pins {K V : Type} [DecidableEq K] [DecidableEq V] (hash_fn : K → Nat) (p : Nat) :
    ∀ (fuel : Nat) (t t1 : ExtendibleHashTable K V) (key : K) (value : V),
      Merge hash_fn fuel t key value = some t1 →
        t1.bpm.pin_count p = t.bpm.pin_count p ∧
        t1.bpm.next_page_id = t.bpm.next_page_id ∧
        t1.directory_page_id = t.directory_page_id ∧
        outstanding p t1.bpm.events = outstanding p t.bpm.events := by
  intro fuel
  induction fuel with
  | zero => intro t t1 key value h; simp [Merge] at h
  | succ n ih =>
    intro t t1 key value h
    unfold Merge at h
    simp only [] at h
    split at h
    · rw [← Option.some.inj h]
      simp only [FetchDirectoryPage, FetchBucketPage, ExtendibleHashTable.UnpinPage,
        FetchPage_pin, UnpinPage_pin, FetchPage_next, UnpinPage_next, FetchPage_outstanding,
        UnpinPage_outstanding]
      refine ⟨?_, trivial, trivial, ?_⟩
      · split_ifs <;> omega
      · split_ifs <;> omega
    · split at h
      · rw [← Option.some.inj h]
        simp only [FetchDirectoryPage, FetchBucketPage, ExtendibleHashTable.UnpinPage,
          FetchPage_pin, UnpinPage_pin, FetchPage_next, UnpinPage_next, FetchPage_outstanding,
          UnpinPage_outstanding]
        refine ⟨?_, trivial, trivial, ?_⟩
        · split_ifs <;> omega
        · split_ifs <;> omega
      · split at h
        · obtain ⟨h1, h2, h3, h4⟩ := ih _ _ _ _ h
          rw [h1, h2, h3, h4]
          simp only [FetchDirectoryPage, FetchBucketPage, ExtendibleHashTable.UnpinPage,
            FetchPage_pin, UnpinPage_pin, FetchPage_next, UnpinPage_next, FetchPage_outstanding,
            UnpinPage_outstanding]
          refine ⟨?_, trivial, trivial, ?_⟩
          · split_ifs <;> omega
          · split_ifs <;> omega
        · rw [← Option.some.inj h]
          simp only [FetchDirectoryPage, FetchBucketPage, ExtendibleHashTable.UnpinPage,
            FetchPage_pin, UnpinPage_pin, FetchPage_next, UnpinPage_next, FetchPage_outstanding,
            UnpinPage_outstanding]
          refine ⟨?_, trivial, trivial, ?_⟩
          · split_ifs <;> omega
          · split_ifs <;> omega

theorem Remove_pins {K V : Type} [DecidableEq K] [DecidableEq V]
    (hash_fn : K → Nat) (fuel : Nat) (t : ExtendibleHashTable K V) (key : K) (value : V)
    (r : Bool × ExtendibleHashTable K V) (hr : Remove hash_fn fuel t key value = some r) (p : Nat) :
    r.2.bpm.pin_count p = t.bpm.pin_count p ∧
    r.2.bpm.next_page_id = t.bpm.next_page_id ∧
    outstanding p r.2.bpm.events = outstanding p t.bpm.events := by
  unfold Remove at hr
  simp only [] at hr
  split at hr
  · rw [← Option.some.inj hr]
    simp only [FetchDirectoryPage, FetchBucketPage, ExtendibleHashTable.UnpinPage,
      FetchPage_pin, UnpinPage_pin, FetchPage_next, UnpinPage_next, FetchPage_outstanding,
      UnpinPage_outstanding]
    refine ⟨?_, trivial, ?_⟩
    · split_ifs <;> omega
    · split_ifs <;> omega
  · split at hr
    · split at hr
      · exact Option.noConfusion hr
      · rename_i t2 hm
        rw [← Option.some.inj hr]
        obtain ⟨h1, h2, h3, h4⟩ := Merge_pins hash_fn p _ _ _ _ _ hm
        simp only [ExtendibleHashTable.UnpinPage, UnpinPage_pin, UnpinPage_next,
          UnpinPage_outstanding, h1, h2, h3, h4]
        simp only [FetchDirectoryPage, FetchBucketPage, FetchPage_pin, FetchPage_next,
          FetchPage_outstanding]
        refine ⟨?_, trivial, ?_⟩
        · split_ifs <;> omega
        · split_ifs <;> omega
    · rw [← Option.some.inj hr]
      simp only [FetchDirectoryPage, FetchBucketPage, ExtendibleHashTable.UnpinPage,
        FetchPage_pin, UnpinPage_pin, FetchPage_next, UnpinPage_next, FetchPage_outstanding,
        UnpinPage_outstanding]
      refine ⟨?_, trivial, ?_⟩
      · split_ifs <;> omega
      · split_ifs <;> omega

theorem ctor_pins {K V : Type} [Inhabited K] [Inhabited V] (B : Nat) (bpm : BufferPoolManager)
    (pages : Nat → HashTableBucketPage K V) (p : Nat) (hwf : bpm.WF) :
    (ctor B bpm pages).bpm.pin_count p = bpm.pin_count p ∧
    (ctor B bpm pages).bpm.next_page_id = bpm.next_page_id + 2 ∧
    outstanding p (ctor B bpm pages).bpm.events = outstanding p bpm.events := by
  have h0 := hwf bpm.next_page_id (le_refl _)
  have h1 := hwf (bpm.next_page_id + 1) (Nat.le_succ _)
  simp only [ctor, UnpinPage_pin, NewPage_pin, NewPage_id, UnpinPage_next, NewPage_next,
    UnpinPage_outstanding, NewPage_outstanding]
  refine ⟨?_, trivial, ?_⟩
  · split_ifs <;> simp_all
  · split_ifs <;> omega

theorem DirSmall_index {K : Type} (hash_fn : K → Nat) (key : K) (d : HashTableDirectoryPage)
    (h : DirSmall d) : KeyToDirectoryIndex hash_fn key d ≤ 1 := by
  unfold KeyToDirectoryIndex
  rw [GetGlobalDepthMask_eq d (by rw [h.1]; norm_num), h.1]
  exact Nat.and_le_right

theorem ctor_DirSmall {K V : Type} [Inhabited K] [Inhabited V] (B : Nat) (bpm : BufferPoolManager)
    (pages : Nat → HashTableBucketPage K V) : DirSmall (ctor B bpm pages).dir := by
  refine ⟨?_, ?_, ?_⟩
  · simp [ctor, HashTableDirectoryPage.zero, HashTableDirectoryPage.InitTable,
      HashTableDirectoryPage.IncrGlobalDepth, HashTableDirectoryPage.SetBucketPageId,
      HashTableDirectoryPage.SetLocalDepth, MAX_DEPTH]
  · intro j hj
    simp [ctor, HashTableDirectoryPage.zero, HashTableDirectoryPage.InitTable,
      HashTableDirectoryPage.IncrGlobalDepth, HashTableDirectoryPage.SetBucketPageId,
      HashTableDirectoryPage.SetLocalDepth, MAX_DEPTH, Function.update_apply]
  · intro j
    simp [ctor, HashTableDirectoryPage.zero, HashTableDirectoryPage.InitTable,
      HashTableDirectoryPage.IncrGlobalDepth, HashTableDirectoryPage.SetBucketPageId,
      HashTableDirectoryPage.SetLocalDepth, MAX_DEPTH, Function.update_apply]

theorem splitDepthTransform_DirSmall (d : HashTableDirectoryPage) (index : Nat)
    (h : DirSmall d) (hi : index ≤ 1) :
    DirSmall (splitDepthTransform d index).1 ∧ (splitDepthTransform d index).2.2 = false := by
  obtain ⟨hg, hz, hb⟩ := h
  unfold splitDepthTransform
  simp only [HashTableDirectoryPage.GetLocalDepth, HashTableDirectoryPage.GetGlobalDepth, hg]
  by_cases h1 : d.local_depths index < 1
  · rw [if_pos h1]
    refine ⟨⟨hg, ?_, ?_⟩, rfl⟩
    · intro j hj
      have : j ≠ index := by omega
      simp [HashTableDirectoryPage.IncrLocalDepth, Function.update_noteq this, hz j hj]
    · intro j
      simp only [HashTableDirectoryPage.IncrLocalDepth, Function.update_apply]
      have := hb j
      split_ifs <;> omega
  · rw [if_neg h1]
    by_cases h2 : d.local_depths index = 1
    · rw [if_pos h2]
      have hidx : ¬ (index ||| shl32 1 (sub32 (d.IncrLocalDepth index).global_depth 1)
          ≥ DIRECTORY_ARRAY_SIZE) := by
        have : (d.IncrLocalDepth index).global_depth = 1 := hg
        rw [this]
        have hi2 : index = 0 ∨ index = 1 := by omega
        rcases hi2 with e | e <;> subst e <;> decide
      rw [if_neg hidx]
      refine ⟨⟨hg, ?_, ?_⟩, rfl⟩
      · intro j hj
        have : j ≠ index := by omega
        simp [HashTableDirectoryPage.IncrLocalDepth, Function.update_noteq this, hz j hj]
      · intro j
        simp only [HashTableDirectoryPage.IncrLocalDepth, Function.update_apply]
        have := hb j
        split_ifs with hj
        · subst hj; omega
        · omega
    · rw [if_neg h2]
      exact ⟨⟨hg, hz, hb⟩, rfl⟩

theorem SplitInsert_DirSmall {K V : Type} [DecidableEq K] [DecidableEq V] [Inhabited K]
    [Inhabited V] (B : Nat) (hash_fn : K → Nat) (t : ExtendibleHashTable K V) (key : K)
    (value : V) (h : DirSmall t.dir) : DirSmall (SplitInsert B hash_fn t key value).2.dir := by
  have hs := splitDepthTransform_DirSmall t.dir (KeyToDirectoryIndex hash_fn key t.dir) h
    (DirSmall_index hash_fn key t.dir h)
  unfold SplitInsert
  simp only [FetchDirectoryPage, FetchBucketPage, hs.2, Bool.false_eq_true, if_false,
    ExtendibleHashTable.UnpinPage]
  exact hs.1

theorem Insert_DirSmall {K V : Type} [DecidableEq K] [DecidableEq V] [Inhabited K]
    [Inhabited V] (B : Nat) (hash_fn : K → Nat) (t : ExtendibleHashTable K V) (key : K)
    (value : V) (h : DirSmall t.dir) : DirSmall (Insert B hash_fn t key value).2.dir := by
  unfold Insert
  simp only []
  split
  · exact h
  · split
    · simp only [ExtendibleHashTable.UnpinPage]
      exact SplitInsert_DirSmall B hash_fn _ key value h
    · exact h

theorem xor_two_ge (index : Nat) (hi : index ≤ 1) : 2 ≤ index ^^^ shl32 1 (sub32 2 1) := by
  have hi2 : index = 0 ∨ index = 1 := by omega
  rcases hi2 with e | e <;> subst e <;> decide

/-- In a small directory a merge that is not aborted works on a slot of local
depth one and brings it to zero. -/
theorem merge_step_DirSmall (d : HashTableDirectoryPage) (index : Nat) (h : DirSmall d)
    (hi : index ≤ 1)
    (hgo : ¬ (d.GetLocalDepth index = 0 ∨ d.GetLocalDepth index ≠
      d.GetLocalDepth (index ^^^ shl32 1 (sub32 (d.GetLocalDepth index) 1)))) :
    DirSmall (mergeTransform d index (d.GetLocalDepth index)
        (index ^^^ shl32 1 (sub32 (d.GetLocalDepth index) 1))) ∧
    (mergeTransform d index (d.GetLocalDepth index)
        (index ^^^ shl32 1 (sub32 (d.GetLocalDepth index) 1))).local_depths index = 0 := by
  obtain ⟨hg, hz, hb⟩ := h
  simp only [HashTableDirectoryPage.GetLocalDepth, not_or, not_not] at hgo
  obtain ⟨hne, heq⟩ := hgo
  have hle := hb index
  have h1 : d.local_depths index = 1 := by
    by_contra hcon
    have h2 : d.local_depths index = 2 := by omega
    rw [h2] at heq
    have := hz _ (xor_two_ge index hi)
    omega
  unfold mergeTransform
  simp only [HashTableDirectoryPage.GetLocalDepth, HashTableDirectoryPage.GetGlobalDepth, hg, h1,
    if_true]
  refine ⟨⟨hg, ?_, ?_⟩, ?_⟩
  · intro j hj
    have : j ≠ index := by omega
    simp [HashTableDirectoryPage.DecrLocalDepth, HashTableDirectoryPage.SetBucketPageId,
      Function.update_noteq this, hz j hj]
  · intro j
    simp only [HashTableDirectoryPage.DecrLocalDepth, HashTableDirectoryPage.SetBucketPageId,
      Function.update_apply]
    have := hb j
    split_ifs with hj
    · rw [h1]; decide
    · omega
  · simp [HashTableDirectoryPage.DecrLocalDepth, HashTableDirectoryPage.SetBucketPageId, h1]

theorem Merge_DirSmall {K V : Type} [DecidableEq K] [DecidableEq V] (hash_fn : K → Nat) :
    ∀ (fuel : Nat) (t t1 : ExtendibleHashTable K V) (key : K) (value : V),
      Merge hash_fn fuel t key value = some t1 → DirSmall t.dir → DirSmall t1.dir := by
  intro fuel
  induction fuel with
  | zero => intro t t1 key value h; simp [Merge] at h
  | succ n ih =>
    intro t t1 key value h hd
    unfold Merge at h
    simp only [] at h
    split at h
    · rw [← Option.some.inj h]; exact hd
    · rename_i hgo
      split at h
      · rw [← Option.some.inj h]; exact hd
      · have hstep := merge_step_DirSmall t.dir (KeyToDirectoryIndex hash_fn key t.dir) hd
          (DirSmall_index hash_fn key t.dir hd) hgo
        split at h
        · exact ih _ _ _ _ h hstep.1
        · rw [← Option.some.inj h]; exact hstep.1

theorem KeyToDirectoryIndex_congr {K : Type} (hash_fn : K → Nat) (key : K)
    (d1 d2 : HashTableDirectoryPage) (h : d1.global_depth = d2.global_depth) :
    KeyToDirectoryIndex hash_fn key d1 = KeyToDirectoryIndex hash_fn key d2 := by
  unfold KeyToDirectoryIndex HashTableDirectoryPage.GetGlobalDepthMask
  rw [h]

/-- On a small directory whose slot for `key` has local depth zero, `Merge`
aborts at once. -/
theorem Merge_abort_of_depth_zero {K V : Type} [DecidableEq K] [DecidableEq V]
    (hash_fn : K → Nat) (fuel : Nat) (t : ExtendibleHashTable K V) (key : K) (value : V)
    (h0 : t.dir.local_depths (KeyToDirectoryIndex hash_fn key t.dir) = 0) :
    (Merge hash_fn (fuel + 1) t key value).isSome = true := by
  unfold Merge
  simp [FetchDirectoryPage, HashTableDirectoryPage.GetLocalDepth, h0]

theorem Merge_terminates_DirSmall {K V : Type} [DecidableEq K] [DecidableEq V]
    (hash_fn : K → Nat) (fuel : Nat) (t : ExtendibleHashTable K V) (key : K) (value : V)
    (hd : DirSmall t.dir) : (Merge hash_fn (fuel + 2) t key value).isSome = true := by
  unfold Merge
  simp only []
  split
  · rfl
  · rename_i hgo
    split
    · rfl
    · have hstep := merge_step_DirSmall t.dir (KeyToDirectoryIndex hash_fn key t.dir) hd
        (DirSmall_index hash_fn key t.dir hd) hgo
      split
      · apply Merge_abort_of_depth_zero
        have hidx : KeyToDirectoryIndex hash_fn key
            (mergeTransform t.dir (KeyToDirectoryIndex hash_fn key t.dir)
              (t.dir.GetLocalDepth (KeyToDirectoryIndex hash_fn key t.dir))
              (KeyToDirectoryIndex hash_fn key t.dir ^^^
                shl32 1 (sub32 (t.dir.GetLocalDepth (KeyToDirectoryIndex hash_fn key t.dir)) 1)))
            = KeyToDirectoryIndex hash_fn key t.dir := by
          exact KeyToDirectoryIndex_congr hash_fn key _ _ (hstep.1.1.trans hd.1.symm)
        simp only [ExtendibleHashTable.UnpinPage, FetchBucketPage, FetchDirectoryPage]
        rw [hidx]
        exact hstep.2
      · rfl

theorem Remove_terminates_DirSmall {K V : Type} [DecidableEq K] [DecidableEq V]
    (hash_fn : K → Nat) (fuel : Nat) (t : ExtendibleHashTable K V) (key : K) (value : V)
    (hd : DirSmall t.dir) : (Remove hash_fn (fuel + 2) t key value).isSome = true := by
  unfold Remove
  simp only []
  split
  · rfl
  · split
    · have hm := Merge_terminates_DirSmall hash_fn fuel
        ({ t.FetchDirectoryPage.FetchBucketPage
            (t.FetchDirectoryPage.dir.GetBucketPageId
              (KeyToDirectoryIndex hash_fn key t.FetchDirectoryPage.dir)) with
          buckets := Function.update
            (t.FetchDirectoryPage.FetchBucketPage
              (t.FetchDirectoryPage.dir.GetBucketPageId
                (KeyToDirectoryIndex hash_fn key t.FetchDirectoryPage.dir))).buckets
            (t.FetchDirectoryPage.dir.GetBucketPageId
              (KeyToDirectoryIndex hash_fn key t.FetchDirectoryPage.dir))
            (((t.FetchDirectoryPage.FetchBucketPage
              (t.FetchDirectoryPage.dir.GetBucketPageId
                (KeyToDirectoryIndex hash_fn key t.FetchDirectoryPage.dir))).buckets
              (t.FetchDirectoryPage.dir.GetBucketPageId
                (KeyToDirectoryIndex hash_fn key t.FetchDirectoryPage.dir))).Remove key value).2 })
        key value hd
      split
      · rename_i hn
        rw [hn] at hm
        exact Bool.noConfusion hm
      · rfl
    · rfl

theorem Remove_DirSmall {K V : Type} [DecidableEq K] [DecidableEq V]
    (hash_fn : K → Nat) (fuel : Nat) (t : ExtendibleHashTable K V) (key : K) (value : V)
    (r : Bool × ExtendibleHashTable K V) (hr : Remove hash_fn fuel t key value = some r)
    (hd : DirSmall t.dir) : DirSmall r.2.dir := by
  unfold Remove at hr
  simp only [] at hr
  split at hr
  · rw [← Option.some.inj hr]; exact hd
  · split at hr
    · split at hr
      · exact Option.noConfusion hr
      · rename_i t2 hm
        rw [← Option.some.inj hr]
        exact Merge_DirSmall hash_fn _ _ t2 _ _ hm hd
    · rw [← Option.some.inj hr]; exact hd

theorem Reachable_DirSmall {K V : Type} [DecidableEq K] [DecidableEq V] [Inhabited K] [Inhabited V]
    (B : Nat) (hash_fn : K → Nat) (t : ExtendibleHashTable K V)
    (h : Reachable B hash_fn t) : DirSmall t.dir := by
  induction h with
  | fresh bpm => exact ctor_DirSmall B bpm _
  | getValue key result _ ih => exact ih
  | insert key value _ ih => exact Insert_DirSmall B hash_fn _ key value ih
  | remove fuel key value r _ hr ih => exact Remove_DirSmall hash_fn fuel _ key value r hr ih

theorem WF_of_pins (b b1 : BufferPoolManager) (hle : b.next_page_id ≤ b1.next_page_id)
    (hp : ∀ p, b1.pin_count p = b.pin_count p) (h : b.WF) : b1.WF := by
  intro p hge
  rw [hp p]
  exact h p (le_trans hle hge)

theorem GetValue_WF {K V : Type} [DecidableEq K] [DecidableEq V]
    (hash_fn : K → Nat) (t : ExtendibleHashTable K V) (key : K) (result : List V)
    (h : t.bpm.WF) : (GetValue hash_fn t key result).2.2.bpm.WF :=
  WF_of_pins _ _ (le_of_eq (GetValue_pins hash_fn t key result 0).2.1.symm)
    (fun p => (GetValue_pins hash_fn t key result p).1) h

theorem Insert_WF {K V : Type} [DecidableEq K] [DecidableEq V] [Inhabited K] [Inhabited V]
    (B : Nat) (hash_fn : K → Nat) (t : ExtendibleHashTable K V) (key : K) (value : V)
    (h : t.bpm.WF) : (Insert B hash_fn t key value).2.bpm.WF :=
  WF_of_pins _ _ (Insert_pins B hash_fn t key value 0 (h _ (le_refl _))).2.1
    (fun p => (Insert_pins B hash_fn t key value p (h _ (le_refl _))).1) h

theorem Remove_WF {K V : Type} [DecidableEq K] [DecidableEq V]
    (hash_fn : K → Nat) (fuel : Nat) (t : ExtendibleHashTable K V) (key : K) (value : V)
    (r : Bool × ExtendibleHashTable K V) (hr : Remove hash_fn fuel t key value = some r)
    (h : t.bpm.WF) : r.2.bpm.WF :=
  WF_of_pins _ _ (le_of_eq (Remove_pins hash_fn fuel t key value r hr 0).2.1.symm)
    (fun p => (Remove_pins hash_fn fuel t key value r hr p).1) h

theorem ctor_WF {K V : Type} [Inhabited K] [Inhabited V] (B : Nat) (bpm : BufferPoolManager)
    (pages : Nat → HashTableBucketPage K V) (h : bpm.WF) : (ctor B bpm pages).bpm.WF :=
  WF_of_pins _ _ (by rw [(ctor_pins B bpm pages 0 h).2.1]; omega)
    (fun p => (ctor_pins B bpm pages p h).1) h

theorem emptyPool_WF : emptyPool.WF := fun _ _ => rfl

/-- C10: no page leak.  On a pool in which no unallocated page id carries a
pin, every top-level call of `GetValue`, of `Insert` (with the `SplitInsert`
it may invoke, on both exits), of `Remove` (with `Merge` and its cascade,
whenever the call returns) and the constructor leave the pin count of every
page `p` as it was, and along the pool calls they make every
`FetchPage`/`NewPage` of `p` is matched by one `UnpinPage` of `p`; the pool
stays well-formed.  On every reachable state `Remove` does return once two
nested `Merge` calls are allowed. -/
theorem no_page_leak {K V : Type} [DecidableEq K] [DecidableEq V] [Inhabited K] [Inhabited V]
    (B : Nat) (hash_fn : K → Nat) (fuel : Nat) (t : ExtendibleHashTable K V) (key : K)
    (value : V) (result : List V) (bpm : BufferPoolManager)
    (pages : Nat → HashTableBucketPage K V) (p : Nat) (ht : t.bpm.WF) (hb : bpm.WF) :
    ((GetValue hash_fn t key result).2.2.bpm.pin_count p = t.bpm.pin_count p ∧
      outstanding p (GetValue hash_fn t key result).2.2.bpm.events
        = outstanding p t.bpm.events ∧
      (GetValue hash_fn t key result).2.2.bpm.WF) ∧
    ((Insert B hash_fn t key value).2.bpm.pin_count p = t.bpm.pin_count p ∧
      outstanding p (Insert B hash_fn t key value).2.bpm.events = outstanding p t.bpm.events ∧
      (Insert B hash_fn t key value).2.bpm.WF) ∧
    (∀ r, Remove hash_fn fuel t key value = some r →
      r.2.bpm.pin_count p = t.bpm.pin_count p ∧
      outstanding p r.2.bpm.events = outstanding p t.bpm.events ∧ r.2.bpm.WF) ∧
    (Reachable B hash_fn t → (Remove hash_fn (fuel + 2) t key value).isSome = true) ∧
    ((ctor B bpm pages).bpm.pin_count p = bpm.pin_count p ∧
      outstanding p (ctor B bpm pages).bpm.events = outstanding p bpm.events ∧
      (ctor B bpm pages).bpm.WF) := by
  refine ⟨⟨?_, ?_, ?_⟩, ⟨?_, ?_, ?_⟩, ?_, ?_, ⟨?_, ?_, ?_⟩⟩
  · exact (GetValue_pins hash_fn t key result p).1
  · exact (GetValue_pins hash_fn t key result p).2.2
  · exact GetValue_WF hash_fn t key result ht
  · exact (Insert_pins B hash_fn t key value p (ht _ (le_refl _))).1
  · exact (Insert_pins B hash_fn t key value p (ht _ (le_refl _))).2.2
  · exact Insert_WF B hash_fn t key value ht
  · intro r hr
    exact ⟨(Remove_pins hash_fn fuel t key value r hr p).1,
      (Remove_pins hash_fn fuel t key value r hr p).2.2,
      Remove_WF hash_fn fuel t key value r hr ht⟩
  · intro hreach
    exact Remove_terminates_DirSmall hash_fn fuel t key value
      (Reachable_DirSmall B hash_fn t hreach)
  · exact (ctor_pins B bpm pages p hb).1
  · exact (ctor_pins B bpm pages p hb).2.2
  · exact ctor_WF B bpm pages hb

/-- C10 at a call that merges: with capacity 1, after `Insert` of `(0,0)`,
`(1,0)`, `(2,0)` (two of them split), `Remove(0,0)` empties its bucket and
runs `Merge` twice; it returns, and no page holds a pin afterwards. -/
theorem no_page_leak_witness :
    (Insert 1 id (Insert 1 id (Insert 1 id (freshIndex 1) 0 0).2 1 0).2 2 0).2.bpm.WF ∧
    emptyPool.WF ∧
    (Remove id 2 (Insert 1 id (Insert 1 id (Insert 1 id (freshIndex 1) 0 0).2 1 0).2 2 0).2
      0 0).isSome = true ∧
    (Remove id 1 (Insert 1 id (Insert 1 id (Insert 1 id (freshIndex 1) 0 0).2 1 0).2 2 0).2
      0 0).isSome = false ∧
    (∀ r, Remove id 2 (Insert 1 id (Insert 1 id (Insert 1 id (freshIndex 1) 0 0).2 1 0).2 2 0).2
        0 0 = some r →
      r.2.bpm.pin_count 3 = 0 ∧
      outstanding 3 r.2.bpm.events = outstanding 3
        (Insert 1 id (Insert 1 id (Insert 1 id (freshIndex 1) 0 0).2 1 0).2 2 0).2.bpm.events) :=
  ⟨Insert_WF 1 id _ 2 0 (Insert_WF 1 id _ 1 0 (Insert_WF 1 id _ 0 0
      (ctor_WF 1 emptyPool _ emptyPool_WF))),
   emptyPool_WF, by decide!, by decide!,
   fun r hr =>
    have h := (no_page_leak 1 id 2
      (Insert 1 id (Insert 1 id (Insert 1 id (freshIndex 1) 0 0).2 1 0).2 2 0).2 0 0 []
      emptyPool (fun _ => HashTableBucketPage.fresh 1) 3
      (Insert_WF 1 id _ 2 0 (Insert_WF 1 id _ 1 0 (Insert_WF 1 id _ 0 0
        (ctor_WF 1 emptyPool _ emptyPool_WF))))
      emptyPool_WF).2.2.1 r hr
    ⟨h.1.trans (by decide!), h.2.1⟩⟩

end ExtendibleHashTable

/-! ## The dropped pair at any bucket capacity -/

namespace HashTableBucketPage

theorem exists_not_readable {K V : Type} (b : HashTableBucketPage K V)
    (h : NumReadable b < b.length) : ∃ s ∈ b, s.readable = false := by
  by_contra hcon
  have hall : ∀ s ∈ b, (fun s : Slot K V => s.readable) s = true := by
    intro s hs
    by_contra hr
    exact hcon ⟨s, hs, by simpa using hr⟩
  have := List.countP_eq_length.mpr hall
  unfold NumReadable at h
  omega

theorem bucket_Insert_of_room {K V : Type} [DecidableEq K] [DecidableEq V]
    (b : HashTableBucketPage K V) (k : K) (v : V) (hn : (k, v) ∉ pairs b)
    (hroom : NumReadable b < b.length) : (b.Insert k v).1 = true := by
  have hc : b.CheckKeyValueExist k v = false := by
    cases hx : b.CheckKeyValueExist k v
    · rfl
    · exact absurd ((CheckKeyValueExist_iff b k v).mp hx) hn
  obtain ⟨s, hs, hr⟩ := exists_not_readable b hroom
  have hsome : (writeFirstFree k v b).isSome = true :=
    (writeFirstFree_isSome_iff k v b).mpr ⟨s, hs, Or.inr hr⟩
  unfold Insert
  rw [hc]
  cases hw : writeFirstFree k v b with
  | none => rw [hw] at hsome; exact Bool.noConfusion hsome
  | some r => simp

theorem bucket_Insert_of_full {K V : Type} [DecidableEq K] [DecidableEq V]
    (b : HashTableBucketPage K V) (k : K) (v : V) (hwf : SlotsWF b)
    (hfull : NumReadable b = b.length) : b.Insert k v = (false, b) := by
  have hall := List.countP_eq_length.mp hfull
  have hnone : writeFirstFree k v b = none := by
    cases hw : writeFirstFree k v b with
    | none => rfl
    | some r =>
      have hsome : (writeFirstFree k v b).isSome = true := by rw [hw]; rfl
      obtain ⟨s, hs, hfree⟩ := (writeFirstFree_isSome_iff k v b).mp hsome
      have hr : s.readable = true := hall s hs
      have ho := hwf s hs hr
      rcases hfree with h | h
      · rw [ho] at h; exact Bool.noConfusion h
      · rw [hr] at h; exact Bool.noConfusion h
  unfold Insert
  split
  · rfl
  · rw [hnone]

theorem insertAll_fits {K V : Type} [DecidableEq K] [DecidableEq V] :
    ∀ (l : List (K × V)) (b : HashTableBucketPage K V), SlotsWF b →
      (pairs b ++ l).Nodup → (pairs b).length + l.length ≤ b.length →
      (pairs (insertAll b l)).Perm (pairs b ++ l) ∧ SlotsWF (insertAll b l) ∧
        (insertAll b l).length = b.length := by
  intro l
  induction l with
  | nil => intro b hwf _ _; simp [insertAll, hwf]
  | cons kv rest ih =>
    intro b hwf hnd hlen
    obtain ⟨k, v⟩ := kv
    have hn : (k, v) ∉ pairs b := by
      intro hmem
      have := List.nodup_append.mp hnd
      exact this.2.2 hmem (List.mem_cons_self _ _)
    have hroom : NumReadable b < b.length := by
      rw [NumReadable_eq]
      simp only [List.length_cons] at hlen
      omega
    have ht := bucket_Insert_of_room b k v hn hroom
    obtain ⟨_, hp, hwf1, hl1⟩ := bucket_Insert_true b k v hwf ht
    have hperm : (pairs (b.Insert k v).2 ++ rest).Perm (pairs b ++ (k, v) :: rest) := by
      refine (List.Perm.append_right rest hp).trans ?_
      have hmid : (pairs b ++ (k, v) :: rest).Perm ((k, v) :: (pairs b ++ rest)) :=
        List.perm_middle
      simpa using hmid.symm
    have hnd1 : (pairs (b.Insert k v).2 ++ rest).Nodup := hperm.nodup_iff.mpr hnd
    have hlen1 : (pairs (b.Insert k v).2).length + rest.length ≤ (b.Insert k v).2.length := by
      rw [hl1, hp.length_eq]
      simp only [List.length_cons] at hlen ⊢
      omega
    obtain ⟨h1, h2, h3⟩ := ih (b.Insert k v).2 hwf1 hnd1 hlen1
    refine ⟨?_, h2, by rw [← hl1]; exact h3⟩
    exact h1.trans hperm

theorem insertAll_append {K V : Type} [DecidableEq K] [DecidableEq V] :
    ∀ (l1 l2 : List (K × V)) (b : HashTableBucketPage K V),
      insertAll b (l1 ++ l2) = insertAll (insertAll b l1) l2 := by
  intro l1
  induction l1 with
  | nil => intro l2 b; rfl
  | cons kv rest ih =>
    intro l2 b
    obtain ⟨k, v⟩ := kv
    simp only [List.cons_append, insertAll]
    exact ih l2 _

theorem EmptyArray_length {K V : Type} (b : HashTableBucketPage K V) (out : List (K × V)) :
    (b.EmptyArray out).2.length = b.length := by
  simp [EmptyArray]

theorem EmptyArray_out {K V : Type} (b : HashTableBucketPage K V) :
    (b.EmptyArray []).1 = pairs b := by
  simp [EmptyArray]

end HashTableBucketPage

namespace ExtendibleHashTable

theorem redistribute_all_old {K V : Type} [DecidableEq K] [DecidableEq V] (hash_fn : K → Nat)
    (dir : HashTableDirectoryPage) (old_page_id new_page_id : Nat) :
    ∀ (kvs : List (K × V)) (pages : Nat → HashTableBucketPage K V),
      (∀ kv ∈ kvs, dir.GetBucketPageId (KeyToDirectoryIndex hash_fn kv.1 dir) ≠ new_page_id) →
      redistribute hash_fn dir old_page_id new_page_id kvs pages
        = Function.update pages old_page_id
            (HashTableBucketPage.insertAll (pages old_page_id) kvs) := by
  intro kvs
  induction kvs with
  | nil => intro pages _; simp [redistribute, HashTableBucketPage.insertAll]
  | cons kv rest ih =>
    intro pages h
    obtain ⟨k, v⟩ := kv
    have hk := h (k, v) (List.mem_cons_self _ _)
    unfold redistribute
    simp only [] at hk ⊢
    rw [if_neg hk, ih _ (fun kv hkv => h kv (List.mem_cons_of_mem _ hkv))]
    simp [HashTableBucketPage.insertAll]

theorem index_even (d : HashTableDirectoryPage) (i : Nat) (h : d.global_depth = 1) :
    KeyToDirectoryIndex id (2 * i) d = 0 := by
  unfold KeyToDirectoryIndex
  rw [GetGlobalDepthMask_eq d (by rw [h]; norm_num), h]
  unfold Hash
  simp only [id, pow_one, Nat.add_one_sub_one, Nat.and_one_is_mod]
  have e : (2 : Nat) ^ 32 = 4294967296 := by norm_num
  rw [e]
  omega

theorem evenPairs_nodup (n : Nat) : (evenPairs n).Nodup := by
  unfold evenPairs
  refine List.Nodup.map ?_ (List.nodup_range n)
  intro a b hab
  simp only [Prod.mk.injEq, and_true] at hab
  omega

theorem not_mem_evenPairs (n : Nat) (v : Nat) : (2 * n, v) ∉ evenPairs n := by
  unfold evenPairs
  simp only [List.mem_map, List.mem_range, Prod.mk.injEq, not_exists, not_and]
  intro i hi h2
  omega

theorem evenPairs_succ (n : Nat) : evenPairs (n + 1) = evenPairs n ++ [(2 * n, 0)] := by
  simp [evenPairs, List.range_succ]

theorem FilledEven_fresh (B : Nat) : FilledEven B 0 (freshIndex B) := by
  refine ⟨?_, ?_, ?_, ?_, ?_, ?_, ?_⟩
  · simp [freshIndex, ctor, HashTableDirectoryPage.zero, HashTableDirectoryPage.InitTable,
      HashTableDirectoryPage.IncrGlobalDepth, HashTableDirectoryPage.SetBucketPageId,
      HashTableDirectoryPage.SetLocalDepth, MAX_DEPTH]
  · simp [freshIndex, ctor, HashTableDirectoryPage.zero, HashTableDirectoryPage.InitTable,
      HashTableDirectoryPage.IncrGlobalDepth, HashTableDirectoryPage.SetBucketPageId,
      HashTableDirectoryPage.SetLocalDepth, MAX_DEPTH, BufferPoolManager.NewPage, emptyPool]
  · simp [freshIndex, ctor, HashTableDirectoryPage.zero, HashTableDirectoryPage.InitTable,
      HashTableDirectoryPage.IncrGlobalDepth, HashTableDirectoryPage.SetBucketPageId,
      HashTableDirectoryPage.SetLocalDepth, MAX_DEPTH]
  · simp [freshIndex, ctor, BufferPoolManager.NewPage, BufferPoolManager.UnpinPage, emptyPool]
  · simp [freshIndex, ctor, BufferPoolManager.NewPage, emptyPool, HashTableBucketPage.fresh]
  · have : (freshIndex B).buckets 1 = HashTableBucketPage.fresh B := by
      simp [freshIndex, ctor, BufferPoolManager.NewPage, emptyPool]
    rw [this]
    exact (HashTableBucketPage.fresh_good B).1
  · have : (freshIndex B).buckets 1 = HashTableBucketPage.fresh B := by
      simp [freshIndex, ctor, BufferPoolManager.NewPage, emptyPool]
    rw [this, HashTableBucketPage.pairs_fresh]
    simp [evenPairs]

theorem Insert_even_room (B n : Nat) (t : ExtendibleHashTable Nat Nat) (h : FilledEven B n t)
    (hn : n < B) :
    (Insert B id t (2 * n) 0).1 = true ∧ FilledEven B (n + 1) (Insert B id t (2 * n) 0).2 := by
  obtain ⟨hg, hid, hld, hnext, hlen, hwf, hp⟩ := h
  have hidx := index_even t.dir n hg
  have hnot : (2 * n, 0) ∉ HashTableBucketPage.pairs (t.buckets 1) := by
    intro hm
    exact not_mem_evenPairs n 0 (hp.mem_iff.mp hm)
  have hroom : HashTableBucketPage.NumReadable (t.buckets 1) < (t.buckets 1).length := by
    rw [HashTableBucketPage.NumReadable_eq, hp.length_eq, hlen]
    simp [evenPairs, hn]
  have ht := HashTableBucketPage.bucket_Insert_of_room (t.buckets 1) (2 * n) 0 hnot hroom
  obtain ⟨_, hp1, hwf1, hl1⟩ := HashTableBucketPage.bucket_Insert_true _ _ _ hwf ht
  have hI : Insert B id t (2 * n) 0 = (true,
      (({ t.FetchDirectoryPage.FetchBucketPage 1 with
          buckets := Function.update t.buckets 1 ((t.buckets 1).Insert (2 * n) 0).2 } :
          ExtendibleHashTable Nat Nat).UnpinPage t.directory_page_id false).UnpinPage 1 true) := by
    unfold Insert
    simp only [FetchDirectoryPage, FetchBucketPage, HashTableDirectoryPage.GetBucketPageId, hidx,
      hid, ht, if_true]
  rw [hI]
  refine ⟨rfl, hg, hid, hld, hnext, ?_, ?_, ?_⟩
  · simp [ExtendibleHashTable.UnpinPage, hl1, hlen]
  · simpa [ExtendibleHashTable.UnpinPage] using hwf1
  · simp only [ExtendibleHashTable.UnpinPage, Function.update_same]
    rw [evenPairs_succ]
    exact hp1.trans ((List.Perm.cons _ hp).trans (List.perm_append_singleton _ _).symm)

theorem splitDepthTransform_fresh (d : HashTableDirectoryPage) (hg : d.global_depth = 1)
    (hld : d.local_depths 0 = 0) :
    splitDepthTransform d 0 = (d.IncrLocalDepth 0, 1, false) := by
  unfold splitDepthTransform
  simp only [HashTableDirectoryPage.GetLocalDepth, HashTableDirectoryPage.GetGlobalDepth, hg, hld,
    Nat.lt_one_iff, if_true]
  have h1 : (d.IncrLocalDepth 0).local_depths 0 = 1 := by
    simp [HashTableDirectoryPage.IncrLocalDepth, hld]
  rw [h1]
  rfl

/-- The split of a bucket full of even keys on the initial directory: all
pairs go back to the old page, which is full again before the new pair's
turn. -/
theorem SplitInsert_even_full (B : Nat) (u : ExtendibleHashTable Nat Nat)
    (h : FilledEven B B u) :
    (SplitInsert B id u (2 * B) 0).1 = true ∧
    (SplitInsert B id u (2 * B) 0).2.dir.global_depth = 1 ∧
    (SplitInsert B id u (2 * B) 0).2.dir.bucket_page_ids 0 = 1 ∧
    (HashTableBucketPage.pairs ((SplitInsert B id u (2 * B) 0).2.buckets 1)).Perm
      (evenPairs B) := by
  obtain ⟨hg, hid, hld, hnext, hlen, hwf, hp⟩ := h
  have hidx := index_even u.dir B hg
  -- the directory after the split
  have hd0 : ((u.dir.IncrLocalDepth 0).SeperatePageId 0 1 2).bucket_page_ids 0 = 1 := by
    simp [HashTableDirectoryPage.SeperatePageId, HashTableDirectoryPage.IncrLocalDepth, hid, hld]
  have hdg : ((u.dir.IncrLocalDepth 0).SeperatePageId 0 1 2).global_depth = 1 := hg
  -- every redistributed key resolves to the old page
  have hall : ∀ kv ∈ HashTableBucketPage.pairs (u.buckets 1) ++ [(2 * B, 0)],
      ((u.dir.IncrLocalDepth 0).SeperatePageId 0 1 2).GetBucketPageId
        (KeyToDirectoryIndex id kv.1 ((u.dir.IncrLocalDepth 0).SeperatePageId 0 1 2)) ≠ 2 := by
    intro kv hkv
    have hev : ∃ i, kv.1 = 2 * i := by
      rcases List.mem_append.mp hkv with hm | hm
      · have := hp.mem_iff.mp hm
        simp only [evenPairs, List.mem_map, List.mem_range] at this
        obtain ⟨i, _, hi⟩ := this
        exact ⟨i, by rw [← hi]⟩
      · simp only [List.mem_singleton] at hm
        exact ⟨B, by rw [hm]⟩
    obtain ⟨i, hi⟩ := hev
    rw [hi, index_even _ i hdg]
    unfold HashTableDirectoryPage.GetBucketPageId
    rw [hd0]
    decide
  -- the drained old page takes the old pairs back and then is full
  have hcl_wf := (HashTableBucketPage.EmptyArray_good (u.buckets 1) []).1
  have hcl_pairs := HashTableBucketPage.EmptyArray_pairs (u.buckets 1) []
  have hcl_len := HashTableBucketPage.EmptyArray_length (u.buckets 1) []
  have hnd : (HashTableBucketPage.pairs (u.buckets 1)).Nodup :=
    hp.nodup_iff.mpr (evenPairs_nodup B)
  have hplen : (HashTableBucketPage.pairs (u.buckets 1)).length = B := by
    rw [hp.length_eq]; simp [evenPairs]
  obtain ⟨hf1, hf2, hf3⟩ := HashTableBucketPage.insertAll_fits
    (HashTableBucketPage.pairs (u.buckets 1)) ((u.buckets 1).EmptyArray []).2 hcl_wf
    (by rw [hcl_pairs]; simpa using hnd)
    (by rw [hcl_pairs, hcl_len, hlen, hplen]; simp)
  rw [hcl_pairs, List.nil_append] at hf1
  have hfull2 : HashTableBucketPage.NumReadable
      (HashTableBucketPage.insertAll ((u.buckets 1).EmptyArray []).2
        (HashTableBucketPage.pairs (u.buckets 1)))
      = (HashTableBucketPage.insertAll ((u.buckets 1).EmptyArray []).2
        (HashTableBucketPage.pairs (u.buckets 1))).length := by
    rw [HashTableBucketPage.NumReadable_eq, hf1.length_eq, hf3, hcl_len, hlen, hplen]
  have hlast := HashTableBucketPage.bucket_Insert_of_full _ (2 * B) 0 hf2 hfull2
  have hfinal : HashTableBucketPage.insertAll ((u.buckets 1).EmptyArray []).2
      (HashTableBucketPage.pairs (u.buckets 1) ++ [(2 * B, 0)])
      = HashTableBucketPage.insertAll ((u.buckets 1).EmptyArray []).2
        (HashTableBucketPage.pairs (u.buckets 1)) := by
    rw [HashTableBucketPage.insertAll_append]
    simp [HashTableBucketPage.insertAll, hlast]
  have h12 : (1 : Nat) ≠ 2 := by decide
  have hu : Function.update u.buckets 2 (HashTableBucketPage.fresh B) 1 = u.buckets 1 :=
    Function.update_noteq h12 _ _
  have hall2 := hall
  simp only [HashTableDirectoryPage.GetBucketPageId] at hall2
  unfold SplitInsert
  simp only [FetchDirectoryPage, FetchBucketPage, ExtendibleHashTable.UnpinPage, hidx,
    HashTableDirectoryPage.GetBucketPageId, hid, splitDepthTransform_fresh u.dir hg hld,
    Bool.false_eq_true, if_false, NewPage_id, FetchPage_next, hnext, hu,
    HashTableBucketPage.EmptyArray_out]
  refine ⟨trivial, hg, hd0, ?_⟩
  rw [hnext, hidx, hid, hu, redistribute_all_old id _ 1 2 _ _ hall2]
  simp only [Function.update_same, hfinal]
  exact hf1.trans hp

theorem Insert_even_full (B : Nat) (t : ExtendibleHashTable Nat Nat) (h : FilledEven B B t) :
    (Insert B id t (2 * B) 0).1 = true ∧
    (Insert B id t (2 * B) 0).2.dir.global_depth = 1 ∧
    (Insert B id t (2 * B) 0).2.dir.bucket_page_ids 0 = 1 ∧
    (HashTableBucketPage.pairs ((Insert B id t (2 * B) 0).2.buckets 1)).Perm (evenPairs B) := by
  have hS := SplitInsert_even_full B (t.FetchDirectoryPage.FetchBucketPage 1) h
  obtain ⟨hg, hid, hld, hnext, hlen, hwf, hp⟩ := h
  have hidx := index_even t.dir B hg
  have hnot : (2 * B, 0) ∉ HashTableBucketPage.pairs (t.buckets 1) := by
    intro hm
    exact not_mem_evenPairs B 0 (hp.mem_iff.mp hm)
  have hnum : HashTableBucketPage.NumReadable (t.buckets 1) = B := by
    rw [HashTableBucketPage.NumReadable_eq, hp.length_eq]
    simp [evenPairs]
  have hfail := HashTableBucketPage.bucket_Insert_of_full (t.buckets 1) (2 * B) 0 hwf
    (by rw [hnum, hlen])
  have hfull : (t.buckets 1).IsFull B = true := by
    simp [HashTableBucketPage.IsFull, hnum]
  have hchk : (t.buckets 1).CheckKeyValueExist (2 * B) 0 = false := by
    cases hx : (t.buckets 1).CheckKeyValueExist (2 * B) 0
    · rfl
    · exact absurd ((HashTableBucketPage.CheckKeyValueExist_iff _ _ _).mp hx) hnot
  have hI : Insert B id t (2 * B) 0
      = ((SplitInsert B id (t.FetchDirectoryPage.FetchBucketPage 1) (2 * B) 0).1,
         ((SplitInsert B id (t.FetchDirectoryPage.FetchBucketPage 1) (2 * B) 0).2.UnpinPage
            (SplitInsert B id (t.FetchDirectoryPage.FetchBucketPage 1)
              (2 * B) 0).2.directory_page_id true).UnpinPage 1 true) := by
    unfold Insert
    have hdir : t.FetchDirectoryPage.dir = t.dir := rfl
    have hb : (t.FetchDirectoryPage.FetchBucketPage 1).buckets = t.buckets := rfl
    simp only [hdir, hidx, HashTableDirectoryPage.GetBucketPageId, hid, hb, hfail, hfull, hchk,
      Bool.false_eq_true, if_false, Bool.not_false, Bool.and_self, if_true]
  rw [hI]
  exact hS

theorem runOps_append {K V : Type} [DecidableEq K] [DecidableEq V] [Inhabited K] [Inhabited V]
    (B : Nat) (hash_fn : K → Nat) (fuel : Nat) :
    ∀ (l1 l2 : List (Op K V)) (t : ExtendibleHashTable K V) (f1 f2 : List Bool)
      (t1 t2 : ExtendibleHashTable K V),
      runOps B hash_fn fuel t l1 = some (f1, t1) → runOps B hash_fn fuel t1 l2 = some (f2, t2) →
      runOps B hash_fn fuel t (l1 ++ l2) = some (f1 ++ f2, t2) := by
  intro l1
  induction l1 with
  | nil =>
    intro l2 t f1 f2 t1 t2 h1 h2
    simp only [runOps, Option.some.injEq, Prod.mk.injEq] at h1
    obtain ⟨hf, ht⟩ := h1
    subst hf; subst ht
    simpa using h2
  | cons op rest ih =>
    intro l2 t f1 f2 t1 t2 h1 h2
    simp only [List.cons_append]
    unfold runOps at h1 ⊢
    cases ha : applyOp B hash_fn fuel t op with
    | none => rw [ha] at h1; simp at h1
    | some r =>
      rw [ha] at h1
      simp only [] at h1 ⊢
      cases hr : runOps B hash_fn fuel r.2 rest with
      | none => rw [hr] at h1; simp at h1
      | some q =>
        rw [hr] at h1
        simp only [Option.some.injEq, Prod.mk.injEq] at h1
        obtain ⟨hf, ht⟩ := h1
        subst hf; subst ht
        have hq : runOps B hash_fn fuel r.2 rest = some (q.1, q.2) := hr
        rw [ih l2 r.2 q.1 f2 q.2 t2 hq h2]
        simp

theorem runOps_even_room (B : Nat) :
    ∀ (n m : Nat) (t : ExtendibleHashTable Nat Nat), FilledEven B m t → m + n ≤ B →
      ∃ t1, runOps B id 0 t ((List.range' m n).map (fun i => Op.insert (2 * i) 0))
          = some (List.replicate n true, t1) ∧ FilledEven B (m + n) t1 := by
  intro n
  induction n with
  | zero => intro m t h _; exact ⟨t, rfl, h⟩
  | succ n ih =>
    intro m t h hle
    obtain ⟨h1, h2⟩ := Insert_even_room B m t h (by omega)
    obtain ⟨t1, hr, hf⟩ := ih (m + 1) (Insert B id t (2 * m) 0).2 h2 (by omega)
    have he : m + 1 + n = m + (n + 1) := by omega
    rw [he] at hf
    refine ⟨t1, ?_, hf⟩
    simp only [List.range', List.map_cons]
    unfold runOps
    simp only [applyOp, hr, h1, List.replicate_succ]

/-- A key that is not among the stored even keys is not found. -/
theorem GetValue_absent_even (B : Nat) (t : ExtendibleHashTable Nat Nat)
    (hg : t.dir.global_depth = 1) (hid : t.dir.bucket_page_ids 0 = 1)
    (hp : (HashTableBucketPage.pairs (t.buckets 1)).Perm (evenPairs B)) :
    (GetValue id t (2 * B) []).1 = false ∧ (GetValue id t (2 * B) []).2.1 = [] := by
  have hidx := index_even t.dir B hg
  have hv : HashTableBucketPage.valuesOf (t.buckets 1) (2 * B) = [] := by
    cases hl : HashTableBucketPage.valuesOf (t.buckets 1) (2 * B) with
    | nil => rfl
    | cons a l =>
      have hm : a ∈ HashTableBucketPage.valuesOf (t.buckets 1) (2 * B) := by
        rw [hl]; exact List.mem_cons_self _ _
      have := hp.mem_iff.mp ((HashTableBucketPage.mem_valuesOf_iff _ _ _).mp hm)
      exact absurd this (not_mem_evenPairs B a)
  simp [GetValue, FetchDirectoryPage, FetchBucketPage, HashTableDirectoryPage.GetBucketPageId,
    hidx, hid, HashTableBucketPage.GetValue, hv]

/-- The dropped pair of C1 at every bucket capacity `B`: on a fresh index with
the identity hash, the `B + 1` inserts `(0,0), (2,0), ..., (2B,0)` all return
true, and `GetValue(2B)` afterwards returns false with no value. -/
theorem Insert_split_drops_pair_any_capacity (B : Nat) :
    (runOps B id 0 (freshIndex B) ((List.range (B + 1)).map (fun i => Op.insert (2 * i) 0))).map
        (fun r => (r.1, (GetValue id r.2 (2 * B) []).1, (GetValue id r.2 (2 * B) []).2.1))
      = some (List.replicate (B + 1) true, false, []) := by
  obtain ⟨t1, hr, hf⟩ := runOps_even_room B B 0 (freshIndex B) (FilledEven_fresh B) (by omega)
  rw [Nat.zero_add] at hf
  obtain ⟨h1, h2, h3, h4⟩ := Insert_even_full B t1 hf
  have hlast : runOps B id 0 t1 [Op.insert (2 * B) 0]
      = some ([true], (Insert B id t1 (2 * B) 0).2) := by
    simp [runOps, applyOp, h1]
  have hall := runOps_append B id 0 _ _ _ _ _ _ _ hr hlast
  rw [List.range_succ, List.map_append, List.map_singleton, List.range_eq_range', hall]
  obtain ⟨g1, g2⟩ := GetValue_absent_even B _ h2 h3 h4
  simp only [Option.map_some', g1, g2]
  rw [List.replicate_succ']

end ExtendibleHashTable

/-! ## LRU replacer -/

namespace LRUReplacer

theorem Victim_nil (r : LRUReplacer) (x : frame_id_t) (h : r.dlink_ = []) :
    r.Victim x = (false, x, r) := by
  unfold Victim
  rw [h]
  rfl

theorem Victim_concat (r : LRUReplacer) (x : frame_id_t) (front : List frame_id_t)
    (back : frame_id_t) (h : r.dlink_ = front ++ [back]) :
    r.Victim x =
      (true, back, { r with dlink_ := front, unpinned_map_ := r.unpinned_map_.erase back }) := by
  unfold Victim
  rw [h]
  simp

theorem eq_nil_or_snoc (l : List frame_id_t) :
    l = [] ∨ ∃ (front : List frame_id_t) (back : frame_id_t), l = front ++ [back] := by
  rcases List.eq_nil_or_concat l with h | ⟨front, back, h⟩
  · exact Or.inl h
  · exact Or.inr ⟨front, back, by rw [h, List.concat_eq_append]⟩

theorem ctor_Inv (C : Nat) : Inv (ctor C) := by
  simp [Inv, ctor]

theorem Victim_Inv (r : LRUReplacer) (x : frame_id_t) (h : Inv r) : Inv (r.Victim x).2.2 := by
  rcases eq_nil_or_snoc r.dlink_ with hnil | ⟨front, back, hcat⟩
  · rw [Victim_nil r x hnil]
    exact h
  · rw [Victim_concat r x front back hcat]
    obtain ⟨hnd, hlen, hmap⟩ := h
    rw [hcat] at hnd hlen
    have hnot : back ∉ front := by
      intro hmem
      have := List.nodup_append.mp hnd
      exact this.2.2 hmem (List.mem_singleton_self back)
    refine ⟨(List.nodup_append.mp hnd).1, ?_, ?_⟩
    · simp only [List.length_append, List.length_singleton] at hlen
      show front.length ≤ r.capacity_
      omega
    · show r.unpinned_map_.erase back = front.toFinset
      rw [hmap, hcat]
      ext a
      simp only [Finset.mem_erase, List.mem_toFinset, List.mem_append, List.mem_singleton]
      constructor
      · rintro ⟨hne, h1 | h1⟩
        · exact h1
        · exact absurd h1 hne
      · intro h1
        exact ⟨fun he => hnot (he ▸ h1), Or.inl h1⟩

theorem Pin_absent (r : LRUReplacer) (f : frame_id_t) (h : f ∉ r.unpinned_map_) :
    r.Pin f = r := by
  unfold Pin
  rw [if_pos h]

theorem Pin_present (r : LRUReplacer) (f : frame_id_t) (h : f ∈ r.unpinned_map_) :
    r.Pin f =
      { r with dlink_ := r.dlink_.erase f, unpinned_map_ := r.unpinned_map_.erase f } := by
  unfold Pin
  rw [if_neg (not_not.mpr h)]

theorem Pin_Inv (r : LRUReplacer) (f : frame_id_t) (h : Inv r) : Inv (r.Pin f) := by
  by_cases hf : f ∈ r.unpinned_map_
  · rw [Pin_present r f hf]
    obtain ⟨hnd, hlen, hmap⟩ := h
    refine ⟨hnd.erase f, ?_, ?_⟩
    · show (r.dlink_.erase f).length ≤ r.capacity_
      have := List.length_erase_le f r.dlink_
      omega
    · show r.unpinned_map_.erase f = (r.dlink_.erase f).toFinset
      rw [hmap]
      ext a
      simp only [Finset.mem_erase, List.mem_toFinset, hnd.mem_erase_iff]
  · rw [Pin_absent r f hf]
    exact h

theorem Pin_dlink (r : LRUReplacer) (f : frame_id_t) (h : Inv r) :
    (r.Pin f).dlink_ = r.dlink_.filter (fun g => g ≠ f) := by
  obtain ⟨hnd, _, hmap⟩ := h
  by_cases hf : f ∈ r.unpinned_map_
  · rw [Pin_present r f hf]
    show r.dlink_.erase f = _
    rw [hnd.erase_eq_filter]
    congr 1
    funext g
    by_cases hg : g = f <;> simp [hg]
  · rw [Pin_absent r f hf]
    rw [hmap, List.mem_toFinset] at hf
    symm
    rw [List.filter_eq_self]
    intro g hg
    have : g ≠ f := fun he => hf (he ▸ hg)
    simpa using this

theorem Unpin_noop (r : LRUReplacer) (f : frame_id_t)
    (h : f ∈ r.unpinned_map_ ∨ r.unpinned_map_.card = r.capacity_) : r.Unpin f = r := by
  unfold Unpin
  rw [if_pos h]

theorem Unpin_insert (r : LRUReplacer) (f : frame_id_t)
    (h : ¬ (f ∈ r.unpinned_map_ ∨ r.unpinned_map_.card = r.capacity_)) :
    r.Unpin f =
      { r with dlink_ := f :: r.dlink_, unpinned_map_ := insert f r.unpinned_map_ } := by
  unfold Unpin
  rw [if_neg h]

theorem Inv_card (r : LRUReplacer) (h : Inv r) : r.unpinned_map_.card = r.dlink_.length := by
  obtain ⟨hnd, _, hmap⟩ := h
  rw [hmap, List.toFinset_card_of_nodup hnd]

theorem Unpin_Inv (r : LRUReplacer) (f : frame_id_t) (h : Inv r) : Inv (r.Unpin f) := by
  by_cases hf : f ∈ r.unpinned_map_ ∨ r.unpinned_map_.card = r.capacity_
  · rw [Unpin_noop r f hf]
    exact h
  · rw [Unpin_insert r f hf]
    have hcard := Inv_card r h
    obtain ⟨hnd, hlen, hmap⟩ := h
    push_neg at hf
    obtain ⟨hf1, hf2⟩ := hf
    refine ⟨?_, ?_, ?_⟩
    · show (f :: r.dlink_).Nodup
      rw [hmap, List.mem_toFinset] at hf1
      exact List.nodup_cons.mpr ⟨hf1, hnd⟩
    · show (f :: r.dlink_).length ≤ r.capacity_
      simp only [List.length_cons]
      omega
    · show insert f r.unpinned_map_ = (f :: r.dlink_).toFinset
      rw [hmap, List.toFinset_cons]

theorem step_Inv (r : LRUReplacer) (c : Call) (h : Inv r) : Inv (step r c) := by
  cases c with
  | victim x => exact Victim_Inv r x h
  | pin f => exact Pin_Inv r f h
  | unpin f => exact Unpin_Inv r f h

theorem run_Inv (r : LRUReplacer) (calls : List Call) (h : Inv r) : Inv (run r calls) := by
  induction calls generalizing r with
  | nil => exact h
  | cons c cs ih => exact ih (step r c) (step_Inv r c h)

theorem Victim_capacity (r : LRUReplacer) (x : frame_id_t) :
    (r.Victim x).2.2.capacity_ = r.capacity_ := by
  unfold Victim
  split <;> rfl

theorem Pin_capacity (r : LRUReplacer) (f : frame_id_t) : (r.Pin f).capacity_ = r.capacity_ := by
  unfold Pin
  split <;> rfl

theorem Unpin_capacity (r : LRUReplacer) (f : frame_id_t) :
    (r.Unpin f).capacity_ = r.capacity_ := by
  unfold Unpin
  split <;> rfl

theorem step_capacity (r : LRUReplacer) (c : Call) : (step r c).capacity_ = r.capacity_ := by
  cases c with
  | victim x => exact Victim_capacity r x
  | pin f => exact Pin_capacity r f
  | unpin f => exact Unpin_capacity r f

theorem run_capacity (r : LRUReplacer) (calls : List Call) :
    (run r calls).capacity_ = r.capacity_ := by
  induction calls generalizing r with
  | nil => rfl
  | cons c cs ih => exact (ih (step r c)).trans (step_capacity r c)

theorem Reachable_Inv (r : LRUReplacer) (h : Reachable r) : Inv r := by
  obtain ⟨C, calls, rfl⟩ := h
  exact run_Inv _ calls (ctor_Inv C)

/-- Unpinning fresh distinct frames that fit puts them in front of the list,
the last one unpinned first. -/
theorem unpinAll_dlink (fs : List frame_id_t) (r : LRUReplacer) (h : Inv r)
    (hnd : fs.Nodup) (hdis : ∀ f ∈ fs, f ∉ r.dlink_)
    (hlen : r.dlink_.length + fs.length ≤ r.capacity_) :
    unpinAll r fs =
      { r with dlink_ := fs.reverse ++ r.dlink_,
               unpinned_map_ := (fs.reverse ++ r.dlink_).toFinset } := by
  induction fs generalizing r with
  | nil =>
    obtain ⟨_, _, hmap⟩ := h
    show r = _
    cases r
    simp only [List.reverse_nil, List.nil_append] at hmap ⊢
    rw [← hmap]
  | cons f fs ih =>
    have hcard := Inv_card r h
    have hf : ¬ (f ∈ r.unpinned_map_ ∨ r.unpinned_map_.card = r.capacity_) := by
      rw [hcard, h.2.2, List.mem_toFinset]
      simp only [List.length_cons] at hlen
      push_neg
      exact ⟨hdis f (List.mem_cons_self f fs), by omega⟩
    have hstep : unpinAll r (f :: fs) = unpinAll (r.Unpin f) fs := rfl
    have hinv := Unpin_Inv r f h
    rw [hstep]
    rw [Unpin_insert r f hf] at hinv ⊢
    rw [ih _ hinv (List.nodup_cons.mp hnd).2]
    · simp only [List.reverse_cons, List.append_assoc, List.singleton_append]
    · intro g hg
      show g ∉ f :: r.dlink_
      intro hmem
      rcases List.mem_cons.mp hmem with he | hmem
      · exact (List.nodup_cons.mp hnd).1 (he ▸ hg)
      · exact hdis g (List.mem_cons_of_mem f hg) hmem
    · show (f :: r.dlink_).length + fs.length ≤ r.capacity_
      simp only [List.length_cons] at hlen ⊢
      omega

/-- Calling `Victim` as often as there are frames returns the frames of the
list from the back to the front and empties the replacer. -/
theorem victims_all (n : Nat) (r : LRUReplacer) (x : frame_id_t) (h : Inv r)
    (hn : r.dlink_.length = n) :
    victims n r x =
      (r.dlink_.reverse.map (fun f => (true, f)),
        { r with dlink_ := [], unpinned_map_ := ∅ }) := by
  induction n generalizing r x with
  | zero =>
    have hnil : r.dlink_ = [] := List.length_eq_zero.mp hn
    obtain ⟨_, _, hmap⟩ := h
    cases r
    simp only at hnil hmap
    subst hnil
    subst hmap
    rfl
  | succ n ih =>
    rcases eq_nil_or_snoc r.dlink_ with hnil | ⟨front, back, hcat⟩
    · rw [hnil] at hn
      simp at hn
    · have hinv := Victim_Inv r x h
      have hv := Victim_concat r x front back hcat
      have hstep : victims (n + 1) r x =
          (((r.Victim x).1, (r.Victim x).2.1) :: (victims n (r.Victim x).2.2 (r.Victim x).2.1).1,
            (victims n (r.Victim x).2.2 (r.Victim x).2.1).2) := rfl
      rw [hstep]
      rw [hv] at hinv ⊢
      have hlen : front.length = n := by
        rw [hcat] at hn
        simp only [List.length_append, List.length_singleton] at hn
        omega
      rw [ih _ back hinv hlen]
      rw [hcat]
      simp

theorem Victim_output_mem (r : LRUReplacer) (x : frame_id_t) (h : (r.Victim x).1 = true) :
    (r.Victim x).2.1 ∈ r.dlink_ := by
  rcases eq_nil_or_snoc r.dlink_ with hnil | ⟨front, back, hcat⟩
  · rw [Victim_nil r x hnil] at h
    exact absurd h Bool.false_ne_true
  · rw [Victim_concat r x front back hcat, hcat]
    simp

theorem step_not_mem (r : LRUReplacer) (c : Call) (f : frame_id_t) (hc : c ≠ Call.unpin f)
    (h : f ∉ r.dlink_) : f ∉ (step r c).dlink_ := by
  cases c with
  | victim x =>
    show f ∉ (r.Victim x).2.2.dlink_
    unfold Victim
    split
    · exact h
    · exact fun hmem => h (List.dropLast_subset _ hmem)
  | pin g =>
    show f ∉ (r.Pin g).dlink_
    unfold Pin
    split
    · exact h
    · exact fun hmem => h (List.erase_subset g _ hmem)
  | unpin g =>
    show f ∉ (r.Unpin g).dlink_
    unfold Unpin
    split
    · exact h
    · intro hmem
      rcases List.mem_cons.mp hmem with he | hmem
      · exact hc (by rw [he])
      · exact h hmem

theorem run_not_mem (calls : List Call) (r : LRUReplacer) (f : frame_id_t)
    (hc : Call.unpin f ∉ calls) (h : f ∉ r.dlink_) : f ∉ (run r calls).dlink_ := by
  induction calls generalizing r with
  | nil => exact h
  | cons c cs ih =>
    have hne : c ≠ Call.unpin f := fun he => hc (he ▸ List.mem_cons_self c cs)
    exact ih (step r c) (fun hmem => hc (List.mem_cons_of_mem c hmem)) (step_not_mem r c f hne h)

/-- Claim C14.  `Victim` on a replacer with an empty list returns false and
changes neither the output parameter nor the state.  On a list `front ++ [back]`
it returns true, outputs `back` (the frame whose `Unpin` is the oldest) and
removes that frame from list and map, so that the frames held are exactly those
of `front`.  After `Unpin` of distinct frames `fs` (at most `C` of them) on a
new replacer of capacity `C`, as many `Victim` calls return the frames of `fs`
in their order and leave the replacer empty. -/
theorem Victim_takes_least_recently_unpinned :
    (∀ (r : LRUReplacer) (x : frame_id_t), r.dlink_ = [] → r.Victim x = (false, x, r)) ∧
    (∀ (r : LRUReplacer) (x : frame_id_t) (front : List frame_id_t) (back : frame_id_t),
        r.dlink_ = front ++ [back] →
        r.Victim x =
          (true, back,
            { r with dlink_ := front, unpinned_map_ := r.unpinned_map_.erase back }) ∧
        (Inv r → back ∉ front ∧ r.unpinned_map_.erase back = front.toFinset)) ∧
    (∀ (C : Nat) (fs : List frame_id_t) (x : frame_id_t), fs.Nodup → fs.length ≤ C →
        (unpinAll (ctor C) fs).dlink_ = fs.reverse ∧
        victims fs.length (unpinAll (ctor C) fs) x = (fs.map (fun f => (true, f)), ctor C)) := by
  refine ⟨Victim_nil, ?_, ?_⟩
  · intro r x front back hcat
    refine ⟨Victim_concat r x front back hcat, ?_⟩
    intro hinv
    have h2 := Victim_Inv r x hinv
    rw [Victim_concat r x front back hcat] at h2
    refine ⟨?_, h2.2.2⟩
    have hnd := hinv.1
    rw [hcat] at hnd
    exact fun hmem => (List.nodup_append.mp hnd).2.2 hmem (List.mem_singleton_self back)
  · intro C fs x hnd hlen
    have hu := unpinAll_dlink fs (ctor C) (ctor_Inv C) hnd
      (fun f _ => List.not_mem_nil f) (by simpa [ctor] using hlen)
    have hinv : Inv (unpinAll (ctor C) fs) := by
      have : unpinAll (ctor C) fs = run (ctor C) (fs.map Call.unpin) := by
        unfold unpinAll run
        rw [List.foldl_map]
        rfl
      rw [this]
      exact run_Inv _ _ (ctor_Inv C)
    have hd : (unpinAll (ctor C) fs).dlink_ = fs.reverse := by
      rw [hu]
      simp [ctor]
    refine ⟨hd, ?_⟩
    rw [victims_all fs.length _ x hinv (by rw [hd, List.length_reverse])]
    rw [hd, List.reverse_reverse]
    rw [hu]
    rfl

/-- Claim C15.  `Unpin(f)` leaves the replacer unchanged, order included, if
`f` is already held or the number of held frames equals the capacity;
otherwise it puts `f` at the front of the list (the end opposite to the one
`Victim` takes from) and into the map.  In a state satisfying the replacer
invariant "held" is membership in the list, the number of held frames is the
list length, and in every case the other frames keep their relative order. -/
theorem Unpin_inserts_at_most_recent_end (r : LRUReplacer) (f : frame_id_t) :
    ((f ∈ r.unpinned_map_ ∨ r.Size = r.capacity_) → r.Unpin f = r) ∧
    (¬ (f ∈ r.unpinned_map_ ∨ r.Size = r.capacity_) →
      r.Unpin f =
        { r with dlink_ := f :: r.dlink_, unpinned_map_ := insert f r.unpinned_map_ }) ∧
    (Inv r →
      (f ∈ r.unpinned_map_ ↔ f ∈ r.dlink_) ∧ r.Size = r.dlink_.length ∧
      (r.Unpin f).dlink_.filter (fun g => g ≠ f) = r.dlink_.filter (fun g => g ≠ f)) := by
  refine ⟨Unpin_noop r f, Unpin_insert r f, ?_⟩
  intro hinv
  refine ⟨by rw [hinv.2.2, List.mem_toFinset], Inv_card r hinv, ?_⟩
  by_cases hf : f ∈ r.unpinned_map_ ∨ r.unpinned_map_.card = r.capacity_
  · rw [Unpin_noop r f hf]
  · rw [Unpin_insert r f hf]
    show (f :: r.dlink_).filter (fun g => g ≠ f) = _
    rw [List.filter_cons_of_neg (by simp)]

/-- Claim C16.  `Pin(f)` is a no-op if `f` is not held.  In a state satisfying
the replacer invariant it removes `f` from list and map and keeps the order of
the other frames, and after it no `Victim` call returns `f` as long as no
`Unpin(f)` has been called, whatever other calls are made in between. -/
theorem Pin_removes_frame_until_unpinned (r : LRUReplacer) (f : frame_id_t) :
    (f ∉ r.unpinned_map_ → r.Pin f = r) ∧
    (Inv r →
      (f ∈ r.unpinned_map_ ↔ f ∈ r.dlink_) ∧
      (r.Pin f).dlink_ = r.dlink_.filter (fun g => g ≠ f) ∧
      (r.Pin f).unpinned_map_ = r.unpinned_map_.erase f ∧
      (r.Pin f).capacity_ = r.capacity_ ∧
      ∀ (calls : List Call) (x : frame_id_t), Call.unpin f ∉ calls →
        ((run (r.Pin f) calls).Victim x).1 = true →
        ((run (r.Pin f) calls).Victim x).2.1 ≠ f) := by
  refine ⟨Pin_absent r f, ?_⟩
  intro hinv
  have hd := Pin_dlink r f hinv
  refine ⟨by rw [hinv.2.2, List.mem_toFinset], hd, ?_, Pin_capacity r f, ?_⟩
  · by_cases hf : f ∈ r.unpinned_map_
    · rw [Pin_present r f hf]
    · rw [Pin_absent r f hf, Finset.erase_eq_of_not_mem hf]
  · intro calls x hc hv he
    have hnot : f ∉ (r.Pin f).dlink_ := by
      rw [hd]
      simp
    have h1 := run_not_mem calls (r.Pin f) f hc hnot
    have h2 := Victim_output_mem (run (r.Pin f) calls) x hv
    rw [he] at h2
    exact h1 h2

/-- Claim C17.  In every state reached from a new replacer of capacity `C` by
any sequence of `Victim`, `Pin` and `Unpin` calls, no frame occurs twice in the
list, the list is at most `C` long, the keys of the map are exactly the
elements of the list, and `Size()` is the length of the list. -/
theorem replacer_invariant (C : Nat) (calls : List Call) :
    (run (ctor C) calls).dlink_.Nodup ∧
    (run (ctor C) calls).dlink_.length ≤ C ∧
    (∀ f : frame_id_t,
      f ∈ (run (ctor C) calls).unpinned_map_ ↔ f ∈ (run (ctor C) calls).dlink_) ∧
    (run (ctor C) calls).Size = (run (ctor C) calls).dlink_.length := by
  have hinv := run_Inv (ctor C) calls (ctor_Inv C)
  have hcap : (run (ctor C) calls).capacity_ = C := run_capacity (ctor C) calls
  refine ⟨hinv.1, ?_, ?_, Inv_card _ hinv⟩
  · have := hinv.2.1
    rw [hcap] at this
    exact this
  · intro f
    rw [hinv.2.2, List.mem_toFinset]

end LRUReplacer

/-! ## Matrices -/

namespace RowMatrix

theorem guard_iff (m : RowMatrix) (i j : Int) :
    ¬ (i < 0 ∨ j < 0 ∨ i ≥ m.rows_ ∨ j ≥ m.cols_) ↔ InRange m i j := by
  unfold InRange
  constructor
  · intro h
    push_neg at h
    omega
  · intro h
    omega

theorem GetElement_ok (m : RowMatrix) (i j : Int) (h : InRange m i j) :
    m.GetElement i j = Except.ok (m.linear_.getD (i * m.cols_ + j).toNat 0) := by
  unfold GetElement
  rw [if_neg ((guard_iff m i j).mpr h)]
  rfl

theorem GetElement_throw (m : RowMatrix) (i j : Int) (h : ¬ InRange m i j) :
    m.GetElement i j = Except.error (Thrown.Exception ExceptionType.OUT_OF_RANGE) := by
  unfold GetElement
  rw [if_pos (by_contra fun hn => h ((guard_iff m i j).mp hn))]
  rfl

theorem SetElement_ok (m : RowMatrix) (i j val : Int) (h : InRange m i j) :
    m.SetElement i j val =
      Except.ok { m with linear_ := m.linear_.set (i * m.cols_ + j).toNat val } := by
  unfold SetElement
  rw [if_neg ((guard_iff m i j).mpr h)]
  rfl

theorem SetElement_throw (m : RowMatrix) (i j val : Int) (h : ¬ InRange m i j) :
    m.SetElement i j val = Except.error (Thrown.Exception ExceptionType.OUT_OF_RANGE) := by
  unfold SetElement
  rw [if_pos (by_contra fun hn => h ((guard_iff m i j).mp hn))]
  rfl

/-- The flattened position of an element in range lies inside the array. -/
theorem index_lt (m : RowMatrix) (hm : WF m) (i j : Int) (h : InRange m i j) :
    (i * m.cols_ + j).toNat < m.linear_.length := by
  obtain ⟨_, _, hlen⟩ := hm
  obtain ⟨hi0, hi1, hj0, hj1⟩ := h
  rw [hlen]
  have h1 : (i + 1) * m.cols_ ≤ m.rows_ * m.cols_ :=
    Int.mul_le_mul_of_nonneg_right (by omega) (by omega)
  have h2 : 0 ≤ i * m.cols_ := Int.mul_nonneg hi0 (by omega)
  have h3 : (i + 1) * m.cols_ = i * m.cols_ + m.cols_ := by ring
  omega

/-- Distinct elements in range have distinct flattened positions. -/
theorem index_inj (m : RowMatrix) (i j i' j' : Int) (h : InRange m i j)
    (h' : InRange m i' j')
    (he : (i * m.cols_ + j).toNat = (i' * m.cols_ + j').toNat) : i = i' ∧ j = j' := by
  obtain ⟨hi0, hi1, hj0, hj1⟩ := h
  obtain ⟨hi0', hi1', hj0', hj1'⟩ := h'
  have h2 : 0 ≤ i * m.cols_ := Int.mul_nonneg hi0 (by omega)
  have h2' : 0 ≤ i' * m.cols_ := Int.mul_nonneg hi0' (by omega)
  have he2 : i * m.cols_ + j = i' * m.cols_ + j' := by omega
  have hii : i = i' := by
    rcases lt_trichotomy i i' with hlt | heq | hgt
    · exfalso
      have h1 : (i + 1) * m.cols_ ≤ i' * m.cols_ :=
        Int.mul_le_mul_of_nonneg_right (by omega) (by omega)
      have h3 : (i + 1) * m.cols_ = i * m.cols_ + m.cols_ := by ring
      omega
    · exact heq
    · exfalso
      have h1 : (i' + 1) * m.cols_ ≤ i * m.cols_ :=
        Int.mul_le_mul_of_nonneg_right (by omega) (by omega)
      have h3 : (i' + 1) * m.cols_ = i' * m.cols_ + m.cols_ := by ring
      omega
  subst hii
  exact ⟨rfl, by omega⟩

theorem SetElement_WF (m m' : RowMatrix) (i j val : Int) (hm : WF m)
    (h : m.SetElement i j val = Except.ok m') :
    WF m' ∧ m'.rows_ = m.rows_ ∧ m'.cols_ = m.cols_ := by
  by_cases hr : InRange m i j
  · rw [SetElement_ok m i j val hr] at h
    injection h with h
    subst h
    refine ⟨⟨hm.1, hm.2.1, ?_⟩, rfl, rfl⟩
    show (m.linear_.set _ _).length = _
    rw [List.length_set]
    exact hm.2.2
  · rw [SetElement_throw m i j val hr] at h
    cases h

/-- Reading the element just written gives the written value. -/
theorem GetElement_SetElement_same (m : RowMatrix) (hm : WF m) (i j val : Int)
    (h : InRange m i j) :
    GetElement { m with linear_ := m.linear_.set (i * m.cols_ + j).toNat val } i j =
      Except.ok val := by
  have hr : InRange { m with linear_ := m.linear_.set (i * m.cols_ + j).toNat val } i j := h
  rw [GetElement_ok _ i j hr]
  show Except.ok ((m.linear_.set _ val).getD _ 0) = _
  rw [List.getD_eq_getElem _ 0 (by rw [List.length_set]; exact index_lt m hm i j h)]
  rw [List.getElem_set_self]

/-- Writing one element leaves the reading of every other element as it was. -/
theorem GetElement_SetElement_other (m : RowMatrix) (i j val i' j' : Int)
    (h : InRange m i j) (hne : ¬ (i' = i ∧ j' = j)) :
    GetElement { m with linear_ := m.linear_.set (i * m.cols_ + j).toNat val } i' j' =
      m.GetElement i' j' := by
  by_cases h' : InRange m i' j'
  · have hr : InRange { m with linear_ := m.linear_.set (i * m.cols_ + j).toNat val } i' j' :=
      h'
    rw [GetElement_ok _ i' j' hr, GetElement_ok m i' j' h']
    show Except.ok ((m.linear_.set _ val).getD _ 0) = _
    have hidx : (i * m.cols_ + j).toNat ≠ (i' * m.cols_ + j').toNat := by
      intro he
      have := index_inj m i j i' j' h h' he
      exact hne ⟨this.1.symm, this.2.symm⟩
    simp only [List.getD_eq_getElem?_getD, List.getElem?_set_ne hidx]
  · have hr : ¬ InRange { m with linear_ := m.linear_.set (i * m.cols_ + j).toNat val } i' j' :=
      h'
    rw [GetElement_throw _ i' j' hr, GetElement_throw m i' j' h']

theorem ctor_ok (rows cols : Int) (h0 : 0 ≤ rows) (h1 : 0 ≤ rows * cols) :
    ctor rows cols =
      Except.ok { rows_ := rows, cols_ := cols,
                  linear_ := List.replicate (rows * cols).toNat 0 } := by
  unfold ctor
  rw [if_neg (by omega)]
  rfl

theorem RowMatrix_ctor_WF (rows cols : Int) (m : RowMatrix) (h : ctor rows cols = Except.ok m) :
    WF m ∧ m.rows_ = rows ∧ m.cols_ = cols := by
  unfold ctor at h
  split at h
  · cases h
  · rename_i hn
    injection h with h
    subst h
    push_neg at hn
    exact ⟨⟨hn.2, hn.1, List.length_replicate _ _⟩, rfl, rfl⟩

end RowMatrix
namespace RowMatrix

/-- The copy loop of `FillFrom` run for `n` rounds. -/
theorem fill_loop_getElem? (source : List Int) (n : Nat) (linear : List Int) (p : Nat) :
    ((List.range n).foldl (fun l i => l.set i (source.getD i 0)) linear)[p]? =
      if p < n ∧ p < linear.length then some (source.getD p 0) else linear[p]? := by
  induction n with
  | zero => simp
  | succ n ih =>
    rw [List.range_succ, List.foldl_append]
    simp only [List.foldl_cons, List.foldl_nil]
    rw [List.getElem?_set]
    by_cases hp : n = p
    · subst hp
      have hlen : ((List.range n).foldl (fun l i => l.set i (source.getD i 0)) linear).length =
          linear.length := by
        clear ih
        induction n with
        | zero => rfl
        | succ k ihk =>
          rw [List.range_succ, List.foldl_append]
          simp only [List.foldl_cons, List.foldl_nil, List.length_set]
          exact ihk
      rw [if_pos rfl, hlen]
      by_cases hl : n < linear.length
      · rw [if_pos hl, if_pos ⟨by omega, hl⟩]
      · rw [if_neg hl, if_neg (by omega)]
        exact (List.getElem?_eq_none (by omega)).symm
    · rw [if_neg hp, ih]
      by_cases hc : p < n ∧ p < linear.length
      · rw [if_pos hc, if_pos ⟨by omega, hc.2⟩]
      · rw [if_neg hc, if_neg (by omega)]

theorem fill_loop_length (source : List Int) (n : Nat) (linear : List Int) :
    ((List.range n).foldl (fun l i => l.set i (source.getD i 0)) linear).length =
      linear.length := by
  induction n with
  | zero => rfl
  | succ k ihk =>
    rw [List.range_succ, List.foldl_append]
    simp only [List.foldl_cons, List.foldl_nil, List.length_set]
    exact ihk

/-- A full run of the copy loop over an array as long as the source gives the
source. -/
theorem fill_loop_all (source linear : List Int) (h : linear.length = source.length) :
    (List.range source.length).foldl (fun l i => l.set i (source.getD i 0)) linear = source := by
  apply List.ext_getElem?
  intro p
  rw [fill_loop_getElem?]
  by_cases hp : p < source.length
  · rw [if_pos ⟨hp, by omega⟩, List.getD_eq_getElem _ 0 hp, List.getElem?_eq_getElem hp]
  · rw [if_neg (by omega), List.getElem?_eq_none (by omega), List.getElem?_eq_none (by omega)]

theorem static_cast_int_small (n : Nat) (h : n < 2 ^ 31) : static_cast_int n = (n : Int) := by
  unfold static_cast_int Int.bmod
  have e31 : (2 : Nat) ^ 31 = 2147483648 := by norm_num
  have e32 : (2 : Nat) ^ 32 = 4294967296 := by norm_num
  rw [e31] at h
  rw [e32]
  simp only [Nat.cast_ofNat]
  split_ifs <;> omega

/-- Method `FillFrom` on a source of fewer than `2^31` elements: it throws
exactly when the source length differs from `rows * cols`, and otherwise the
flattened array becomes the source. -/
theorem FillFrom_small (m : RowMatrix) (hm : WF m) (source : List Int)
    (hs : source.length < 2 ^ 31) :
    (m.FillFrom source = Except.error (Thrown.Exception ExceptionType.OUT_OF_RANGE) ↔
      (source.length : Int) ≠ m.rows_ * m.cols_) ∧
    ((source.length : Int) = m.rows_ * m.cols_ →
      m.FillFrom source = Except.ok { m with linear_ := source }) := by
  have hc := static_cast_int_small source.length hs
  have hok : (source.length : Int) = m.rows_ * m.cols_ →
      m.FillFrom source = Except.ok { m with linear_ := source } := by
    intro he
    unfold FillFrom
    rw [hc, if_neg (not_not.mpr he)]
    have hlen : m.linear_.length = source.length := by
      rw [hm.2.2, ← he]
      rfl
    rw [Int.toNat_ofNat, fill_loop_all source m.linear_ hlen]
    rfl
  refine ⟨?_, hok⟩
  constructor
  · intro ht he
    rw [hok he] at ht
    cases ht
  · intro hne
    unfold FillFrom
    rw [hc, if_pos hne]
    rfl

theorem FillFrom_WF (m m' : RowMatrix) (source : List Int) (hm : WF m)
    (h : m.FillFrom source = Except.ok m') :
    WF m' ∧ m'.rows_ = m.rows_ ∧ m'.cols_ = m.cols_ := by
  unfold FillFrom at h
  split at h
  · cases h
  · injection h with h
    subst h
    refine ⟨⟨hm.1, hm.2.1, ?_⟩, rfl, rfl⟩
    dsimp only
    rw [fill_loop_length]
    exact hm.2.2

end RowMatrix

/-- A counting loop in `Except` that keeps an invariant runs to its end and
establishes the invariant at the bound. -/
theorem foldlM_range_inv {β ε : Type} (P : Nat → β → Prop) (f : β → Nat → Except ε β)
    (n : Nat) (b0 : β) (h0 : P 0 b0)
    (hstep : ∀ k b, k < n → P k b → ∃ b', f b k = Except.ok b' ∧ P (k + 1) b') :
    ∃ b', (List.range n).foldlM f b0 = Except.ok b' ∧ P n b' := by
  induction n with
  | zero => exact ⟨b0, rfl, h0⟩
  | succ n ih =>
    obtain ⟨b1, hb1, hP1⟩ := ih (fun k b hk hP => hstep k b (by omega) hP)
    obtain ⟨b2, hb2, hP2⟩ := hstep n b1 (by omega) hP1
    refine ⟨b2, ?_, hP2⟩
    rw [List.range_succ, List.foldlM_append, hb1]
    show (List.foldlM f b1 [n]) = _
    rw [List.foldlM_cons, hb2]
    rfl
namespace RowMatrix

/-- Claim C18.  On a matrix object, `GetElement(i,j)` and `SetElement(i,j,val)`
throw `OUT_OF_RANGE` exactly when `i < 0`, `j < 0`, `i >= rows` or
`j >= cols`.  Otherwise both return, `GetElement(i,j)` after
`SetElement(i,j,val)` returns `val`, the dimensions stay, and `GetElement` at
every other index pair gives what it gave before. -/
theorem GetElement_SetElement_contract (m : RowMatrix) (hm : WF m) (i j val : Int) :
    (m.GetElement i j = Except.error (Thrown.Exception ExceptionType.OUT_OF_RANGE) ↔
      (i < 0 ∨ j < 0 ∨ i ≥ m.rows_ ∨ j ≥ m.cols_)) ∧
    (m.SetElement i j val = Except.error (Thrown.Exception ExceptionType.OUT_OF_RANGE) ↔
      (i < 0 ∨ j < 0 ∨ i ≥ m.rows_ ∨ j ≥ m.cols_)) ∧
    (¬ (i < 0 ∨ j < 0 ∨ i ≥ m.rows_ ∨ j ≥ m.cols_) →
      (∃ x : Int, m.GetElement i j = Except.ok x) ∧
      ∃ m' : RowMatrix, m.SetElement i j val = Except.ok m' ∧
        m'.rows_ = m.rows_ ∧ m'.cols_ = m.cols_ ∧ WF m' ∧
        m'.GetElement i j = Except.ok val ∧
        ∀ i' j' : Int, ¬ (i' = i ∧ j' = j) → m'.GetElement i' j' = m.GetElement i' j') := by
  by_cases hr : InRange m i j
  · have hg := (guard_iff m i j).mpr hr
    have hset := SetElement_ok m i j val hr
    have hwf := SetElement_WF m _ i j val hm hset
    refine ⟨?_, ?_, ?_⟩
    · rw [GetElement_ok m i j hr]
      exact ⟨fun h => (by cases h), fun h => absurd h hg⟩
    · rw [hset]
      exact ⟨fun h => (by cases h), fun h => absurd h hg⟩
    · intro _
      refine ⟨⟨_, GetElement_ok m i j hr⟩, _, hset, hwf.2.1, hwf.2.2, hwf.1, ?_, ?_⟩
      · exact GetElement_SetElement_same m hm i j val hr
      · intro i' j' hne
        exact GetElement_SetElement_other m i j val i' j' hr hne
  · have hg : i < 0 ∨ j < 0 ∨ i ≥ m.rows_ ∨ j ≥ m.cols_ :=
      by_contra fun hn => hr ((guard_iff m i j).mp hn)
    refine ⟨?_, ?_, fun hn => absurd hg hn⟩
    · rw [GetElement_throw m i j hr]
      exact ⟨fun _ => hg, fun _ => rfl⟩
    · rw [SetElement_throw m i j val hr]
      exact ⟨fun _ => hg, fun _ => rfl⟩

/-- Witness for C18: the 2 x 3 matrix with elements 0..5, written at (1,2). -/
theorem GetElement_SetElement_contract_witness :
    WF (RowMatrix.mk 2 3 [0, 1, 2, 3, 4, 5]) ∧
    (RowMatrix.mk 2 3 [0, 1, 2, 3, 4, 5]).SetElement 1 2 9 =
      Except.ok (RowMatrix.mk 2 3 [0, 1, 2, 3, 4, 9]) ∧
    (¬ ((1 : Int) < 0 ∨ (2 : Int) < 0 ∨ (1 : Int) ≥ (RowMatrix.mk 2 3 [0, 1, 2, 3, 4, 5]).rows_ ∨
        (2 : Int) ≥ (RowMatrix.mk 2 3 [0, 1, 2, 3, 4, 5]).cols_) →
      (∃ x : Int, (RowMatrix.mk 2 3 [0, 1, 2, 3, 4, 5]).GetElement 1 2 = Except.ok x) ∧
      ∃ m' : RowMatrix, (RowMatrix.mk 2 3 [0, 1, 2, 3, 4, 5]).SetElement 1 2 9 = Except.ok m' ∧
        m'.rows_ = 2 ∧ m'.cols_ = 3 ∧ WF m' ∧
        m'.GetElement 1 2 = Except.ok 9 ∧
        ∀ i' j' : Int, ¬ (i' = 1 ∧ j' = 2) →
          m'.GetElement i' j' = (RowMatrix.mk 2 3 [0, 1, 2, 3, 4, 5]).GetElement i' j') :=
  ⟨by decide, by decide,
    (GetElement_SetElement_contract (RowMatrix.mk 2 3 [0, 1, 2, 3, 4, 5]) (by decide) 1 2 9).2.2⟩

/-- Claim C19, the case the code misses.  `FillFrom` compares
`static_cast<int>(source.size())` with `rows * cols`.  On the 1 x 1 matrix
holding 0 and a source of `2^32 + 1` elements 7 the cast gives 1, so the call
does not throw although the source has not `rows * cols` elements: it returns
with the first source element copied. -/
theorem FillFrom_accepts_oversized_source :
    WF (RowMatrix.mk 1 1 [0]) ∧
    ((List.replicate (2 ^ 32 + 1) (7 : Int)).length : Int) ≠
      (RowMatrix.mk 1 1 [0]).rows_ * (RowMatrix.mk 1 1 [0]).cols_ ∧
    (RowMatrix.mk 1 1 [0]).FillFrom (List.replicate (2 ^ 32 + 1) 7) =
      Except.ok (RowMatrix.mk 1 1 [7]) := by
  refine ⟨by decide, ?_, ?_⟩
  · rw [List.length_replicate]
    decide
  · unfold FillFrom
    rw [List.length_replicate]
    have hc : static_cast_int (2 ^ 32 + 1) = 1 := by decide
    rw [hc, if_neg (by decide)]
    have hr : List.range (1 : Int).toNat = [0] := by decide
    rw [hr]
    simp only [List.foldl_cons, List.foldl_nil]
    have hg : (List.replicate (2 ^ 32 + 1) (7 : Int)).getD 0 0 = 7 := by
      rw [List.getD_eq_getElem?_getD, List.getElem?_replicate, if_pos (by norm_num)]
      rfl
    rw [hg]
    rfl

end RowMatrix
namespace RowMatrix

/-- After a successful `FillFrom` of a source of fewer than `2^31` elements,
element `(i,j)` is `source[i * cols + j]`. -/
theorem FillFrom_row_major (m : RowMatrix) (hm : WF m) (source : List Int)
    (hs : source.length < 2 ^ 31) (he : (source.length : Int) = m.rows_ * m.cols_)
    (i j : Int) (h : InRange m i j) :
    ∃ m' : RowMatrix, m.FillFrom source = Except.ok m' ∧
      m'.GetElement i j = Except.ok (source.getD (i * m.cols_ + j).toNat 0) := by
  refine ⟨_, (FillFrom_small m hm source hs).2 he, ?_⟩
  have hr : InRange { m with linear_ := source } i j := h
  rw [GetElement_ok _ i j hr]

end RowMatrix

namespace RowMatrixOperations

open RowMatrix

/-- One round of the inner loop of `Add`. -/
theorem Add_body (A B M : RowMatrix) (i j : Int) (hB : B.rows_ = A.rows_ ∧ B.cols_ = A.cols_)
    (hM : M.rows_ = A.rows_ ∧ M.cols_ = A.cols_) (h : InRange A i j) :
    (do
      let va ← A.GetElement i j
      let vb ← B.GetElement i j
      RowMatrix.SetElement M i j (va + vb)) =
    Except.ok
      { M with
        linear_ := M.linear_.set (i * M.cols_ + j).toNat
          (A.linear_.getD (i * A.cols_ + j).toNat 0 +
            B.linear_.getD (i * B.cols_ + j).toNat 0) } := by
  have hrB : InRange B i j := by
    unfold InRange at h ⊢
    rw [hB.1, hB.2]
    exact h
  have hrM : InRange M i j := by
    unfold InRange at h ⊢
    rw [hM.1, hM.2]
    exact h
  rw [GetElement_ok A i j h, GetElement_ok B i j hrB]
  exact SetElement_ok M i j _ hrM

/-- The loop invariant of `Add`: the result matrix has the dimensions of `A`
and holds the sums at all elements of the rows before `i` and, in row `i`, of
the columns before `j`. -/
theorem Add_loops (A B M0 : RowMatrix) (hB : B.rows_ = A.rows_ ∧ B.cols_ = A.cols_)
    (hM0 : WF M0 ∧ M0.rows_ = A.rows_ ∧ M0.cols_ = A.cols_) :
    ∃ M : RowMatrix,
      (List.range A.rows_.toNat).foldlM (fun matrix (i : Nat) =>
        (List.range A.cols_.toNat).foldlM (fun matrix (j : Nat) => do
          let va ← A.GetElement i j
          let vb ← B.GetElement i j
          RowMatrix.SetElement matrix i j (va + vb)) matrix) M0 = Except.ok M ∧
      WF M ∧ M.rows_ = A.rows_ ∧ M.cols_ = A.cols_ ∧
      ∀ i j : Int, InRange A i j →
        M.GetElement i j =
          Except.ok (A.linear_.getD (i * A.cols_ + j).toNat 0 +
            B.linear_.getD (i * B.cols_ + j).toNat 0) := by
  have houter := foldlM_range_inv
    (fun (k : Nat) (M : RowMatrix) => WF M ∧ M.rows_ = A.rows_ ∧ M.cols_ = A.cols_ ∧
      ∀ i j : Int, InRange A i j → i < (k : Int) →
        M.GetElement i j =
          Except.ok (A.linear_.getD (i * A.cols_ + j).toNat 0 +
            B.linear_.getD (i * B.cols_ + j).toNat 0))
    (fun matrix (i : Nat) =>
        (List.range A.cols_.toNat).foldlM (fun matrix (j : Nat) => do
          let va ← A.GetElement i j
          let vb ← B.GetElement i j
          RowMatrix.SetElement matrix i j (va + vb)) matrix)
    A.rows_.toNat M0
    ⟨hM0.1, hM0.2.1, hM0.2.2, fun i j hr hi => by
      exfalso
      have := hr.1
      omega⟩
    (by
      intro k M hk ⟨hwf, hrows, hcols, hdone⟩
      have hinner := foldlM_range_inv
        (fun (l : Nat) (M : RowMatrix) => WF M ∧ M.rows_ = A.rows_ ∧ M.cols_ = A.cols_ ∧
          ∀ i j : Int, InRange A i j → (i < (k : Int) ∨ (i = (k : Int) ∧ j < (l : Int))) →
            M.GetElement i j =
              Except.ok (A.linear_.getD (i * A.cols_ + j).toNat 0 +
                B.linear_.getD (i * B.cols_ + j).toNat 0))
        (fun matrix (j : Nat) => do
          let va ← A.GetElement k j
          let vb ← B.GetElement k j
          RowMatrix.SetElement matrix k j (va + vb))
        A.cols_.toNat M
        ⟨hwf, hrows, hcols, fun i j hr hc => by
          rcases hc with hc | ⟨_, hc⟩
          · exact hdone i j hr hc
          · exfalso
            have := hr.2.2.1
            omega⟩
        (by
          intro l N hl ⟨hwfN, hrowsN, hcolsN, hdoneN⟩
          have hr : InRange A (k : Int) (l : Int) := by
            unfold InRange
            omega
          have hrN : InRange N (k : Int) (l : Int) := by
            unfold InRange at hr ⊢
            rw [hrowsN, hcolsN]
            exact hr
          have hbody := Add_body A B N k l hB ⟨hrowsN, hcolsN⟩ hr
          refine ⟨_, hbody, ?_, hrowsN, hcolsN, ?_⟩
          · refine ⟨hwfN.1, hwfN.2.1, ?_⟩
            show (N.linear_.set _ _).length = _
            rw [List.length_set]
            exact hwfN.2.2
          · intro i j hrij hc
            by_cases hsame : i = (k : Int) ∧ j = (l : Int)
            · obtain ⟨hi, hj⟩ := hsame
              subst hi
              subst hj
              exact GetElement_SetElement_same N hwfN _ _ _ hrN
            · rw [GetElement_SetElement_other N _ _ _ i j hrN hsame]
              apply hdoneN i j hrij
              push_neg at hsame
              rcases hc with hc | ⟨hc1, hc2⟩
              · exact Or.inl hc
              · refine Or.inr ⟨hc1, ?_⟩
                have := hsame hc1
                push_cast at hc2
                omega)
      obtain ⟨N, hN, hwfN, hrowsN, hcolsN, hdoneN⟩ := hinner
      refine ⟨N, hN, hwfN, hrowsN, hcolsN, ?_⟩
      intro i j hr hi
      apply hdoneN i j hr
      have := hr.2.2.2
      push_cast at hi
      by_cases hlt : i < (k : Int)
      · exact Or.inl hlt
      · exact Or.inr ⟨by omega, by omega⟩)
  obtain ⟨M, hM, hwf, hrows, hcols, hdone⟩ := houter
  refine ⟨M, hM, hwf, hrows, hcols, ?_⟩
  intro i j hr
  apply hdone i j hr
  have := hr.2.1
  have := hr.1
  omega

end RowMatrixOperations
namespace RowMatrixOperations

open RowMatrix

/-- Claim C20.  For matrix objects `A` and `B`, `Add(A,B)` returns the null
pointer exactly when the row counts or the column counts differ.  Otherwise it
returns a matrix with the dimensions of `A` whose element `(i,j)` is
`A(i,j) + B(i,j)` for all `i`, `j` in range (elements are mathematical
integers: no overflow).  `A` and `B` are arguments only read through
`GetElement`; the call never throws. -/
theorem Add_returns_elementwise_sum (A B : RowMatrix) (hA : WF A) (hB : WF B) :
    (Add A B = Except.ok none ↔ (A.rows_ ≠ B.rows_ ∨ A.cols_ ≠ B.cols_)) ∧
    (A.rows_ = B.rows_ ∧ A.cols_ = B.cols_ →
      ∃ M : RowMatrix, Add A B = Except.ok (some M) ∧ WF M ∧
        M.rows_ = A.rows_ ∧ M.cols_ = A.cols_ ∧
        ∀ i j : Int, 0 ≤ i → i < A.rows_ → 0 ≤ j → j < A.cols_ →
          ∃ a b : Int, A.GetElement i j = Except.ok a ∧ B.GetElement i j = Except.ok b ∧
            M.GetElement i j = Except.ok (a + b)) := by
  have hsame : A.rows_ = B.rows_ ∧ A.cols_ = B.cols_ →
      ∃ M : RowMatrix, Add A B = Except.ok (some M) ∧ WF M ∧
        M.rows_ = A.rows_ ∧ M.cols_ = A.cols_ ∧
        ∀ i j : Int, 0 ≤ i → i < A.rows_ → 0 ≤ j → j < A.cols_ →
          ∃ a b : Int, A.GetElement i j = Except.ok a ∧ B.GetElement i j = Except.ok b ∧
            M.GetElement i j = Except.ok (a + b) := by
    intro ⟨hr, hc⟩
    have hctor := ctor_ok A.rows_ A.cols_ hA.1 hA.2.1
    have hwf0 := RowMatrix_ctor_WF A.rows_ A.cols_ _ hctor
    obtain ⟨M, hM, hwf, hrows, hcols, hdone⟩ := Add_loops A B _ ⟨hr.symm, hc.symm⟩ hwf0
    refine ⟨M, ?_, hwf, hrows, hcols, ?_⟩
    · unfold Add
      simp only [GetColumnCount, GetRowCount]
      rw [if_pos ⟨hc, hr⟩, hctor]
      show (do
        let matrix ← (List.range A.rows_.toNat).foldlM (fun matrix (i : Nat) =>
          (List.range A.cols_.toNat).foldlM (fun matrix (j : Nat) => do
            let va ← A.GetElement i j
            let vb ← B.GetElement i j
            RowMatrix.SetElement matrix i j (va + vb)) matrix) _
        pure (some matrix)) = _
      rw [hM]
      rfl
    · intro i j hi0 hi1 hj0 hj1
      have hrA : InRange A i j := ⟨hi0, hi1, hj0, hj1⟩
      have hrB : InRange B i j := ⟨hi0, hr ▸ hi1, hj0, hc ▸ hj1⟩
      exact ⟨_, _, GetElement_ok A i j hrA, GetElement_ok B i j hrB, hdone i j hrA⟩
  have _hB := hB
  refine ⟨?_, hsame⟩
  constructor
  · intro hnull
    by_contra hn
    push_neg at hn
    obtain ⟨M, hM, _⟩ := hsame hn
    rw [hM] at hnull
    cases hnull
  · intro hd
    unfold Add
    simp only [GetColumnCount, GetRowCount]
    rw [if_neg]
    · rfl
    · intro ⟨hc, hr⟩
      rcases hd with hd | hd
      · exact hd hr
      · exact hd hc

/-- Witness for C20: two 2 x 2 matrices. -/
theorem Add_returns_elementwise_sum_witness :
    WF (RowMatrix.mk 2 2 [1, 2, 3, 4]) ∧ WF (RowMatrix.mk 2 2 [10, 20, 30, 40]) ∧
    Add (RowMatrix.mk 2 2 [1, 2, 3, 4]) (RowMatrix.mk 2 2 [10, 20, 30, 40]) =
      Except.ok (some (RowMatrix.mk 2 2 [11, 22, 33, 44])) ∧
    (Add (RowMatrix.mk 2 2 [1, 2, 3, 4]) (RowMatrix.mk 2 2 [10, 20, 30, 40]) = Except.ok none ↔
      ((RowMatrix.mk 2 2 [1, 2, 3, 4]).rows_ ≠ (RowMatrix.mk 2 2 [10, 20, 30, 40]).rows_ ∨
        (RowMatrix.mk 2 2 [1, 2, 3, 4]).cols_ ≠ (RowMatrix.mk 2 2 [10, 20, 30, 40]).cols_)) :=
  ⟨by decide, by decide, by decide,
    (Add_returns_elementwise_sum (RowMatrix.mk 2 2 [1, 2, 3, 4])
      (RowMatrix.mk 2 2 [10, 20, 30, 40]) (by decide) (by decide)).1⟩

end RowMatrixOperations

/-! ## The depth step of a split, and an overflow that does not grow the directory -/

namespace ExtendibleHashTable

open HashTableDirectoryPage (DepthInvariant PointerCountInvariant)

/-- Claim C12 fails on the code.  With bucket capacity 4 and the identity
hash, after `Insert` of `(0,0), (4,0), (8,0), (12,0), (16,0)` into a fresh
index (all five calls return true) the global depth is still 1,
`GetValue(0)` returns `[0]` and `GetValue(16)` returns nothing: the fifth
insert runs one `SplitInsert` in the branch `local_depth < global_depth`,
which raises no global depth, and all five keys stay on slot 0. -/
theorem Insert_overflow_does_not_grow_directory :
    (runOps 4 id 0 (freshIndex 4)
        [Op.insert 0 0, Op.insert 4 0, Op.insert 8 0, Op.insert 12 0, Op.insert 16 0]).map
        (fun r => (r.1, r.2.dir.global_depth,
          ((GetValue id r.2 0 []).1, (GetValue id r.2 0 []).2.1),
          ((GetValue id r.2 16 []).1, (GetValue id r.2 16 []).2.1)))
      = some ([true, true, true, true, true], 1, (true, [0]), (false, [])) := by
  decide!

end ExtendibleHashTable

/-! ## Matrix product -/

namespace RowMatrix

end RowMatrix
namespace RowMatrixOperations

open RowMatrix

end RowMatrixOperations
namespace RowMatrixOperations

open RowMatrix

end RowMatrixOperations
namespace RowMatrixOperations

open RowMatrix

end RowMatrixOperations

/-! ## Query executors -/

section ExecutorLemmas

variable {Value Tuple Schema T : Type} [DecidableEq Value]

end ExecutorLemmas

namespace DistinctExecutor

variable {Value Tuple : Type} [DecidableEq Value]

end DistinctExecutor
namespace HashJoinExecutor

/-- Claim C23 fails on the code.  Left child output `[1]`, right child output
`[2], [1]` (one integer column each, joined on it), any hash functions: the
first call of `Next` after `Init` returns false, so no tuple is produced, where
the claim requires the combined tuple `[1, 1]`.  The key object `right_key` of
`Next` is appended to in every round of the loop and never emptied: after the
right tuple `[2]` found no match the key of the right tuple `[1]` is `(2, 1)`,
which equals no key of the map. -/
theorem HashJoin_loses_match_after_unmatched_tuple (u : HashUtil Int) :
    (Next (columnJoinPlan u) (Init (columnJoinPlan u) [[1]] [[2], [1]])).1 = none ∧
    (NextAll (columnJoinPlan u) 1 (Init (columnJoinPlan u) [[1]] [[2], [1]])).map
      (fun r => r.1) = some [] ∧
    joinResult (columnJoinPlan u) [[1]] [[2], [1]] = [[1, 1]] ∧
    (NextAll (columnJoinPlan u) 2 (Init (columnJoinPlan u) [[1]] [[1], [2]])).map
      (fun r => r.1) = some [[1, 1]] := by
  refine ⟨?_, ?_, ?_, ?_⟩
  · simp [Next, Init, scanRight, mapCount, mapFind, InsertCombine, mapInsert, mapModify,
      keyEquals, columnJoinPlan]
  · simp [NextAll, Next, Init, scanRight, mapCount, mapFind, InsertCombine, mapInsert,
      mapModify, keyEquals, columnJoinPlan]
  · simp [joinResult, columnJoinPlan]
  · simp [NextAll, Next, Init, scanRight, mapCount, mapFind, InsertCombine, mapInsert,
      mapModify, mapAt, keyEquals, columnJoinPlan]

end HashJoinExecutor

/-! ## The fast path of Insert and the failure exit of SplitInsert -/

namespace ExtendibleHashTable

/-- Claim C26.  If the bucket the key maps to (a bucket whose readable slots
are occupied) has a slot that is not readable and holds no readable `(k,v)`,
then `Insert(k,v)` returns true, the directory and every other bucket are
unchanged, no page is allocated, the readable pairs of the target bucket are
the previous ones plus `(k,v)`, and the pool sees the two fetches followed by
the unpin of the directory page clean and of the bucket page dirty. -/
theorem Insert_fast_path {K V : Type} [DecidableEq K] [DecidableEq V]
    [Inhabited K] [Inhabited V] (B : Nat) (hash_fn : K → Nat)
    (t : ExtendibleHashTable K V) (key : K) (value : V)
    (hwf : (bucketOf hash_fn t key).SlotsWF)
    (hfree : ∃ s ∈ bucketOf hash_fn t key, s.readable = false)
    (habsent : ¬ ∃ s ∈ bucketOf hash_fn t key,
      s.readable = true ∧ s.key = key ∧ s.value = value) :
    (Insert B hash_fn t key value).1 = true ∧
    (Insert B hash_fn t key value).2.dir = t.dir ∧
    (∀ p, p ≠ KeyToPageId hash_fn key t.dir →
      (Insert B hash_fn t key value).2.buckets p = t.buckets p) ∧
    (HashTableBucketPage.pairs (bucketOf hash_fn (Insert B hash_fn t key value).2 key)).Perm
      ((key, value) :: HashTableBucketPage.pairs (bucketOf hash_fn t key)) ∧
    (key, value) ∉ HashTableBucketPage.pairs (bucketOf hash_fn t key) ∧
    (Insert B hash_fn t key value).2.bpm.next_page_id = t.bpm.next_page_id ∧
    (Insert B hash_fn t key value).2.bpm.events = t.bpm.events ++
      [PoolEvent.FetchPage t.directory_page_id,
       PoolEvent.FetchPage (KeyToPageId hash_fn key t.dir),
       PoolEvent.UnpinPage t.directory_page_id false,
       PoolEvent.UnpinPage (KeyToPageId hash_fn key t.dir) true] := by
  rw [exists_slot_iff_check] at habsent
  rw [bucketOf_eq] at hwf hfree habsent
  have hc : (t.buckets (t.dir.bucket_page_ids
      (KeyToDirectoryIndex hash_fn key t.dir))).CheckKeyValueExist key value = false := by
    cases hx : (t.buckets (t.dir.bucket_page_ids
      (KeyToDirectoryIndex hash_fn key t.dir))).CheckKeyValueExist key value
    · rfl
    · exact absurd hx habsent
  have hsome : (HashTableBucketPage.writeFirstFree key value (t.buckets (t.dir.bucket_page_ids
      (KeyToDirectoryIndex hash_fn key t.dir)))).isSome = true := by
    rw [HashTableBucketPage.writeFirstFree_isSome_iff]
    obtain ⟨s, hs, hr⟩ := hfree
    exact ⟨s, hs, Or.inr hr⟩
  have hins : ((t.buckets (t.dir.bucket_page_ids
      (KeyToDirectoryIndex hash_fn key t.dir))).Insert key value).1 = true := by
    unfold HashTableBucketPage.Insert
    rw [hc]
    obtain ⟨b1, hb1⟩ := Option.isSome_iff_exists.mp hsome
    simp [hb1]
  obtain ⟨hnot, hperm, _, _⟩ := HashTableBucketPage.bucket_Insert_true _ key value hwf hins
  have hres : Insert B hash_fn t key value = (true,
      (({ t.FetchDirectoryPage.FetchBucketPage (KeyToPageId hash_fn key t.dir) with
          buckets := Function.update t.buckets (KeyToPageId hash_fn key t.dir)
            ((t.buckets (KeyToPageId hash_fn key t.dir)).Insert key value).2 } :
          ExtendibleHashTable K V).UnpinPage t.directory_page_id false).UnpinPage
        (KeyToPageId hash_fn key t.dir) true) := by
    unfold Insert
    simp only [FetchDirectoryPage, FetchBucketPage, HashTableDirectoryPage.GetBucketPageId,
      hins, if_true, KeyToPageId]
  rw [hres]
  refine ⟨rfl, rfl, ?_, ?_, hnot, rfl, ?_⟩
  · intro p hp
    exact Function.update_noteq hp _ _
  · rw [bucketOf_eq, bucketOf_eq]
    simp only [ExtendibleHashTable.UnpinPage, FetchDirectoryPage, FetchBucketPage, KeyToPageId,
      HashTableDirectoryPage.GetBucketPageId, Function.update_same]
    exact hperm
  · simp [ExtendibleHashTable.UnpinPage, FetchDirectoryPage, FetchBucketPage,
      BufferPoolManager.FetchPage, BufferPoolManager.UnpinPage]

/-- Witness for C26: `Insert(5,50)` into a fresh index of capacity 4. -/
theorem Insert_fast_path_witness :
    (bucketOf id (freshIndex 4) 5).SlotsWF ∧
    (∃ s ∈ bucketOf id (freshIndex 4) 5, s.readable = false) ∧
    (Insert 4 id (freshIndex 4) 5 50).1 = true ∧
    (HashTableBucketPage.pairs (bucketOf id (Insert 4 id (freshIndex 4) 5 50).2 5)).Perm
      ((5, 50) :: HashTableBucketPage.pairs (bucketOf id (freshIndex 4) 5)) :=
  ⟨(Reachable_good 4 id (freshIndex 4) (Reachable.fresh emptyPool) _).1, by decide!,
    (Insert_fast_path 4 id (freshIndex 4) 5 50
      (Reachable_good 4 id (freshIndex 4) (Reachable.fresh emptyPool) _).1
      (by decide!) (by decide!)).1,
    (Insert_fast_path 4 id (freshIndex 4) 5 50
      (Reachable_good 4 id (freshIndex 4) (Reachable.fresh emptyPool) _).1
      (by decide!) (by decide!)).2.2.2.1⟩

/-- `SplitInsert` returns false exactly when the depth step reports that the
new index is out of bound. -/
theorem SplitInsert_false_iff {K V : Type} [DecidableEq K] [DecidableEq V]
    [Inhabited K] [Inhabited V] (B : Nat) (hash_fn : K → Nat)
    (t : ExtendibleHashTable K V) (key : K) (value : V) :
    (SplitInsert B hash_fn t key value).1 = false ↔
      (splitDepthTransform t.dir (KeyToDirectoryIndex hash_fn key t.dir)).2.2 = true := by
  unfold SplitInsert
  simp only [FetchDirectoryPage, FetchBucketPage]
  cases hx : (splitDepthTransform t.dir (KeyToDirectoryIndex hash_fn key t.dir)).2.2 <;> simp

/-- The directory the failure exit of the depth step leaves: the increment of
the local depth is undone. -/
theorem splitDepthTransform_rollback (dir : HashTableDirectoryPage) (index : Nat)
    (hld : dir.local_depths index < 256)
    (hflag : (splitDepthTransform dir index).2.2 = true) :
    (splitDepthTransform dir index).1 = dir := by
  unfold splitDepthTransform at hflag ⊢
  simp only at hflag ⊢
  by_cases h1 : dir.GetLocalDepth index < dir.GetGlobalDepth
  · rw [if_pos h1] at hflag
    cases hflag
  · rw [if_neg h1] at hflag ⊢
    by_cases h2 : dir.GetLocalDepth index = dir.GetGlobalDepth
    · rw [if_pos h2] at hflag ⊢
      by_cases h3 : index ||| shl32 1 (sub32 (dir.IncrLocalDepth index).GetGlobalDepth 1) ≥
          DIRECTORY_ARRAY_SIZE
      · rw [if_pos h3]
        show (dir.IncrLocalDepth index).DecrLocalDepth index = dir
        simp only [HashTableDirectoryPage.DecrLocalDepth, HashTableDirectoryPage.IncrLocalDepth,
          Function.update_same, Function.update_idem]
        have hval : ((dir.local_depths index + 1) % 256 + 255) % 256 =
            dir.local_depths index := by
          omega
        rw [hval, Function.update_eq_self]
      · rw [if_neg h3] at hflag
        cases hflag
    · rw [if_neg h2] at hflag
      cases hflag

end ExtendibleHashTable

/-! ## What a split does to the pairs of the old bucket -/

namespace ExtendibleHashTable

theorem redistribute_cons {K V : Type} [DecidableEq K] [DecidableEq V] (hash_fn : K → Nat)
    (dir : HashTableDirectoryPage) (old_page_id new_page_id : Nat) (k : K) (v : V)
    (rest : List (K × V)) (pages : Nat → HashTableBucketPage K V) :
    redistribute hash_fn dir old_page_id new_page_id ((k, v) :: rest) pages =
      redistribute hash_fn dir old_page_id new_page_id rest
        (Function.update pages
          (if KeyToPageId hash_fn k dir = new_page_id then new_page_id else old_page_id)
          ((pages (if KeyToPageId hash_fn k dir = new_page_id then new_page_id
            else old_page_id)).Insert k v).2) := by
  conv_lhs => unfold redistribute
  simp only [KeyToPageId]
  split <;> rfl

theorem redistribute_append {K V : Type} [DecidableEq K] [DecidableEq V] (hash_fn : K → Nat)
    (dir : HashTableDirectoryPage) (old_page_id new_page_id : Nat) :
    ∀ (l1 l2 : List (K × V)) (pages : Nat → HashTableBucketPage K V),
      redistribute hash_fn dir old_page_id new_page_id (l1 ++ l2) pages =
        redistribute hash_fn dir old_page_id new_page_id l2
          (redistribute hash_fn dir old_page_id new_page_id l1 pages) := by
  intro l1
  induction l1 with
  | nil => intro l2 pages; rfl
  | cons kv rest ih =>
    intro l2 pages
    obtain ⟨k, v⟩ := kv
    rw [List.cons_append, redistribute_cons, redistribute_cons, ih]

/-- One round of the redistribution loop: the pair goes to the new page if its
key resolves to it and to the old page otherwise; no other page changes. -/
theorem redistribute_one {K V : Type} [DecidableEq K] [DecidableEq V] (hash_fn : K → Nat)
    (dir : HashTableDirectoryPage) (old_page_id new_page_id : Nat) (k : K) (v : V)
    (pages : Nat → HashTableBucketPage K V) :
    redistribute hash_fn dir old_page_id new_page_id [(k, v)] pages =
      Function.update pages
        (if KeyToPageId hash_fn k dir = new_page_id then new_page_id else old_page_id)
        ((pages (if KeyToPageId hash_fn k dir = new_page_id then new_page_id
          else old_page_id)).Insert k v).2 := by
  rw [redistribute_cons]
  rfl

/-- The redistribution loop on pairs that all fit and are new to both pages:
every pair is stored, in the new page if its key resolves to it and in the old
page otherwise. -/
theorem redistribute_partition {K V : Type} [DecidableEq K] [DecidableEq V] (hash_fn : K → Nat)
    (dir : HashTableDirectoryPage) (old_page_id new_page_id : Nat)
    (hne : old_page_id ≠ new_page_id) :
    ∀ (kvs : List (K × V)) (pages : Nat → HashTableBucketPage K V),
      (pages old_page_id).SlotsWF → (pages new_page_id).SlotsWF →
      (HashTableBucketPage.pairs (pages old_page_id) ++
        HashTableBucketPage.pairs (pages new_page_id) ++ kvs).Nodup →
      (HashTableBucketPage.pairs (pages old_page_id)).length + kvs.length ≤
        (pages old_page_id).length →
      (HashTableBucketPage.pairs (pages new_page_id)).length + kvs.length ≤
        (pages new_page_id).length →
      (HashTableBucketPage.pairs
          (redistribute hash_fn dir old_page_id new_page_id kvs pages old_page_id)).Perm
        (HashTableBucketPage.pairs (pages old_page_id) ++
          kvs.filter (fun kv => !decide (KeyToPageId hash_fn kv.1 dir = new_page_id))) ∧
      (HashTableBucketPage.pairs
          (redistribute hash_fn dir old_page_id new_page_id kvs pages new_page_id)).Perm
        (HashTableBucketPage.pairs (pages new_page_id) ++
          kvs.filter (fun kv => decide (KeyToPageId hash_fn kv.1 dir = new_page_id))) ∧
      (redistribute hash_fn dir old_page_id new_page_id kvs pages old_page_id).SlotsWF ∧
      (redistribute hash_fn dir old_page_id new_page_id kvs pages new_page_id).SlotsWF ∧
      (redistribute hash_fn dir old_page_id new_page_id kvs pages old_page_id).length =
        (pages old_page_id).length ∧
      (redistribute hash_fn dir old_page_id new_page_id kvs pages new_page_id).length =
        (pages new_page_id).length ∧
      ∀ p, p ≠ old_page_id → p ≠ new_page_id →
        redistribute hash_fn dir old_page_id new_page_id kvs pages p = pages p := by
  intro kvs
  induction kvs with
  | nil =>
    intro pages ho hn _ _ _
    refine ⟨?_, ?_, ho, hn, rfl, rfl, fun _ _ _ => rfl⟩
    · simp [redistribute]
    · simp [redistribute]
  | cons kv rest ih =>
    intro pages ho hn hnd hlo hln
    obtain ⟨k, v⟩ := kv
    simp only [List.length_cons] at hlo hln
    have hkv_old : (k, v) ∉ HashTableBucketPage.pairs (pages old_page_id) := by
      intro hmem
      have := List.nodup_append.mp hnd
      exact this.2.2 (List.mem_append_left _ hmem) (List.mem_cons_self _ _)
    have hkv_new : (k, v) ∉ HashTableBucketPage.pairs (pages new_page_id) := by
      intro hmem
      have := List.nodup_append.mp hnd
      exact this.2.2 (List.mem_append_right _ hmem) (List.mem_cons_self _ _)
    have hkv_rest : (k, v) ∉ rest := by
      have := (List.nodup_append.mp hnd).2.1
      exact (List.nodup_cons.mp this).1
    have hnd_rest : rest.Nodup := (List.nodup_cons.mp (List.nodup_append.mp hnd).2.1).2
    have hnd_pages : (HashTableBucketPage.pairs (pages old_page_id) ++
        HashTableBucketPage.pairs (pages new_page_id)).Nodup := (List.nodup_append.mp hnd).1
    have hdis : ∀ x, x ∈ HashTableBucketPage.pairs (pages old_page_id) ++
        HashTableBucketPage.pairs (pages new_page_id) → x ∉ rest := by
      intro x hx hr
      exact (List.nodup_append.mp hnd).2.2 hx (List.mem_cons_of_mem _ hr)
    unfold redistribute
    simp only
    by_cases hto : dir.GetBucketPageId (KeyToDirectoryIndex hash_fn k dir) = new_page_id
    · rw [if_pos hto]
      have hroom : HashTableBucketPage.NumReadable (pages new_page_id) <
          (pages new_page_id).length := by
        rw [HashTableBucketPage.NumReadable_eq]
        omega
      have hins := HashTableBucketPage.bucket_Insert_of_room _ k v hkv_new hroom
      obtain ⟨_, hperm, hwf', hlen'⟩ :=
        HashTableBucketPage.bucket_Insert_true _ k v hn hins
      have hold' : Function.update pages new_page_id
          ((pages new_page_id).Insert k v).2 old_page_id = pages old_page_id :=
        Function.update_noteq hne _ _
      have hnew' : Function.update pages new_page_id
          ((pages new_page_id).Insert k v).2 new_page_id =
          ((pages new_page_id).Insert k v).2 := Function.update_same _ _ _
      have hstep := ih (Function.update pages new_page_id ((pages new_page_id).Insert k v).2)
        (by rw [hold']; exact ho) (by rw [hnew']; exact hwf')
        (by
          rw [hold', hnew']
          rw [List.nodup_append]
          refine ⟨?_, hnd_rest, ?_⟩
          · rw [List.nodup_append]
            refine ⟨(List.nodup_append.mp hnd_pages).1, ?_, ?_⟩
            · exact hperm.nodup_iff.mpr (List.nodup_cons.mpr
                ⟨hkv_new, (List.nodup_append.mp hnd_pages).2.1⟩)
            · intro x hx1 hx2
              rcases List.mem_cons.mp (hperm.mem_iff.mp hx2) with h | h
              · exact hkv_old (h ▸ hx1)
              · exact (List.nodup_append.mp hnd_pages).2.2 hx1 h
          · intro x hx hr
            rcases List.mem_append.mp hx with h | h
            · exact hdis x (List.mem_append_left _ h) hr
            · rcases List.mem_cons.mp (hperm.mem_iff.mp h) with h2 | h2
              · exact hkv_rest (h2 ▸ hr)
              · exact hdis x (List.mem_append_right _ h2) hr)
        (by rw [hold']; omega)
        (by rw [hnew', hperm.length_eq, hlen']; simp only [List.length_cons]; omega)
      rw [hold', hnew'] at hstep
      obtain ⟨h1, h2, h3, h4, h5, h6, h7⟩ := hstep
      have hk : KeyToPageId hash_fn k dir = new_page_id := hto
      refine ⟨?_, ?_, h3, h4, h5, h6.trans hlen', ?_⟩
      · rw [List.filter_cons_of_neg (by simp [hk])]
        exact h1
      · rw [List.filter_cons_of_pos (by simp [hk])]
        refine h2.trans ?_
        refine (List.Perm.append_right _ hperm).trans ?_
        simp only [List.cons_append]
        exact List.perm_middle.symm
      · intro p hpo hpn
        rw [h7 p hpo hpn]
        exact Function.update_noteq hpn _ _
    · rw [if_neg hto]
      have hroom : HashTableBucketPage.NumReadable (pages old_page_id) <
          (pages old_page_id).length := by
        rw [HashTableBucketPage.NumReadable_eq]
        omega
      have hins := HashTableBucketPage.bucket_Insert_of_room _ k v hkv_old hroom
      obtain ⟨_, hperm, hwf', hlen'⟩ :=
        HashTableBucketPage.bucket_Insert_true _ k v ho hins
      have hnew' : Function.update pages old_page_id
          ((pages old_page_id).Insert k v).2 new_page_id = pages new_page_id :=
        Function.update_noteq (Ne.symm hne) _ _
      have hold' : Function.update pages old_page_id
          ((pages old_page_id).Insert k v).2 old_page_id =
          ((pages old_page_id).Insert k v).2 := Function.update_same _ _ _
      have hstep := ih (Function.update pages old_page_id ((pages old_page_id).Insert k v).2)
        (by rw [hold']; exact hwf') (by rw [hnew']; exact hn)
        (by
          rw [hold', hnew']
          rw [List.nodup_append]
          refine ⟨?_, hnd_rest, ?_⟩
          · rw [List.nodup_append]
            refine ⟨?_, (List.nodup_append.mp hnd_pages).2.1, ?_⟩
            · exact hperm.nodup_iff.mpr (List.nodup_cons.mpr
                ⟨hkv_old, (List.nodup_append.mp hnd_pages).1⟩)
            · intro x hx1 hx2
              rcases List.mem_cons.mp (hperm.mem_iff.mp hx1) with h | h
              · exact hkv_new (h ▸ hx2)
              · exact (List.nodup_append.mp hnd_pages).2.2 h hx2
          · intro x hx hr
            rcases List.mem_append.mp hx with h | h
            · rcases List.mem_cons.mp (hperm.mem_iff.mp h) with h2 | h2
              · exact hkv_rest (h2 ▸ hr)
              · exact hdis x (List.mem_append_left _ h2) hr
            · exact hdis x (List.mem_append_right _ h) hr)
        (by rw [hold', hperm.length_eq, hlen']; simp only [List.length_cons]; omega)
        (by rw [hnew']; omega)
      rw [hold', hnew'] at hstep
      obtain ⟨h1, h2, h3, h4, h5, h6, h7⟩ := hstep
      have hk : ¬ KeyToPageId hash_fn k dir = new_page_id := hto
      refine ⟨?_, ?_, h3, h4, h5.trans hlen', h6, ?_⟩
      · rw [List.filter_cons_of_pos (by simp [hk])]
        refine h1.trans ?_
        refine (List.Perm.append_right _ hperm).trans ?_
        simp only [List.cons_append]
        exact List.perm_middle.symm
      · rw [List.filter_cons_of_neg (by simp [hk])]
        exact h2
      · intro p hpo hpn
        rw [h7 p hpo hpn]
        exact Function.update_noteq hpo _ _

end ExtendibleHashTable
namespace ExtendibleHashTable

/-- The success path of `SplitInsert`, step by step: the directory after the
depth step and `SeperatePageId`, the buckets after the redistribution loop
over the drained pairs followed by the new pair, and one allocated page. -/
theorem SplitInsert_success {K V : Type} [DecidableEq K] [DecidableEq V]
    [Inhabited K] [Inhabited V] (B : Nat) (hash_fn : K → Nat)
    (t : ExtendibleHashTable K V) (key : K) (value : V)
    (hflag : (splitDepthTransform t.dir (KeyToDirectoryIndex hash_fn key t.dir)).2.2 = false)
    (hne : KeyToPageId hash_fn key t.dir ≠ t.bpm.next_page_id) :
    (SplitInsert B hash_fn t key value).1 = true ∧
    (SplitInsert B hash_fn t key value).2.dir =
      (splitDepthTransform t.dir (KeyToDirectoryIndex hash_fn key t.dir)).1.SeperatePageId
        (KeyToDirectoryIndex hash_fn key t.dir)
        (splitDepthTransform t.dir (KeyToDirectoryIndex hash_fn key t.dir)).2.1
        t.bpm.next_page_id ∧
    (SplitInsert B hash_fn t key value).2.buckets =
      redistribute hash_fn (SplitInsert B hash_fn t key value).2.dir
        (KeyToPageId hash_fn key t.dir) t.bpm.next_page_id
        (HashTableBucketPage.pairs (t.buckets (KeyToPageId hash_fn key t.dir)) ++ [(key, value)])
        (Function.update
          (Function.update t.buckets t.bpm.next_page_id (HashTableBucketPage.fresh B))
          (KeyToPageId hash_fn key t.dir)
          ((t.buckets (KeyToPageId hash_fn key t.dir)).EmptyArray []).2) ∧
    (SplitInsert B hash_fn t key value).2.bpm.next_page_id = t.bpm.next_page_id + 1 := by
  have hu : Function.update t.buckets t.bpm.next_page_id (HashTableBucketPage.fresh B)
      (t.dir.bucket_page_ids (KeyToDirectoryIndex hash_fn key t.dir)) =
      t.buckets (t.dir.bucket_page_ids (KeyToDirectoryIndex hash_fn key t.dir)) :=
    Function.update_noteq hne _ _
  unfold SplitInsert
  simp only [FetchDirectoryPage, FetchBucketPage, ExtendibleHashTable.UnpinPage, hflag,
    HashTableDirectoryPage.GetBucketPageId, Bool.false_eq_true, if_false, NewPage_id,
    FetchPage_next, HashTableBucketPage.EmptyArray_out, KeyToPageId, hu]
  exact ⟨trivial, trivial, trivial, rfl⟩

end ExtendibleHashTable
namespace ExtendibleHashTable

theorem pairs_length_le {K V : Type} (b : HashTableBucketPage K V) :
    (HashTableBucketPage.pairs b).length ≤ b.length := by
  unfold HashTableBucketPage.pairs
  rw [List.length_map]
  exact List.length_filter_le _ _

/-- The buckets of the old and of the new page after the loop of a successful
`SplitInsert` has redistributed the drained pairs, before the new pair is
tried: every drained pair sits in the new page if its key resolves to it and
in the old page otherwise. -/
theorem SplitInsert_drained {K V : Type} [DecidableEq K] [DecidableEq V]
    [Inhabited K] [Inhabited V] (B : Nat) (hash_fn : K → Nat)
    (dir : HashTableDirectoryPage) (buckets : Nat → HashTableBucketPage K V)
    (old_page_id new_page_id : Nat) (hne : old_page_id ≠ new_page_id)
    (hgood : (buckets old_page_id).Good)
    (hcap : HashTableBucketPage.NumReadable (buckets old_page_id) ≤ B) :
    (HashTableBucketPage.pairs
        (redistribute hash_fn dir old_page_id new_page_id
          (HashTableBucketPage.pairs (buckets old_page_id))
          (Function.update (Function.update buckets new_page_id (HashTableBucketPage.fresh B))
            old_page_id ((buckets old_page_id).EmptyArray []).2) old_page_id)).Perm
      ((HashTableBucketPage.pairs (buckets old_page_id)).filter
        (fun kv => !decide (KeyToPageId hash_fn kv.1 dir = new_page_id))) ∧
    (HashTableBucketPage.pairs
        (redistribute hash_fn dir old_page_id new_page_id
          (HashTableBucketPage.pairs (buckets old_page_id))
          (Function.update (Function.update buckets new_page_id (HashTableBucketPage.fresh B))
            old_page_id ((buckets old_page_id).EmptyArray []).2) new_page_id)).Perm
      ((HashTableBucketPage.pairs (buckets old_page_id)).filter
        (fun kv => decide (KeyToPageId hash_fn kv.1 dir = new_page_id))) ∧
    (redistribute hash_fn dir old_page_id new_page_id
      (HashTableBucketPage.pairs (buckets old_page_id))
      (Function.update (Function.update buckets new_page_id (HashTableBucketPage.fresh B))
        old_page_id ((buckets old_page_id).EmptyArray []).2) old_page_id).SlotsWF ∧
    (redistribute hash_fn dir old_page_id new_page_id
      (HashTableBucketPage.pairs (buckets old_page_id))
      (Function.update (Function.update buckets new_page_id (HashTableBucketPage.fresh B))
        old_page_id ((buckets old_page_id).EmptyArray []).2) new_page_id).SlotsWF ∧
    (redistribute hash_fn dir old_page_id new_page_id
      (HashTableBucketPage.pairs (buckets old_page_id))
      (Function.update (Function.update buckets new_page_id (HashTableBucketPage.fresh B))
        old_page_id ((buckets old_page_id).EmptyArray []).2) old_page_id).length =
      (buckets old_page_id).length ∧
    (redistribute hash_fn dir old_page_id new_page_id
      (HashTableBucketPage.pairs (buckets old_page_id))
      (Function.update (Function.update buckets new_page_id (HashTableBucketPage.fresh B))
        old_page_id ((buckets old_page_id).EmptyArray []).2) new_page_id).length = B ∧
    ∀ p, p ≠ old_page_id → p ≠ new_page_id →
      redistribute hash_fn dir old_page_id new_page_id
        (HashTableBucketPage.pairs (buckets old_page_id))
        (Function.update (Function.update buckets new_page_id (HashTableBucketPage.fresh B))
          old_page_id ((buckets old_page_id).EmptyArray []).2) p = buckets p := by
  have ho : Function.update (Function.update buckets new_page_id (HashTableBucketPage.fresh B))
      old_page_id ((buckets old_page_id).EmptyArray []).2 old_page_id =
      ((buckets old_page_id).EmptyArray []).2 := Function.update_same _ _ _
  have hn : Function.update (Function.update buckets new_page_id (HashTableBucketPage.fresh B))
      old_page_id ((buckets old_page_id).EmptyArray []).2 new_page_id =
      HashTableBucketPage.fresh B := by
    rw [Function.update_noteq (Ne.symm hne), Function.update_same]
  have hpo := HashTableBucketPage.EmptyArray_pairs (buckets old_page_id) []
  have hpn : HashTableBucketPage.pairs (HashTableBucketPage.fresh B : HashTableBucketPage K V) =
      [] := HashTableBucketPage.pairs_fresh B
  have hlo := HashTableBucketPage.EmptyArray_length (buckets old_page_id) []
  have hln : (HashTableBucketPage.fresh B : HashTableBucketPage K V).length = B := by
    unfold HashTableBucketPage.fresh
    exact List.length_replicate _ _
  rw [HashTableBucketPage.NumReadable_eq] at hcap
  have h := redistribute_partition hash_fn dir old_page_id new_page_id hne
    (HashTableBucketPage.pairs (buckets old_page_id))
    (Function.update (Function.update buckets new_page_id (HashTableBucketPage.fresh B))
      old_page_id ((buckets old_page_id).EmptyArray []).2)
    (by rw [ho]; exact (HashTableBucketPage.EmptyArray_good _ _).1)
    (by rw [hn]; exact (HashTableBucketPage.fresh_good B).1)
    (by rw [ho, hn, hpo, hpn]; exact hgood.2)
    (by rw [ho, hpo, hlo]; simpa using pairs_length_le (buckets old_page_id))
    (by rw [hn, hpn, hln]; simpa using hcap)
  rw [ho, hn, hpo, hpn, hlo, hln] at h
  simp only [List.nil_append] at h
  obtain ⟨h1, h2, h3, h4, h5, h6, h7⟩ := h
  refine ⟨h1, h2, h3, h4, h5, h6, ?_⟩
  intro p hpo' hpn'
  rw [h7 p hpo' hpn', Function.update_noteq hpo', Function.update_noteq hpn']

end ExtendibleHashTable
namespace ExtendibleHashTable

/-- The readable pairs after a bucket-level `Insert`: the previous ones, and
at most the inserted pair in addition. -/
theorem bucket_Insert_pairs {K V : Type} [DecidableEq K] [DecidableEq V]
    (b : HashTableBucketPage K V) (k : K) (v : V) (hg : b.Good) :
    (∀ x ∈ HashTableBucketPage.pairs b, x ∈ HashTableBucketPage.pairs (b.Insert k v).2) ∧
    (∀ x ∈ HashTableBucketPage.pairs (b.Insert k v).2,
      x ∈ HashTableBucketPage.pairs b ∨ x = (k, v)) ∧
    (HashTableBucketPage.pairs (b.Insert k v).2).Nodup := by
  refine ⟨?_, ?_, (HashTableBucketPage.bucket_Insert_good b k v hg).2⟩
  · intro x hx
    cases hr : (b.Insert k v).1
    · rw [HashTableBucketPage.bucket_Insert_false b k v hr]
      exact hx
    · exact (HashTableBucketPage.bucket_Insert_true b k v hg.1 hr).2.1.mem_iff.mpr
        (List.mem_cons_of_mem _ hx)
  · intro x hx
    cases hr : (b.Insert k v).1
    · rw [HashTableBucketPage.bucket_Insert_false b k v hr] at hx
      exact Or.inl hx
    · rcases List.mem_cons.mp
        ((HashTableBucketPage.bucket_Insert_true b k v hg.1 hr).2.1.mem_iff.mp hx) with h | h
      · exact Or.inr h
      · exact Or.inl h

/-- The last round of the redistribution loop, on the new pair, after the
drained pairs have been placed: every drained pair is readable in exactly one
of the two pages, and nothing but drained pairs and the new pair is readable
there. -/
theorem redistribute_last {K V : Type} [DecidableEq K] [DecidableEq V] (hash_fn : K → Nat)
    (dir : HashTableDirectoryPage) (old_page_id new_page_id : Nat)
    (hne : old_page_id ≠ new_page_id) (drained : List (K × V)) (hnd : drained.Nodup)
    (key : K) (value : V) (P : Nat → HashTableBucketPage K V)
    (h1 : (HashTableBucketPage.pairs (P old_page_id)).Perm
      (drained.filter (fun kv => !decide (KeyToPageId hash_fn kv.1 dir = new_page_id))))
    (h2 : (HashTableBucketPage.pairs (P new_page_id)).Perm
      (drained.filter (fun kv => decide (KeyToPageId hash_fn kv.1 dir = new_page_id))))
    (h3 : (P old_page_id).SlotsWF) (h4 : (P new_page_id).SlotsWF) :
    (∀ kv ∈ drained,
      (kv ∈ HashTableBucketPage.pairs
          (redistribute hash_fn dir old_page_id new_page_id [(key, value)] P old_page_id) ∧
        kv ∉ HashTableBucketPage.pairs
          (redistribute hash_fn dir old_page_id new_page_id [(key, value)] P new_page_id)) ∨
      (kv ∉ HashTableBucketPage.pairs
          (redistribute hash_fn dir old_page_id new_page_id [(key, value)] P old_page_id) ∧
        kv ∈ HashTableBucketPage.pairs
          (redistribute hash_fn dir old_page_id new_page_id [(key, value)] P new_page_id))) ∧
    (∀ kv,
      kv ∈ HashTableBucketPage.pairs
          (redistribute hash_fn dir old_page_id new_page_id [(key, value)] P old_page_id) ∨
        kv ∈ HashTableBucketPage.pairs
          (redistribute hash_fn dir old_page_id new_page_id [(key, value)] P new_page_id) →
      kv ∈ drained ∨ kv = (key, value)) ∧
    (HashTableBucketPage.pairs
      (redistribute hash_fn dir old_page_id new_page_id [(key, value)] P old_page_id)).Nodup ∧
    (HashTableBucketPage.pairs
      (redistribute hash_fn dir old_page_id new_page_id [(key, value)] P new_page_id)).Nodup ∧
    ∀ p, p ≠ old_page_id → p ≠ new_page_id →
      redistribute hash_fn dir old_page_id new_page_id [(key, value)] P p = P p := by
  have hndo : (HashTableBucketPage.pairs (P old_page_id)).Nodup :=
    h1.nodup_iff.mpr (hnd.filter _)
  have hndn : (HashTableBucketPage.pairs (P new_page_id)).Nodup :=
    h2.nodup_iff.mpr (hnd.filter _)
  have hmo : ∀ kv, kv ∈ HashTableBucketPage.pairs (P old_page_id) ↔
      kv ∈ drained ∧ ¬ KeyToPageId hash_fn kv.1 dir = new_page_id := by
    intro kv
    rw [h1.mem_iff, List.mem_filter]
    simp
  have hmn : ∀ kv, kv ∈ HashTableBucketPage.pairs (P new_page_id) ↔
      kv ∈ drained ∧ KeyToPageId hash_fn kv.1 dir = new_page_id := by
    intro kv
    rw [h2.mem_iff, List.mem_filter]
    simp
  rw [redistribute_one]
  by_cases hto : KeyToPageId hash_fn key dir = new_page_id
  · rw [if_pos hto]
    obtain ⟨ha, hb, hc⟩ := bucket_Insert_pairs (P new_page_id) key value ⟨h4, hndn⟩
    have hFo : Function.update P new_page_id ((P new_page_id).Insert key value).2 old_page_id =
        P old_page_id := Function.update_noteq hne _ _
    have hFn : Function.update P new_page_id ((P new_page_id).Insert key value).2 new_page_id =
        ((P new_page_id).Insert key value).2 := Function.update_same _ _ _
    rw [hFo, hFn]
    refine ⟨?_, ?_, hndo, hc, ?_⟩
    · intro kv hkv
      by_cases hk : KeyToPageId hash_fn kv.1 dir = new_page_id
      · refine Or.inr ⟨fun h => ((hmo kv).mp h).2 hk, ha kv ((hmn kv).mpr ⟨hkv, hk⟩)⟩
      · refine Or.inl ⟨(hmo kv).mpr ⟨hkv, hk⟩, fun h => ?_⟩
        rcases hb kv h with h' | h'
        · exact hk ((hmn kv).mp h').2
        · rw [h'] at hk
          exact hk hto
    · intro kv h
      rcases h with h | h
      · exact Or.inl ((hmo kv).mp h).1
      · rcases hb kv h with h' | h'
        · exact Or.inl ((hmn kv).mp h').1
        · exact Or.inr h'
    · intro p _ hpn
      exact Function.update_noteq hpn _ _
  · rw [if_neg hto]
    obtain ⟨ha, hb, hc⟩ := bucket_Insert_pairs (P old_page_id) key value ⟨h3, hndo⟩
    have hFn : Function.update P old_page_id ((P old_page_id).Insert key value).2 new_page_id =
        P new_page_id := Function.update_noteq (Ne.symm hne) _ _
    have hFo : Function.update P old_page_id ((P old_page_id).Insert key value).2 old_page_id =
        ((P old_page_id).Insert key value).2 := Function.update_same _ _ _
    rw [hFo, hFn]
    refine ⟨?_, ?_, hc, hndn, ?_⟩
    · intro kv hkv
      by_cases hk : KeyToPageId hash_fn kv.1 dir = new_page_id
      · refine Or.inr ⟨fun h => ?_, (hmn kv).mpr ⟨hkv, hk⟩⟩
        rcases hb kv h with h' | h'
        · exact ((hmo kv).mp h').2 hk
        · rw [h'] at hk
          exact hto hk
      · exact Or.inl ⟨ha kv ((hmo kv).mpr ⟨hkv, hk⟩), fun h => hk ((hmn kv).mp h).2⟩
    · intro kv h
      rcases h with h | h
      · rcases hb kv h with h' | h'
        · exact Or.inl ((hmo kv).mp h').1
        · exact Or.inr h'
      · exact Or.inl ((hmn kv).mp h).1
    · intro p hpo _
      exact Function.update_noteq hpo _ _

theorem SplitInsert_flag_of_true {K V : Type} [DecidableEq K] [DecidableEq V]
    [Inhabited K] [Inhabited V] (B : Nat) (hash_fn : K → Nat)
    (t : ExtendibleHashTable K V) (key : K) (value : V)
    (htrue : (SplitInsert B hash_fn t key value).1 = true) :
    (splitDepthTransform t.dir (KeyToDirectoryIndex hash_fn key t.dir)).2.2 = false := by
  cases hx : (splitDepthTransform t.dir (KeyToDirectoryIndex hash_fn key t.dir)).2.2
  · rfl
  · rw [(SplitInsert_false_iff B hash_fn t key value).mpr hx] at htrue
    cases htrue

/-- Claim C29.  For every `SplitInsert` call that returns true, on an old
bucket (page `KeyToPageId key`, another page than the one the pool hands out
next) whose readable slots are occupied and hold pairwise distinct pairs, at
most `B` of them: every pair readable in the old bucket before the call is
readable afterwards in exactly one of the old bucket and the new bucket, no
pair is readable twice, nothing but these pairs and the new pair `(key,value)`
is readable in the two buckets, and every other bucket is unchanged. -/
theorem SplitInsert_keeps_drained_pairs {K V : Type} [DecidableEq K] [DecidableEq V]
    [Inhabited K] [Inhabited V] (B : Nat) (hash_fn : K → Nat)
    (t : ExtendibleHashTable K V) (key : K) (value : V)
    (htrue : (SplitInsert B hash_fn t key value).1 = true)
    (hne : KeyToPageId hash_fn key t.dir ≠ t.bpm.next_page_id)
    (hgood : (t.buckets (KeyToPageId hash_fn key t.dir)).Good)
    (hcap : HashTableBucketPage.NumReadable (t.buckets (KeyToPageId hash_fn key t.dir)) ≤ B) :
    (∀ kv ∈ HashTableBucketPage.pairs (t.buckets (KeyToPageId hash_fn key t.dir)),
      (kv ∈ HashTableBucketPage.pairs
          ((SplitInsert B hash_fn t key value).2.buckets (KeyToPageId hash_fn key t.dir)) ∧
        kv ∉ HashTableBucketPage.pairs
          ((SplitInsert B hash_fn t key value).2.buckets t.bpm.next_page_id)) ∨
      (kv ∉ HashTableBucketPage.pairs
          ((SplitInsert B hash_fn t key value).2.buckets (KeyToPageId hash_fn key t.dir)) ∧
        kv ∈ HashTableBucketPage.pairs
          ((SplitInsert B hash_fn t key value).2.buckets t.bpm.next_page_id))) ∧
    (∀ kv,
      kv ∈ HashTableBucketPage.pairs
          ((SplitInsert B hash_fn t key value).2.buckets (KeyToPageId hash_fn key t.dir)) ∨
        kv ∈ HashTableBucketPage.pairs
          ((SplitInsert B hash_fn t key value).2.buckets t.bpm.next_page_id) →
      kv ∈ HashTableBucketPage.pairs (t.buckets (KeyToPageId hash_fn key t.dir)) ∨
        kv = (key, value)) ∧
    (HashTableBucketPage.pairs
      ((SplitInsert B hash_fn t key value).2.buckets (KeyToPageId hash_fn key t.dir))).Nodup ∧
    (HashTableBucketPage.pairs
      ((SplitInsert B hash_fn t key value).2.buckets t.bpm.next_page_id)).Nodup ∧
    ∀ p, p ≠ KeyToPageId hash_fn key t.dir → p ≠ t.bpm.next_page_id →
      (SplitInsert B hash_fn t key value).2.buckets p = t.buckets p := by
  have hflag := SplitInsert_flag_of_true B hash_fn t key value htrue
  obtain ⟨_, _, hb, _⟩ := SplitInsert_success B hash_fn t key value hflag hne
  obtain ⟨h1, h2, h3, h4, _, _, h7⟩ := SplitInsert_drained B hash_fn
    (SplitInsert B hash_fn t key value).2.dir t.buckets (KeyToPageId hash_fn key t.dir)
    t.bpm.next_page_id hne hgood hcap
  have hlast := redistribute_last hash_fn (SplitInsert B hash_fn t key value).2.dir
    (KeyToPageId hash_fn key t.dir) t.bpm.next_page_id hne
    (HashTableBucketPage.pairs (t.buckets (KeyToPageId hash_fn key t.dir))) hgood.2 key value
    _ h1 h2 h3 h4
  rw [← redistribute_append, ← hb] at hlast
  obtain ⟨g1, g2, g3, g4, g5⟩ := hlast
  refine ⟨g1, g2, g3, g4, ?_⟩
  intro p hpo hpn
  rw [g5 p hpo hpn, h7 p hpo hpn]

end ExtendibleHashTable
namespace ExtendibleHashTable

theorem oneFullIndex_reachable : Reachable 1 id oneFullIndex :=
  Reachable.insert 0 0 (Reachable.fresh emptyPool)

/-- Witness for C29: `SplitInsert(1,0)` on `oneFullIndex` moves the stored pair
`(0,0)` to the new page 2 and keeps it readable there only. -/
theorem SplitInsert_keeps_drained_pairs_witness :
    (SplitInsert 1 id oneFullIndex 1 0).1 = true ∧
    KeyToPageId id 1 oneFullIndex.dir ≠ oneFullIndex.bpm.next_page_id ∧
    HashTableBucketPage.NumReadable (oneFullIndex.buckets (KeyToPageId id 1 oneFullIndex.dir))
      ≤ 1 ∧
    HashTableBucketPage.pairs (oneFullIndex.buckets (KeyToPageId id 1 oneFullIndex.dir)) =
      [(0, 0)] ∧
    ∀ kv ∈ HashTableBucketPage.pairs (oneFullIndex.buckets (KeyToPageId id 1 oneFullIndex.dir)),
      (kv ∈ HashTableBucketPage.pairs
          ((SplitInsert 1 id oneFullIndex 1 0).2.buckets (KeyToPageId id 1 oneFullIndex.dir)) ∧
        kv ∉ HashTableBucketPage.pairs
          ((SplitInsert 1 id oneFullIndex 1 0).2.buckets oneFullIndex.bpm.next_page_id)) ∨
      (kv ∉ HashTableBucketPage.pairs
          ((SplitInsert 1 id oneFullIndex 1 0).2.buckets (KeyToPageId id 1 oneFullIndex.dir)) ∧
        kv ∈ HashTableBucketPage.pairs
          ((SplitInsert 1 id oneFullIndex 1 0).2.buckets oneFullIndex.bpm.next_page_id)) :=
  ⟨by decide!, by decide!, by decide!, by decide!,
    (SplitInsert_keeps_drained_pairs 1 id oneFullIndex 1 0 (by decide!) (by decide!)
      (Reachable_good 1 id oneFullIndex oneFullIndex_reachable _) (by decide!)).1⟩

end ExtendibleHashTable
namespace ExtendibleHashTable

end ExtendibleHashTable

/-! ## Nested loop join -/

/-- The pairs of one element with a sequence, one pair at a time. -/
theorem product_one_cons {α β : Type} (l : α) (r : β) (rs : List β) :
    [l].product (r :: rs) = (l, r) :: [l].product rs := by
  simp [List.product]

/-- The pairs of a sequence with another, one left element at a time. -/
theorem product_cons_left {α β : Type} (l : α) (ls : List α) (rs : List β) :
    (l :: ls).product rs = [l].product rs ++ ls.product rs := by
  simp [List.product]

namespace NestedLoopJoinExecutor

section NestedLoopLemmas

variable {Value Tuple Schema : Type}

/-- The outputs of the first left tuple come before those of the others. -/
theorem joinResult_cons (plan : NestedLoopJoinPlanNode Value Tuple Schema) (l : Tuple)
    (ls right : List Tuple) :
    joinResult plan (l :: ls) right = joinResult plan [l] right ++ joinResult plan ls right := by
  unfold joinResult qualifyingPairs
  rw [product_cons_left, List.filter_append, List.map_append]

/-- No left tuple, no output. -/
theorem joinResult_nil (plan : NestedLoopJoinPlanNode Value Tuple Schema) (right : List Tuple) :
    joinResult plan [] right = [] := by
  unfold joinResult qualifyingPairs
  simp [List.product]

/-- No right tuple, no output. -/
theorem joinResult_one_nil (plan : NestedLoopJoinPlanNode Value Tuple Schema) (l : Tuple) :
    joinResult plan [l] [] = [] := by
  unfold joinResult qualifyingPairs
  simp [List.product]

/-- The outputs of one left tuple, one right tuple at a time. -/
theorem joinResult_one_cons (plan : NestedLoopJoinPlanNode Value Tuple Schema) (l r : Tuple)
    (rs : List Tuple) :
    joinResult plan [l] (r :: rs) =
      if skipped plan l r then joinResult plan [l] rs
      else outputOf plan l r :: joinResult plan [l] rs := by
  unfold joinResult qualifyingPairs skipped
  rw [product_one_cons]
  cases hp : plan.Predicate with
  | none => simp
  | some p =>
    by_cases h : p l plan.left_schema r plan.right_schema = true
    · simp [h]
    · simp [h]

/-- The inner loop produces the first output of the current left tuple
against what the right child has left. -/
theorem scanRight_spec (plan : NestedLoopJoinPlanNode Value Tuple Schema) (l : Tuple)
    (rs : List Tuple) :
    ((scanRight plan l rs).1 = none ∧ joinResult plan [l] rs = []) ∨
    ∃ out, (scanRight plan l rs).1 = some out ∧
      joinResult plan [l] rs = out :: joinResult plan [l] (scanRight plan l rs).2 := by
  induction rs with
  | nil =>
    left
    exact ⟨rfl, joinResult_one_nil plan l⟩
  | cons r rs ih =>
    unfold scanRight
    rw [joinResult_one_cons]
    by_cases h : skipped plan l r = true
    · rw [if_pos h, if_pos h]
      exact ih
    · rw [if_neg h, if_neg h]
      right
      exact ⟨_, rfl, rfl⟩

/-- The outer loop, entered with the right child at its start, produces the
first output of the left tuples that remain. -/
theorem scanLeft_spec (plan : NestedLoopJoinPlanNode Value Tuple Schema) (right : List Tuple)
    (ls : List Tuple) (s : NestedLoopJoinExecutor Tuple) (hs : s.right_executor_ = right) :
    ((scanLeft plan right s ls).1 = none ∧ joinResult plan ls right = []) ∨
    ∃ out, (scanLeft plan right s ls).1 = some out ∧
      (scanLeft plan right s ls).2.cur_left_available_ = true ∧
      joinResult plan ls right = out :: pending plan right (scanLeft plan right s ls).2 := by
  induction ls generalizing s with
  | nil =>
    left
    exact ⟨rfl, joinResult_nil plan right⟩
  | cons l ls ih =>
    rw [joinResult_cons]
    unfold scanLeft
    dsimp only
    rw [hs]
    rcases scanRight_spec plan l right with ⟨hnone, hnil⟩ | ⟨out, hsome, hcons⟩
    · have hsplit : scanRight plan l right = (none, (scanRight plan l right).2) := by
        rw [← hnone]
      rw [hsplit]
      dsimp only
      rw [hnil, List.nil_append]
      exact ih _ rfl
    · have hsplit : scanRight plan l right = (some out, (scanRight plan l right).2) := by
        rw [← hsome]
      rw [hsplit]
      dsimp only
      right
      refine ⟨out, rfl, rfl, ?_⟩
      rw [hcons]
      unfold pending
      dsimp only
      rw [if_pos rfl, List.cons_append]

/-- One call of `Next`: it returns false when nothing is pending, and
otherwise produces the first pending output and leaves the others pending. -/
theorem Next_spec (plan : NestedLoopJoinPlanNode Value Tuple Schema) (right : List Tuple)
    (s : NestedLoopJoinExecutor Tuple)
    (hs : s.cur_left_available_ = false → s.right_executor_ = right) :
    ((Next plan right s).1 = none ∧ pending plan right s = []) ∨
    ∃ out, (Next plan right s).1 = some out ∧
      (Next plan right s).2.cur_left_available_ = true ∧
      pending plan right s = out :: pending plan right (Next plan right s).2 := by
  unfold Next
  by_cases hcur : s.cur_left_available_ = true
  · rw [if_pos hcur]
    have hpend : pending plan right s =
        joinResult plan [s.left_tuple_] s.right_executor_ ++
          joinResult plan s.left_executor_ right := by
      unfold pending
      rw [if_pos hcur]
    rw [hpend]
    rcases scanRight_spec plan s.left_tuple_ s.right_executor_ with
      ⟨hnone, hnil⟩ | ⟨out, hsome, hcons⟩
    · have hsplit : scanRight plan s.left_tuple_ s.right_executor_ =
          (none, (scanRight plan s.left_tuple_ s.right_executor_).2) := by
        rw [← hnone]
      rw [hsplit]
      dsimp only
      rw [hnil, List.nil_append]
      exact scanLeft_spec plan right s.left_executor_ _ rfl
    · have hsplit : scanRight plan s.left_tuple_ s.right_executor_ =
          (some out, (scanRight plan s.left_tuple_ s.right_executor_).2) := by
        rw [← hsome]
      rw [hsplit]
      dsimp only
      right
      refine ⟨out, rfl, hcur, ?_⟩
      rw [hcons]
      unfold pending
      dsimp only
      rw [if_pos hcur, List.cons_append]
  · have hfalse : s.cur_left_available_ = false := by
      cases h : s.cur_left_available_
      · rfl
      · exact absurd h hcur
    rw [if_neg hcur]
    have hpend : pending plan right s = joinResult plan s.left_executor_ right := by
      unfold pending
      rw [if_neg hcur]
    rw [hpend]
    exact scanLeft_spec plan right s.left_executor_ s (hs hfalse)

/-- Calling `Next` until it returns false produces what is pending, within one
call more than there are pending outputs. -/
theorem NextAll_eq_pending (plan : NestedLoopJoinPlanNode Value Tuple Schema)
    (right : List Tuple) (fuel : Nat) (s : NestedLoopJoinExecutor Tuple)
    (hs : s.cur_left_available_ = false → s.right_executor_ = right)
    (hfuel : (pending plan right s).length < fuel) :
    NextAll plan right fuel s = some (pending plan right s) := by
  induction fuel generalizing s with
  | zero => omega
  | succ fuel ih =>
    unfold NextAll
    rcases Next_spec plan right s hs with ⟨hnone, hnil⟩ | ⟨out, hsome, hcur, hcons⟩
    · have hsplit : Next plan right s = (none, (Next plan right s).2) := by
        rw [← hnone]
      rw [hsplit, hnil]
    · have hsplit : Next plan right s = (some out, (Next plan right s).2) := by
        rw [← hsome]
      rw [hsplit]
      dsimp only
      have hlen : (pending plan right (Next plan right s).2).length < fuel := by
        rw [hcons, List.length_cons] at hfuel
        omega
      rw [ih _ (fun h => by rw [hcur] at h; exact absurd h (by decide)) hlen, hcons]
      rfl

/-- Claim C35.  For every plan (with or without a predicate), every state
the executor was in, and all left and right child output sequences, calling
`Next` after `Init` until it returns
false ends within one call more than there are qualifying pairs (and within
any larger number of calls), and the tuples produced are exactly the
projections of the qualifying pairs: for each left tuple in order and each
right tuple in order, the pair for which the predicate is absent or evaluates
to true; so each qualifying pair is produced once, at its place. -/
theorem NestedLoopJoin_produces_qualifying_pairs
    (plan : NestedLoopJoinPlanNode Value Tuple Schema) (s : NestedLoopJoinExecutor Tuple)
    (left right : List Tuple) (extra : Nat) :
    NextAll plan right ((qualifyingPairs plan left right).length + 1 + extra)
        (Init s left right) =
      some ((qualifyingPairs plan left right).map (fun p => outputOf plan p.1 p.2)) ∧
    qualifyingPairs plan left right =
      left.flatMap (fun l => (right.filter (fun r =>
        match plan.Predicate with
        | none => true
        | some predicate => predicate l plan.left_schema r plan.right_schema)).map
          (fun r => (l, r))) := by
  constructor
  · have hpend : pending plan right (Init s left right) = joinResult plan left right := rfl
    have h := NextAll_eq_pending plan right
      ((qualifyingPairs plan left right).length + 1 + extra) (Init s left right) (fun _ => rfl)
      (by
        rw [hpend]
        unfold joinResult
        rw [List.length_map]
        omega)
    rw [h, hpend]
    rfl
  · unfold qualifyingPairs
    induction left with
    | nil => simp [List.product]
    | cons l ls ih =>
      rw [product_cons_left, List.filter_append, ih, List.flatMap_cons]
      congr 1
      clear ih
      induction right with
      | nil => simp [List.product]
      | cons r rs ihr =>
        rw [product_one_cons, List.filter_cons, List.filter_cons]
        dsimp only
        split_ifs
        · rw [List.map_cons, ihr]
        · exact ihr

end NestedLoopLemmas

end NestedLoopJoinExecutor

/-! ## The abort exits of Merge -/

namespace ExtendibleHashTable

/-- Claim C31.  With `idx` the directory slot of `key`, `ld` its local depth
and `idx XOR (1 << (ld - 1))` the sibling slot: whenever `ld = 0`, or the
sibling slot has another local depth, or the bucket page of slot `idx` is not
empty, a `Merge` call returns without a nested call and leaves the directory
(global depth, local depths, bucket page ids), the directory page id, all
bucket pages and the allocation counter of the pool unchanged; all it does to
the pool is fetch the directory page (and, on the third exit, the bucket page)
and unpin what it fetched with `is_dirty = false`. -/
theorem Merge_abort_leaves_index_unchanged {K V : Type} [DecidableEq K] [DecidableEq V]
    (hash_fn : K → Nat) (fuel : Nat) (t : ExtendibleHashTable K V) (key : K) (value : V)
    (habort : t.dir.GetLocalDepth (KeyToDirectoryIndex hash_fn key t.dir) = 0 ∨
      t.dir.GetLocalDepth (KeyToDirectoryIndex hash_fn key t.dir ^^^
        shl32 1 (sub32 (t.dir.GetLocalDepth (KeyToDirectoryIndex hash_fn key t.dir)) 1)) ≠
        t.dir.GetLocalDepth (KeyToDirectoryIndex hash_fn key t.dir) ∨
      (t.buckets (t.dir.GetBucketPageId (KeyToDirectoryIndex hash_fn key t.dir))).IsEmpty
        = false) :
    ∃ t1, Merge hash_fn (fuel + 1) t key value = some t1 ∧
      t1.dir = t.dir ∧ t1.buckets = t.buckets ∧
      t1.directory_page_id = t.directory_page_id ∧
      t1.bpm.next_page_id = t.bpm.next_page_id ∧
      (t1.bpm.events = t.bpm.events ++
          [PoolEvent.FetchPage t.directory_page_id,
           PoolEvent.UnpinPage t.directory_page_id false] ∨
        t1.bpm.events = t.bpm.events ++
          [PoolEvent.FetchPage t.directory_page_id,
           PoolEvent.FetchPage
             (t.dir.GetBucketPageId (KeyToDirectoryIndex hash_fn key t.dir)),
           PoolEvent.UnpinPage t.directory_page_id false,
           PoolEvent.UnpinPage
             (t.dir.GetBucketPageId (KeyToDirectoryIndex hash_fn key t.dir)) false]) := by
  unfold Merge
  simp only []
  split
  · refine ⟨_, rfl, rfl, rfl, rfl, rfl, Or.inl ?_⟩
    simp [ExtendibleHashTable.UnpinPage, FetchDirectoryPage, BufferPoolManager.UnpinPage,
      BufferPoolManager.FetchPage]
  · rename_i hgo
    have hempty : (t.buckets (t.dir.GetBucketPageId
        (KeyToDirectoryIndex hash_fn key t.dir))).IsEmpty = false := by
      rcases habort with h | h | h
      · exact absurd (Or.inl h) hgo
      · exact absurd (Or.inr (fun heq => h heq.symm)) hgo
      · exact h
    rw [if_pos (by
      show (!(t.buckets (t.dir.GetBucketPageId
        (KeyToDirectoryIndex hash_fn key t.dir))).IsEmpty) = true
      rw [hempty]
      rfl)]
    refine ⟨_, rfl, rfl, rfl, rfl, rfl, Or.inr ?_⟩
    simp [ExtendibleHashTable.UnpinPage, FetchDirectoryPage, FetchBucketPage,
      BufferPoolManager.UnpinPage, BufferPoolManager.FetchPage]

/-- Claim C31 at `mergeReadyIndex` and key 0: the bucket page of slot 0 holds
the pair `(0,0)`, and `Merge` leaves the index as it is. -/
theorem Merge_abort_leaves_index_unchanged_witness :
    (mergeReadyIndex.buckets (mergeReadyIndex.dir.GetBucketPageId
        (KeyToDirectoryIndex id 0 mergeReadyIndex.dir))).IsEmpty = false ∧
    ∃ t1, Merge id 1 mergeReadyIndex 0 0 = some t1 ∧
      t1.dir = mergeReadyIndex.dir ∧ t1.buckets = mergeReadyIndex.buckets ∧
      t1.directory_page_id = mergeReadyIndex.directory_page_id ∧
      t1.bpm.next_page_id = mergeReadyIndex.bpm.next_page_id ∧
      (t1.bpm.events = mergeReadyIndex.bpm.events ++
          [PoolEvent.FetchPage mergeReadyIndex.directory_page_id,
           PoolEvent.UnpinPage mergeReadyIndex.directory_page_id false] ∨
        t1.bpm.events = mergeReadyIndex.bpm.events ++
          [PoolEvent.FetchPage mergeReadyIndex.directory_page_id,
           PoolEvent.FetchPage
             (mergeReadyIndex.dir.GetBucketPageId
               (KeyToDirectoryIndex id 0 mergeReadyIndex.dir)),
           PoolEvent.UnpinPage mergeReadyIndex.directory_page_id false,
           PoolEvent.UnpinPage
             (mergeReadyIndex.dir.GetBucketPageId
               (KeyToDirectoryIndex id 0 mergeReadyIndex.dir)) false]) :=
  ⟨by decide!,
   Merge_abort_leaves_index_unchanged id 0 mergeReadyIndex 0 0 (Or.inr (Or.inr (by decide!)))⟩

end ExtendibleHashTable

/-! ## Which pages are unpinned dirty -/

namespace ExtendibleHashTable

/-- The redistribution loop writes to the old and the new page only. -/
theorem redistribute_frame {K V : Type} [DecidableEq K] [DecidableEq V] (hash_fn : K → Nat)
    (dir : HashTableDirectoryPage) (old_page_id new_page_id : Nat) (p : Nat)
    (hold : p ≠ old_page_id) (hnew : p ≠ new_page_id) :
    ∀ (kvs : List (K × V)) (pages : Nat → HashTableBucketPage K V),
      redistribute hash_fn dir old_page_id new_page_id kvs pages p = pages p := by
  intro kvs
  induction kvs with
  | nil => intro pages; rfl
  | cons kv rest ih =>
    intro pages
    obtain ⟨k, v⟩ := kv
    unfold redistribute
    simp only []
    split
    · rw [ih, Function.update_noteq hnew]
    · rw [ih, Function.update_noteq hold]

/-- The first abort exit of `Merge`: local depth 0, or a sibling slot of
another local depth. -/
theorem Merge_depth_abort {K V : Type} [DecidableEq K] [DecidableEq V]
    (hash_fn : K → Nat) (fuel : Nat) (t : ExtendibleHashTable K V) (key : K) (value : V)
    (h : t.dir.GetLocalDepth (KeyToDirectoryIndex hash_fn key t.dir) = 0 ∨
      t.dir.GetLocalDepth (KeyToDirectoryIndex hash_fn key t.dir) ≠
        t.dir.GetLocalDepth (KeyToDirectoryIndex hash_fn key t.dir ^^^
          shl32 1 (sub32 (t.dir.GetLocalDepth (KeyToDirectoryIndex hash_fn key t.dir)) 1))) :
    Merge hash_fn (fuel + 1) t key value =
      some (t.FetchDirectoryPage.UnpinPage t.directory_page_id false) := by
  unfold Merge
  simp only []
  rw [if_pos]
  · rfl
  · exact h

/-- The calls of a step that appended `es` to the calls before. -/
theorem callsOf_of_events {K V : Type} (t t1 : ExtendibleHashTable K V) (es : List PoolEvent)
    (h : t1.bpm.events = t.bpm.events ++ es) : callsOf t t1 = es := by
  unfold callsOf
  rw [h, List.drop_left]

/-- The pool calls of a `Merge` call, and its dirty unpin of the directory
page on every path that changes the directory. -/
theorem Merge_dirty {K V : Type} [DecidableEq K] [DecidableEq V] (hash_fn : K → Nat) :
    ∀ (fuel : Nat) (t t1 : ExtendibleHashTable K V) (key : K) (value : V),
      Merge hash_fn fuel t key value = some t1 →
      t1.bpm.events = t.bpm.events ++ callsOf t t1 ∧
        (PoolEvent.UnpinPage t.directory_page_id true ∉ callsOf t t1 → t1.dir = t.dir) := by
  intro fuel
  induction fuel with
  | zero => intro t t1 key value h; simp [Merge] at h
  | succ n ih =>
    intro t t1 key value h
    unfold Merge at h
    simp only [] at h
    split at h
    · rw [← Option.some.inj h]
      refine ⟨?_, fun _ => rfl⟩
      simp [callsOf, ExtendibleHashTable.UnpinPage, FetchDirectoryPage,
        BufferPoolManager.UnpinPage, BufferPoolManager.FetchPage]
    · split at h
      · rw [← Option.some.inj h]
        refine ⟨?_, fun _ => rfl⟩
        simp [callsOf, ExtendibleHashTable.UnpinPage, FetchDirectoryPage, FetchBucketPage,
          BufferPoolManager.UnpinPage, BufferPoolManager.FetchPage]
      · split at h
        · obtain ⟨he, _⟩ := ih _ _ _ _ h
          have hall : t1.bpm.events = t.bpm.events ++
              ([PoolEvent.FetchPage t.directory_page_id,
                PoolEvent.FetchPage (t.dir.GetBucketPageId (KeyToDirectoryIndex hash_fn key t.dir)),
                PoolEvent.UnpinPage
                  (t.dir.GetBucketPageId (KeyToDirectoryIndex hash_fn key t.dir)) false,
                PoolEvent.UnpinPage t.directory_page_id true] ++
               t1.bpm.events.drop (t.bpm.events.length + 4)) := by
            rw [he]
            simp [callsOf, ExtendibleHashTable.UnpinPage, FetchDirectoryPage, FetchBucketPage,
              BufferPoolManager.UnpinPage, BufferPoolManager.FetchPage]
          have hc := callsOf_of_events t t1 _ hall
          refine ⟨?_, ?_⟩
          · rw [hc]
            exact hall
          · intro hnot
            rw [hc] at hnot
            exact absurd (by simp) hnot
        · rw [← Option.some.inj h]
          refine ⟨?_, ?_⟩
          · simp [callsOf, ExtendibleHashTable.UnpinPage, FetchDirectoryPage, FetchBucketPage,
              BufferPoolManager.UnpinPage, BufferPoolManager.FetchPage]
          · intro hnot
            exact absurd (by
              simp [callsOf, ExtendibleHashTable.UnpinPage, FetchDirectoryPage, FetchBucketPage,
                BufferPoolManager.UnpinPage, BufferPoolManager.FetchPage]) hnot

/-- `GetValue` changes no page and passes `is_dirty = false` throughout. -/
theorem GetValue_dirty {K V : Type} [DecidableEq K] [DecidableEq V] (hash_fn : K → Nat)
    (t : ExtendibleHashTable K V) (key : K) (result : List V) :
    ChangedPagesUnpinnedDirty t (GetValue hash_fn t key result).2.2 := by
  refine ⟨?_, fun _ => rfl, fun _ _ => rfl⟩
  simp [callsOf, GetValue, ExtendibleHashTable.UnpinPage, FetchDirectoryPage, FetchBucketPage,
    BufferPoolManager.UnpinPage, BufferPoolManager.FetchPage]

/-- The pool calls of a `SplitInsert` call, its dirty unpin of the directory
page when it returns true, and its dirty unpins of the bucket pages it wrote
to. -/
theorem SplitInsert_dirty_buckets {K V : Type} [DecidableEq K] [DecidableEq V]
    [Inhabited K] [Inhabited V] (B : Nat) (hash_fn : K → Nat)
    (t : ExtendibleHashTable K V) (key : K) (value : V) :
    (SplitInsert B hash_fn t key value).2.bpm.events =
      t.bpm.events ++ callsOf t (SplitInsert B hash_fn t key value).2 ∧
    ((SplitInsert B hash_fn t key value).1 = true →
      PoolEvent.UnpinPage t.directory_page_id true ∈
        callsOf t (SplitInsert B hash_fn t key value).2) ∧
    ((SplitInsert B hash_fn t key value).1 = false →
      (SplitInsert B hash_fn t key value).2.dir =
        (splitDepthTransform t.dir (KeyToDirectoryIndex hash_fn key t.dir)).1) ∧
    ∀ p, PoolEvent.UnpinPage p true ∉ callsOf t (SplitInsert B hash_fn t key value).2 →
      (SplitInsert B hash_fn t key value).2.buckets p = t.buckets p := by
  unfold SplitInsert
  simp only []
  split
  · refine ⟨?_, ?_, fun _ => rfl, fun _ _ => rfl⟩
    · simp [callsOf, ExtendibleHashTable.UnpinPage, FetchDirectoryPage, FetchBucketPage,
        BufferPoolManager.UnpinPage, BufferPoolManager.FetchPage]
    · intro h
      cases h
  · refine ⟨?_, ?_, ?_, ?_⟩
    · simp [callsOf, ExtendibleHashTable.UnpinPage, FetchDirectoryPage, FetchBucketPage,
        BufferPoolManager.UnpinPage, BufferPoolManager.FetchPage, BufferPoolManager.NewPage]
    · intro _
      simp [callsOf, ExtendibleHashTable.UnpinPage, FetchDirectoryPage, FetchBucketPage,
        BufferPoolManager.UnpinPage, BufferPoolManager.FetchPage, BufferPoolManager.NewPage]
    · intro h
      cases h
    · intro p hp
      have hold : p ≠ t.dir.GetBucketPageId (KeyToDirectoryIndex hash_fn key t.dir) := by
        intro heq
        apply hp
        rw [heq]
        simp [callsOf, ExtendibleHashTable.UnpinPage, FetchDirectoryPage, FetchBucketPage,
          BufferPoolManager.UnpinPage, BufferPoolManager.FetchPage, BufferPoolManager.NewPage]
      have hnew : p ≠ t.bpm.next_page_id := by
        intro heq
        apply hp
        rw [heq]
        simp [callsOf, ExtendibleHashTable.UnpinPage, FetchDirectoryPage, FetchBucketPage,
          BufferPoolManager.UnpinPage, BufferPoolManager.FetchPage, BufferPoolManager.NewPage]
      simp only [ExtendibleHashTable.UnpinPage, FetchDirectoryPage, FetchBucketPage,
        BufferPoolManager.FetchPage, BufferPoolManager.NewPage]
      rw [redistribute_frame hash_fn _ _ _ p hold hnew]
      rw [Function.update_noteq hold, Function.update_noteq hnew]

/-- `SplitInsert` unpins dirty every page it changes (local depths being `u8`
values). -/
theorem SplitInsert_dirty {K V : Type} [DecidableEq K] [DecidableEq V]
    [Inhabited K] [Inhabited V] (B : Nat) (hash_fn : K → Nat)
    (t : ExtendibleHashTable K V) (key : K) (value : V)
    (hld : ∀ j, t.dir.local_depths j < 256) :
    ChangedPagesUnpinnedDirty t (SplitInsert B hash_fn t key value).2 := by
  obtain ⟨hev, htrue, hfalse, hb⟩ := SplitInsert_dirty_buckets B hash_fn t key value
  refine ⟨hev, ?_, hb⟩
  intro hnot
  cases hflag : (SplitInsert B hash_fn t key value).1
  · rw [hfalse hflag]
    exact splitDepthTransform_rollback t.dir _ (hld _)
      ((SplitInsert_false_iff B hash_fn t key value).mp hflag)
  · exact absurd (htrue hflag) hnot

/-- `Insert` unpins dirty every page it changes. -/
theorem Insert_dirty {K V : Type} [DecidableEq K] [DecidableEq V]
    [Inhabited K] [Inhabited V] (B : Nat) (hash_fn : K → Nat)
    (t : ExtendibleHashTable K V) (key : K) (value : V) :
    ChangedPagesUnpinnedDirty t (Insert B hash_fn t key value).2 := by
  unfold Insert
  simp only []
  split
  · refine ⟨?_, fun _ => rfl, ?_⟩
    · simp [callsOf, ExtendibleHashTable.UnpinPage, FetchDirectoryPage, FetchBucketPage,
        BufferPoolManager.UnpinPage, BufferPoolManager.FetchPage]
    · intro p hp
      have hne : p ≠ t.dir.GetBucketPageId (KeyToDirectoryIndex hash_fn key t.dir) := by
        intro heq
        apply hp
        rw [heq]
        simp [callsOf, ExtendibleHashTable.UnpinPage, FetchDirectoryPage, FetchBucketPage,
          BufferPoolManager.UnpinPage, BufferPoolManager.FetchPage]
      simp only [ExtendibleHashTable.UnpinPage, FetchDirectoryPage, FetchBucketPage]
      exact Function.update_noteq hne _ _
  · split
    · obtain ⟨hev, _, _, hb⟩ := SplitInsert_dirty_buckets B hash_fn
        (t.FetchDirectoryPage.FetchBucketPage
          (t.FetchDirectoryPage.dir.GetBucketPageId
            (KeyToDirectoryIndex hash_fn key t.FetchDirectoryPage.dir))) key value
      have hid := (SplitInsert_pins B hash_fn
        (t.FetchDirectoryPage.FetchBucketPage
          (t.FetchDirectoryPage.dir.GetBucketPageId
            (KeyToDirectoryIndex hash_fn key t.FetchDirectoryPage.dir))) key value 0).2.2.1
      have hall : ((((SplitInsert B hash_fn
          (t.FetchDirectoryPage.FetchBucketPage
            (t.FetchDirectoryPage.dir.GetBucketPageId
              (KeyToDirectoryIndex hash_fn key t.FetchDirectoryPage.dir))) key value).2.UnpinPage
          (SplitInsert B hash_fn
            (t.FetchDirectoryPage.FetchBucketPage
              (t.FetchDirectoryPage.dir.GetBucketPageId
                (KeyToDirectoryIndex hash_fn key t.FetchDirectoryPage.dir))) key
            value).2.directory_page_id true).UnpinPage
          (t.FetchDirectoryPage.dir.GetBucketPageId
            (KeyToDirectoryIndex hash_fn key t.FetchDirectoryPage.dir)) true)).bpm.events =
          t.bpm.events ++
            ([PoolEvent.FetchPage t.directory_page_id,
              PoolEvent.FetchPage (t.dir.GetBucketPageId (KeyToDirectoryIndex hash_fn key t.dir))] ++
             callsOf (t.FetchDirectoryPage.FetchBucketPage
                (t.FetchDirectoryPage.dir.GetBucketPageId
                  (KeyToDirectoryIndex hash_fn key t.FetchDirectoryPage.dir)))
              (SplitInsert B hash_fn
                (t.FetchDirectoryPage.FetchBucketPage
                  (t.FetchDirectoryPage.dir.GetBucketPageId
                    (KeyToDirectoryIndex hash_fn key t.FetchDirectoryPage.dir))) key value).2 ++
             [PoolEvent.UnpinPage t.directory_page_id true,
              PoolEvent.UnpinPage
                (t.dir.GetBucketPageId (KeyToDirectoryIndex hash_fn key t.dir)) true]) := by
        rw [hid]
        show ((SplitInsert B hash_fn _ key value).2.bpm.events ++ _) ++ _ = _
        rw [hev]
        simp [FetchDirectoryPage, FetchBucketPage, BufferPoolManager.FetchPage]
      have hc := callsOf_of_events t _ _ hall
      refine ⟨?_, ?_, ?_⟩
      · rw [hc]
        exact hall
      · intro hnot
        rw [hc] at hnot
        exact absurd (by simp) hnot
      · intro p hp
        rw [hc] at hp
        have hp2 : PoolEvent.UnpinPage p true ∉ callsOf (t.FetchDirectoryPage.FetchBucketPage
            (t.FetchDirectoryPage.dir.GetBucketPageId
              (KeyToDirectoryIndex hash_fn key t.FetchDirectoryPage.dir)))
            (SplitInsert B hash_fn
              (t.FetchDirectoryPage.FetchBucketPage
                (t.FetchDirectoryPage.dir.GetBucketPageId
                  (KeyToDirectoryIndex hash_fn key t.FetchDirectoryPage.dir))) key value).2 := by
          intro hin
          apply hp
          simp [hin]
        exact hb p hp2
    · refine ⟨?_, fun _ => rfl, fun _ _ => rfl⟩
      simp [callsOf, ExtendibleHashTable.UnpinPage, FetchDirectoryPage, FetchBucketPage,
        BufferPoolManager.UnpinPage, BufferPoolManager.FetchPage]

/-- `Remove` unpins dirty every page it changes. -/
theorem Remove_dirty {K V : Type} [DecidableEq K] [DecidableEq V] (hash_fn : K → Nat)
    (fuel : Nat) (t : ExtendibleHashTable K V) (key : K) (value : V)
    (r : Bool × ExtendibleHashTable K V) (hr : Remove hash_fn fuel t key value = some r) :
    ChangedPagesUnpinnedDirty t r.2 := by
  unfold Remove at hr
  simp only [] at hr
  split at hr
  · rw [← Option.some.inj hr]
    refine ⟨?_, fun _ => rfl, fun _ _ => rfl⟩
    simp [callsOf, ExtendibleHashTable.UnpinPage, FetchDirectoryPage, FetchBucketPage,
      BufferPoolManager.UnpinPage, BufferPoolManager.FetchPage]
  · split at hr
    · split at hr
      · exact Option.noConfusion hr
      · rename_i t2 hm
        obtain ⟨hev, _⟩ := Merge_dirty hash_fn _ _ t2 _ _ hm
        have hb := Merge_buckets hash_fn _ _ t2 _ _ hm
        have hid := (Merge_pins hash_fn 0 _ _ t2 _ _ hm).2.2.1
        rw [← Option.some.inj hr]
        have hall : ((t2.UnpinPage t2.directory_page_id true).UnpinPage
            (t.FetchDirectoryPage.dir.GetBucketPageId
              (KeyToDirectoryIndex hash_fn key t.FetchDirectoryPage.dir)) true).bpm.events =
            t.bpm.events ++
              ([PoolEvent.FetchPage t.directory_page_id,
                PoolEvent.FetchPage
                  (t.dir.GetBucketPageId (KeyToDirectoryIndex hash_fn key t.dir))] ++
               t2.bpm.events.drop (t.bpm.events.length + 2) ++
               [PoolEvent.UnpinPage t.directory_page_id true,
                PoolEvent.UnpinPage
                  (t.dir.GetBucketPageId (KeyToDirectoryIndex hash_fn key t.dir)) true]) := by
          rw [hid]
          show (t2.bpm.events ++ _) ++ _ = _
          rw [hev]
          simp [callsOf, FetchDirectoryPage, FetchBucketPage, BufferPoolManager.FetchPage]
        have hc := callsOf_of_events t _ _ hall
        refine ⟨?_, ?_, ?_⟩
        · rw [hc]
          exact hall
        · intro hnot
          rw [hc] at hnot
          exact absurd (by simp) hnot
        · intro p hp
          rw [hc] at hp
          have hne : p ≠ t.dir.GetBucketPageId (KeyToDirectoryIndex hash_fn key t.dir) := by
            intro heq
            apply hp
            rw [heq]
            simp
          show t2.buckets p = t.buckets p
          rw [hb]
          exact Function.update_noteq hne _ _
    · rw [← Option.some.inj hr]
      refine ⟨?_, fun _ => rfl, ?_⟩
      · simp [callsOf, ExtendibleHashTable.UnpinPage, FetchDirectoryPage, FetchBucketPage,
          BufferPoolManager.UnpinPage, BufferPoolManager.FetchPage]
      · intro p hp
        have hne : p ≠ t.dir.GetBucketPageId (KeyToDirectoryIndex hash_fn key t.dir) := by
          intro heq
          apply hp
          rw [heq]
          simp [callsOf, ExtendibleHashTable.UnpinPage, FetchDirectoryPage, FetchBucketPage,
            BufferPoolManager.UnpinPage, BufferPoolManager.FetchPage]
        simp only [ExtendibleHashTable.UnpinPage, FetchDirectoryPage, FetchBucketPage]
        exact Function.update_noteq hne _ _

/-- A `Remove` call whose `Merge` call, if any, leaves by the first abort
exit returns the directory as it was. -/
theorem Remove_dir_of_depth_abort {K V : Type} [DecidableEq K] [DecidableEq V]
    (hash_fn : K → Nat) (fuel : Nat) (t : ExtendibleHashTable K V) (key : K) (value : V)
    (r : Bool × ExtendibleHashTable K V)
    (h : t.dir.GetLocalDepth (KeyToDirectoryIndex hash_fn key t.dir) = 0 ∨
      t.dir.GetLocalDepth (KeyToDirectoryIndex hash_fn key t.dir) ≠
        t.dir.GetLocalDepth (KeyToDirectoryIndex hash_fn key t.dir ^^^
          shl32 1 (sub32 (t.dir.GetLocalDepth (KeyToDirectoryIndex hash_fn key t.dir)) 1)))
    (hr : Remove hash_fn fuel t key value = some r) : r.2.dir = t.dir := by
  unfold Remove at hr
  simp only [] at hr
  split at hr
  · rw [← Option.some.inj hr]
    rfl
  · split at hr
    · split at hr
      · exact Option.noConfusion hr
      · rename_i t2 hm
        rw [← Option.some.inj hr]
        show t2.dir = t.dir
        cases fuel with
        | zero => simp [Merge] at hm
        | succ n =>
          rw [Merge_depth_abort] at hm
          · rw [← Option.some.inj hm]
            rfl
          · exact h
    · rw [← Option.some.inj hr]
      rfl

/-- The index after `Insert(0,0)` and `Insert(1,0)` is reachable. -/
theorem splitOnceIndex_reachable : Reachable 1 id splitOnceIndex :=
  Reachable.insert 1 0 oneFullIndex_reachable

/-- Claim C33, counterexample.  Take the index of bucket capacity 1 whose
directory of global depth 2 holds page 1 in slot 0 and page 3 in slot 2 at
local depth 2, and page 2 in slots 1 and 3 at local depth 1, page 2 holding
`(1,0)` only; the directory keeps the depth and the pointer-count invariant.
`Remove(1,0)` returns true and the pool receives, in this order: the fetch of
the directory page 0 and of the bucket page 2 by `Remove`, the fetch and the
clean unpin of the directory page by `Merge`, which leaves by its first abort
exit (the sibling slot 0 has local depth 2, not 1), and then the unpin of the
directory page with `is_dirty = true` and of the bucket page with
`is_dirty = true` by `Remove`; yet the directory after the call is the
directory before it.  So `Remove` passes `is_dirty = true` for a page nobody
mutated between its fetch and its unpin.  The same happens on the index that
`Insert(0,0)` and `Insert(1,0)` leave from a fresh index of capacity 1. -/
theorem Remove_unpins_unchanged_directory_dirty :
    (unevenDepthIndex.dir.DepthInvariant ∧ unevenDepthIndex.dir.PointerCountInvariant ∧
      unevenDepthIndex.directory_page_id = 0 ∧
      (Remove id 2 unevenDepthIndex 1 0).map (fun r => (r.1, callsOf unevenDepthIndex r.2)) =
        some (true,
          [PoolEvent.FetchPage 0, PoolEvent.FetchPage 2, PoolEvent.FetchPage 0,
           PoolEvent.UnpinPage 0 false, PoolEvent.UnpinPage 0 true,
           PoolEvent.UnpinPage 2 true]) ∧
      ∀ r, Remove id 2 unevenDepthIndex 1 0 = some r → r.2.dir = unevenDepthIndex.dir) ∧
    (splitOnceIndex.directory_page_id = 0 ∧
      (Remove id 2 splitOnceIndex 1 0).map (fun r => (r.1, callsOf splitOnceIndex r.2)) =
        some (true,
          [PoolEvent.FetchPage 0, PoolEvent.FetchPage 1, PoolEvent.FetchPage 0,
           PoolEvent.UnpinPage 0 false, PoolEvent.UnpinPage 0 true,
           PoolEvent.UnpinPage 1 true]) ∧
      ∀ r, Remove id 2 splitOnceIndex 1 0 = some r → r.2.dir = splitOnceIndex.dir) :=
  ⟨⟨by decide!, by decide!, rfl, by decide!,
    fun r hr => Remove_dir_of_depth_abort id 2 unevenDepthIndex 1 0 r (Or.inr (by decide!)) hr⟩,
   ⟨by decide!, by decide!,
    fun r hr => Remove_dir_of_depth_abort id 2 splitOnceIndex 1 0 r (Or.inr (by decide!)) hr⟩⟩

/-- Claim C33, as amended.  Every page whose content a call of `GetValue`,
`Insert`, `SplitInsert`, `Remove` or `Merge` changes is unpinned by that call
with `is_dirty = true`: if the calls a call makes on the pool hold no dirty
unpin of the directory page, the directory is as before the call, and if they
hold no dirty unpin of a bucket page, that bucket page is as before the call
(local depths being `u8` values, which the failure exit of `SplitInsert`
needs).  The constructor allocates the directory page and the first bucket
page, unpins the directory page, which it wrote, dirty, and the bucket page,
which it did not write, clean.  Nothing is said on whether a page that is
unpinned dirty has changed. -/
theorem changed_pages_are_unpinned_dirty {K V : Type} [DecidableEq K] [DecidableEq V]
    [Inhabited K] [Inhabited V] (B : Nat) (hash_fn : K → Nat) (fuel : Nat)
    (t : ExtendibleHashTable K V) (key : K) (value : V) (result : List V)
    (bpm : BufferPoolManager)
    (hld : ∀ j, t.dir.local_depths j < 256) :
    ChangedPagesUnpinnedDirty t (GetValue hash_fn t key result).2.2 ∧
    ChangedPagesUnpinnedDirty t (Insert B hash_fn t key value).2 ∧
    ChangedPagesUnpinnedDirty t (SplitInsert B hash_fn t key value).2 ∧
    (∀ r, Remove hash_fn fuel t key value = some r → ChangedPagesUnpinnedDirty t r.2) ∧
    (∀ t1, Merge hash_fn fuel t key value = some t1 → ChangedPagesUnpinnedDirty t t1) ∧
    (ctor B bpm (fun _ => (HashTableBucketPage.fresh B : HashTableBucketPage K V))).bpm.events =
      bpm.events ++
        [PoolEvent.NewPage bpm.next_page_id, PoolEvent.NewPage (bpm.next_page_id + 1),
         PoolEvent.UnpinPage bpm.next_page_id true,
         PoolEvent.UnpinPage (bpm.next_page_id + 1) false] ∧
    (ctor B bpm (fun _ => (HashTableBucketPage.fresh B : HashTableBucketPage K V))).buckets =
      fun _ => HashTableBucketPage.fresh B := by
  refine ⟨GetValue_dirty hash_fn t key result, Insert_dirty B hash_fn t key value,
    SplitInsert_dirty B hash_fn t key value hld,
    fun r hr => Remove_dirty hash_fn fuel t key value r hr, ?_, ?_, ?_⟩
  · intro t1 hm
    obtain ⟨hev, hdir⟩ := Merge_dirty hash_fn fuel t t1 key value hm
    refine ⟨hev, hdir, ?_⟩
    intro p _
    rw [Merge_buckets hash_fn fuel t t1 key value hm]
  · simp [ctor, BufferPoolManager.UnpinPage, BufferPoolManager.NewPage]
  · funext p
    simp only [ctor]
    by_cases hp : p = bpm.NewPage.2.NewPage.1
    · rw [hp, Function.update_same]
    · rw [Function.update_noteq hp]

/-- Claim C33 as amended, at the index that holds `(0,0)` and `(1,0)`: the
local depths are below 256, `Remove(1,0)` and `SplitInsert(3,0)` unpin dirty
every page they change. -/
theorem changed_pages_are_unpinned_dirty_witness :
    (∀ j, splitOnceIndex.dir.local_depths j < 256) ∧
    ChangedPagesUnpinnedDirty splitOnceIndex (SplitInsert 1 id splitOnceIndex 3 0).2 ∧
    (∀ r, Remove id 2 splitOnceIndex 1 0 = some r →
      ChangedPagesUnpinnedDirty splitOnceIndex r.2) :=
  ⟨fun j => lt_of_le_of_lt
      ((Reachable_DirSmall 1 id splitOnceIndex splitOnceIndex_reachable).2.2 j) (by decide),
   (changed_pages_are_unpinned_dirty 1 id 2 splitOnceIndex 1 0 [] emptyPool
      (fun j => lt_of_le_of_lt
        ((Reachable_DirSmall 1 id splitOnceIndex splitOnceIndex_reachable).2.2 j)
        (by decide))).2.2.1,
   fun r hr => (changed_pages_are_unpinned_dirty 1 id 2 splitOnceIndex 1 0 [] emptyPool
      (fun j => lt_of_le_of_lt
        ((Reachable_DirSmall 1 id splitOnceIndex splitOnceIndex_reachable).2.2 j)
        (by decide))).2.2.2.1 r hr⟩

end ExtendibleHashTable

/-! ## Page faults -/

namespace ExtendibleHashTable

/-- On a pool that yields the page, `FetchDirectoryPageF` is
`FetchDirectoryPage`. -/
theorem FetchDirectoryPageF_ok {K V : Type} (f : PoolFaults) (t : ExtendibleHashTable K V)
    (h : f.fetchable t.bpm t.directory_page_id = true) :
    t.FetchDirectoryPageF f = some t.FetchDirectoryPage := by
  simp [FetchDirectoryPageF, BufferPoolManager.FetchPageF, h, FetchDirectoryPage]

/-- On a pool that yields the page, `FetchBucketPageF` is `FetchBucketPage`. -/
theorem FetchBucketPageF_ok {K V : Type} (f : PoolFaults) (t : ExtendibleHashTable K V)
    (p : Nat) (h : f.fetchable t.bpm p = true) :
    t.FetchBucketPageF f p = some (t.FetchBucketPage p) := by
  simp [FetchBucketPageF, BufferPoolManager.FetchPageF, h, FetchBucketPage]

/-- On a pool that does not yield the page, `FetchDirectoryPageF` returns
`nullptr`. -/
theorem FetchDirectoryPageF_null {K V : Type} (f : PoolFaults) (t : ExtendibleHashTable K V)
    (h : f.fetchable t.bpm t.directory_page_id = false) :
    t.FetchDirectoryPageF f = none := by
  simp [FetchDirectoryPageF, BufferPoolManager.FetchPageF, h]

/-- On a pool that does not yield the page, `FetchBucketPageF` returns
`nullptr`. -/
theorem FetchBucketPageF_null {K V : Type} (f : PoolFaults) (t : ExtendibleHashTable K V)
    (p : Nat) (h : f.fetchable t.bpm p = false) :
    t.FetchBucketPageF f p = none := by
  simp [FetchBucketPageF, BufferPoolManager.FetchPageF, h]

/-- On a pool that yields every page, `GetValueF` is `GetValue`. -/
theorem GetValueF_noFaults {K V : Type} [DecidableEq K] [DecidableEq V] (f : PoolFaults)
    (hash_fn : K → Nat) (t : ExtendibleHashTable K V) (key : K) (result : List V)
    (hfetch : ∀ b p, f.fetchable b p = true) :
    GetValueF f hash_fn t key result = Except.ok (GetValue hash_fn t key result) := by
  unfold GetValueF
  rw [FetchDirectoryPageF_ok f t (hfetch _ _)]
  simp only []
  rw [FetchBucketPageF_ok f _ _ (hfetch _ _)]
  rfl

/-- On a pool that yields every page, `SplitInsertF` is `SplitInsert`. -/
theorem SplitInsertF_noFaults {K V : Type} [DecidableEq K] [DecidableEq V]
    [Inhabited K] [Inhabited V] (f : PoolFaults) (B : Nat)
    (hash_fn : K → Nat) (t : ExtendibleHashTable K V) (key : K) (value : V)
    (hfetch : ∀ b p, f.fetchable b p = true) (halloc : ∀ b, f.allocatable b = true) :
    SplitInsertF f B hash_fn t key value = Except.ok (SplitInsert B hash_fn t key value) := by
  unfold SplitInsertF SplitInsert
  rw [FetchDirectoryPageF_ok f t (hfetch _ _)]
  simp only []
  rw [FetchBucketPageF_ok f _ _ (hfetch _ _)]
  simp only [Option.getD_some, Option.isNone_some, Bool.false_eq_true, if_false]
  split
  · rfl
  · simp only [BufferPoolManager.NewPageF, halloc, if_true]

/-- On a pool that yields every page, `InsertF` is `Insert`. -/
theorem InsertF_noFaults {K V : Type} [DecidableEq K] [DecidableEq V]
    [Inhabited K] [Inhabited V] (f : PoolFaults) (B : Nat)
    (hash_fn : K → Nat) (t : ExtendibleHashTable K V) (key : K) (value : V)
    (hfetch : ∀ b p, f.fetchable b p = true) (halloc : ∀ b, f.allocatable b = true) :
    InsertF f B hash_fn t key value = Except.ok (Insert B hash_fn t key value) := by
  unfold InsertF Insert
  rw [FetchDirectoryPageF_ok f t (hfetch _ _)]
  simp only []
  rw [FetchBucketPageF_ok f _ _ (hfetch _ _)]
  simp only []
  split
  · rfl
  · split
    · rw [SplitInsertF_noFaults f B hash_fn _ key value hfetch halloc]
    · rfl

/-- On a pool that yields every page, `MergeF` is `Merge`. -/
theorem MergeF_noFaults {K V : Type} [DecidableEq K] [DecidableEq V] (f : PoolFaults)
    (hash_fn : K → Nat) (hfetch : ∀ b p, f.fetchable b p = true) :
    ∀ (fuel : Nat) (t : ExtendibleHashTable K V) (key : K) (value : V),
      MergeF f hash_fn fuel t key value = (Merge hash_fn fuel t key value).map Except.ok := by
  intro fuel
  induction fuel with
  | zero => intro t key value; rfl
  | succ n ih =>
    intro t key value
    unfold MergeF Merge
    rw [FetchDirectoryPageF_ok f t (hfetch _ _)]
    simp only []
    split
    · rfl
    · rw [FetchBucketPageF_ok f _ _ (hfetch _ _)]
      simp only []
      split
      · rfl
      · rw [FetchBucketPageF_ok f _ _ (hfetch _ _)]
        simp only []
        split
        · exact ih _ _ _
        · rfl

/-- On a pool that yields every page, `RemoveF` is `Remove`. -/
theorem RemoveF_noFaults {K V : Type} [DecidableEq K] [DecidableEq V] (f : PoolFaults)
    (hash_fn : K → Nat) (fuel : Nat) (t : ExtendibleHashTable K V) (key : K) (value : V)
    (hfetch : ∀ b p, f.fetchable b p = true) :
    RemoveF f hash_fn fuel t key value = (Remove hash_fn fuel t key value).map Except.ok := by
  unfold RemoveF Remove
  rw [FetchDirectoryPageF_ok f t (hfetch _ _)]
  simp only []
  rw [FetchBucketPageF_ok f _ _ (hfetch _ _)]
  simp only []
  split
  · rfl
  · split
    · rw [MergeF_noFaults f hash_fn hfetch]
      cases Merge hash_fn fuel _ key value <;> rfl
    · rfl

/-- A directory pointer that is not null comes from a fetch. -/
theorem FetchDirectoryPageF_some {K V : Type} (f : PoolFaults) (t t1 : ExtendibleHashTable K V)
    (h : t.FetchDirectoryPageF f = some t1) : t1 = t.FetchDirectoryPage := by
  unfold FetchDirectoryPageF BufferPoolManager.FetchPageF at h
  by_cases hf : f.fetchable t.bpm t.directory_page_id = true
  · rw [if_pos hf] at h
    exact (Option.some.inj h).symm
  · rw [if_neg hf] at h
    cases h

/-- A bucket pointer that is not null comes from a fetch. -/
theorem FetchBucketPageF_some {K V : Type} (f : PoolFaults) (t t1 : ExtendibleHashTable K V)
    (p : Nat) (h : t.FetchBucketPageF f p = some t1) : t1 = t.FetchBucketPage p := by
  unfold FetchBucketPageF BufferPoolManager.FetchPageF at h
  by_cases hf : f.fetchable t.bpm p = true
  · rw [if_pos hf] at h
    exact (Option.some.inj h).symm
  · rw [if_neg hf] at h
    cases h

/-- A `GetValueF` call that returns is the `GetValue` call. -/
theorem GetValueF_ok {K V : Type} [DecidableEq K] [DecidableEq V] (f : PoolFaults)
    (hash_fn : K → Nat) (t : ExtendibleHashTable K V) (key : K) (result : List V)
    (r : Bool × List V × ExtendibleHashTable K V)
    (h : GetValueF f hash_fn t key result = Except.ok r) :
    r = GetValue hash_fn t key result := by
  unfold GetValueF at h
  cases hd : t.FetchDirectoryPageF f with
  | none =>
    rw [hd] at h
    cases h
  | some t1 =>
    rw [hd] at h
    simp only [] at h
    have h1 := FetchDirectoryPageF_some f t t1 hd
    subst h1
    cases hb : t.FetchDirectoryPage.FetchBucketPageF f
        (t.FetchDirectoryPage.dir.GetBucketPageId
          (KeyToDirectoryIndex hash_fn key t.FetchDirectoryPage.dir)) with
    | none =>
      rw [hb] at h
      cases h
    | some t2 =>
      rw [hb] at h
      simp only [] at h
      have h2 := FetchBucketPageF_some f _ t2 _ hb
      subst h2
      exact (Except.ok.inj h).symm

/-- A `SplitInsertF` call that returns has the return value of the
`SplitInsert` call. -/
theorem SplitInsertF_flag {K V : Type} [DecidableEq K] [DecidableEq V]
    [Inhabited K] [Inhabited V] (f : PoolFaults) (B : Nat)
    (hash_fn : K → Nat) (t : ExtendibleHashTable K V) (key : K) (value : V)
    (s : Bool × ExtendibleHashTable K V)
    (h : SplitInsertF f B hash_fn t key value = Except.ok s) :
    s.1 = (SplitInsert B hash_fn t key value).1 := by
  unfold SplitInsertF at h
  cases hd : t.FetchDirectoryPageF f with
  | none =>
    rw [hd] at h
    cases h
  | some t1 =>
    rw [hd] at h
    simp only [] at h
    have h1 := FetchDirectoryPageF_some f t t1 hd
    subst h1
    have hdir : ((t.FetchDirectoryPage.FetchBucketPageF f
        (t.FetchDirectoryPage.dir.GetBucketPageId
          (KeyToDirectoryIndex hash_fn key t.FetchDirectoryPage.dir))).getD
        t.FetchDirectoryPage).dir = t.dir := by
      cases hb : t.FetchDirectoryPage.FetchBucketPageF f
          (t.FetchDirectoryPage.dir.GetBucketPageId
            (KeyToDirectoryIndex hash_fn key t.FetchDirectoryPage.dir)) with
      | none => rfl
      | some t2 =>
        rw [FetchBucketPageF_some f _ t2 _ hb]
        rfl
    rw [hdir] at h
    have hidx : KeyToDirectoryIndex hash_fn key t.FetchDirectoryPage.dir =
        KeyToDirectoryIndex hash_fn key t.dir := rfl
    rw [hidx] at h
    cases hflag : (splitDepthTransform t.dir (KeyToDirectoryIndex hash_fn key t.dir)).2.2 with
    | true =>
      rw [hflag] at h
      simp only [if_true] at h
      rw [← Except.ok.inj h]
      exact ((SplitInsert_false_iff B hash_fn t key value).mpr hflag).symm
    | false =>
      rw [hflag] at h
      simp only [Bool.false_eq_true, if_false] at h
      have htrue : (SplitInsert B hash_fn t key value).1 = true := by
        cases hx : (SplitInsert B hash_fn t key value).1
        · rw [(SplitInsert_false_iff B hash_fn t key value).mp hx] at hflag
          cases hflag
        · rfl
      rw [htrue]
      split at h
      · cases h
      · split at h
        · cases h
        · rw [← Except.ok.inj h]

/-- An `InsertF` call that returns has the return value of the `Insert`
call. -/
theorem InsertF_flag {K V : Type} [DecidableEq K] [DecidableEq V]
    [Inhabited K] [Inhabited V] (f : PoolFaults) (B : Nat)
    (hash_fn : K → Nat) (t : ExtendibleHashTable K V) (key : K) (value : V)
    (r : Bool × ExtendibleHashTable K V)
    (h : InsertF f B hash_fn t key value = Except.ok r) :
    r.1 = (Insert B hash_fn t key value).1 := by
  unfold InsertF at h
  cases hd : t.FetchDirectoryPageF f with
  | none =>
    rw [hd] at h
    cases h
  | some t1 =>
    rw [hd] at h
    simp only [] at h
    have h1 := FetchDirectoryPageF_some f t t1 hd
    subst h1
    cases hb : t.FetchDirectoryPage.FetchBucketPageF f
        (t.FetchDirectoryPage.dir.GetBucketPageId
          (KeyToDirectoryIndex hash_fn key t.FetchDirectoryPage.dir)) with
    | none =>
      rw [hb] at h
      cases h
    | some t2 =>
      rw [hb] at h
      simp only [] at h
      have h2 := FetchBucketPageF_some f _ t2 _ hb
      subst h2
      unfold Insert
      simp only []
      split at h
      · rename_i hc
        rw [if_pos hc]
        rw [← Except.ok.inj h]
      · rename_i hc
        rw [if_neg hc]
        split at h
        · rename_i hc2
          rw [if_pos hc2]
          split at h
          · cases h
          · rename_i s hs
            rw [← Except.ok.inj h]
            exact SplitInsertF_flag f B hash_fn _ key value s hs
        · rename_i hc2
          rw [if_neg hc2]
          rw [← Except.ok.inj h]

/-- A `MergeF` call that returns is the `Merge` call. -/
theorem MergeF_ok {K V : Type} [DecidableEq K] [DecidableEq V] (f : PoolFaults)
    (hash_fn : K → Nat) :
    ∀ (fuel : Nat) (t t1 : ExtendibleHashTable K V) (key : K) (value : V),
      MergeF f hash_fn fuel t key value = some (Except.ok t1) →
      Merge hash_fn fuel t key value = some t1 := by
  intro fuel
  induction fuel with
  | zero => intro t t1 key value h; simp [MergeF] at h
  | succ n ih =>
    intro t t1 key value h
    unfold MergeF at h
    unfold Merge
    cases hd : t.FetchDirectoryPageF f with
    | none =>
      rw [hd] at h
      cases h
    | some t2 =>
      rw [hd] at h
      simp only [] at h ⊢
      have h1 := FetchDirectoryPageF_some f t t2 hd
      subst h1
      split at h
      · rename_i hc
        rw [if_pos hc]
        rw [Except.ok.inj (Option.some.inj h)]
      · rename_i hc
        rw [if_neg hc]
        cases hb : t.FetchDirectoryPage.FetchBucketPageF f
            (t.FetchDirectoryPage.dir.GetBucketPageId
              (KeyToDirectoryIndex hash_fn key t.FetchDirectoryPage.dir)) with
        | none =>
          rw [hb] at h
          cases h
        | some t3 =>
          rw [hb] at h
          simp only [] at h
          have h2 := FetchBucketPageF_some f _ t3 _ hb
          subst h2
          split at h
          · rename_i hc2
            rw [if_pos hc2]
            rw [Except.ok.inj (Option.some.inj h)]
          · rename_i hc2
            rw [if_neg hc2]
            split at h
            · cases h
            · rename_i t4 hb2
              have h3 := FetchBucketPageF_some f _ t4 _ hb2
              subst h3
              split at h
              · rename_i hc3
                rw [if_pos hc3]
                exact ih _ _ _ _ h
              · rename_i hc3
                rw [if_neg hc3]
                rw [Except.ok.inj (Option.some.inj h)]

/-- A `RemoveF` call that returns is the `Remove` call. -/
theorem RemoveF_ok {K V : Type} [DecidableEq K] [DecidableEq V] (f : PoolFaults)
    (hash_fn : K → Nat) (fuel : Nat) (t : ExtendibleHashTable K V) (key : K) (value : V)
    (r : Bool × ExtendibleHashTable K V)
    (h : RemoveF f hash_fn fuel t key value = some (Except.ok r)) :
    Remove hash_fn fuel t key value = some r := by
  unfold RemoveF at h
  unfold Remove
  cases hd : t.FetchDirectoryPageF f with
  | none =>
    rw [hd] at h
    cases h
  | some t1 =>
    rw [hd] at h
    simp only [] at h ⊢
    have h1 := FetchDirectoryPageF_some f t t1 hd
    subst h1
    cases hb : t.FetchDirectoryPage.FetchBucketPageF f
        (t.FetchDirectoryPage.dir.GetBucketPageId
          (KeyToDirectoryIndex hash_fn key t.FetchDirectoryPage.dir)) with
    | none =>
      rw [hb] at h
      cases h
    | some t2 =>
      rw [hb] at h
      simp only [] at h
      have h2 := FetchBucketPageF_some f _ t2 _ hb
      subst h2
      split at h
      · rename_i hc
        rw [if_pos hc]
        rw [Except.ok.inj (Option.some.inj h)]
      · rename_i hc
        rw [if_neg hc]
        split at h
        · rename_i hc2
          rw [if_pos hc2]
          split at h
          · cases h
          · cases h
          · rename_i t3 hm
            rw [MergeF_ok f hash_fn _ _ t3 _ _ hm]
            simp only []
            rw [Except.ok.inj (Option.some.inj h)]
        · rename_i hc2
          rw [if_neg hc2]
          rw [Except.ok.inj (Option.some.inj h)]

/-- A failed fetch of the directory page, or of the bucket page of the key,
ends `GetValueF`, `InsertF` and `RemoveF` in the use of a null pointer. -/
theorem first_fetch_fault {K V : Type} [DecidableEq K] [DecidableEq V]
    [Inhabited K] [Inhabited V] (f : PoolFaults) (B : Nat) (hash_fn : K → Nat) (fuel : Nat)
    (t : ExtendibleHashTable K V) (key : K) (value : V) (result : List V)
    (h : f.fetchable t.bpm t.directory_page_id = false ∨
      f.fetchable (t.bpm.FetchPage t.directory_page_id) (KeyToPageId hash_fn key t.dir) = false) :
    GetValueF f hash_fn t key result = Except.error Fault.null_dereference ∧
    InsertF f B hash_fn t key value = Except.error Fault.null_dereference ∧
    RemoveF f hash_fn fuel t key value = some (Except.error Fault.null_dereference) := by
  by_cases hd : f.fetchable t.bpm t.directory_page_id = true
  · have hb : f.fetchable (t.bpm.FetchPage t.directory_page_id)
        (KeyToPageId hash_fn key t.dir) = false := by
      rcases h with h | h
      · rw [h] at hd
        cases hd
      · exact h
    have hnull := FetchBucketPageF_null f t.FetchDirectoryPage
      (t.FetchDirectoryPage.dir.GetBucketPageId
        (KeyToDirectoryIndex hash_fn key t.FetchDirectoryPage.dir)) hb
    refine ⟨?_, ?_, ?_⟩
    · unfold GetValueF
      rw [FetchDirectoryPageF_ok f t hd]
      simp only []
      rw [hnull]
    · unfold InsertF
      rw [FetchDirectoryPageF_ok f t hd]
      simp only []
      rw [hnull]
    · unfold RemoveF
      rw [FetchDirectoryPageF_ok f t hd]
      simp only []
      rw [hnull]
  · have hd2 : f.fetchable t.bpm t.directory_page_id = false := by
      cases hx : f.fetchable t.bpm t.directory_page_id
      · rfl
      · exact absurd hx hd
    have hnull := FetchDirectoryPageF_null f t hd2
    refine ⟨?_, ?_, ?_⟩
    · unfold GetValueF
      rw [hnull]
    · unfold InsertF
      rw [hnull]
    · unfold RemoveF
      rw [hnull]

/-- Claim C34, counterexample.  On a fresh index (directory page 0, bucket
page 1) and a pool that yields no page, `GetValue(0)`, `Insert(0,0)` and
`Remove(0,0)` do not return false: each reads the directory through the null
pointer `FetchDirectoryPage` returned.  On a pool that yields the directory
page and no other page, `GetValue(0)` calls `RLatch` on the null bucket page
pointer, the directory page still pinned. -/
theorem GetValue_page_fault_is_null_dereference :
    GetValueF allFaults id (freshIndex 4) 0 [] = Except.error Fault.null_dereference ∧
    InsertF allFaults 4 id (freshIndex 4) 0 0 = Except.error Fault.null_dereference ∧
    RemoveF allFaults id 2 (freshIndex 4) 0 0 = some (Except.error Fault.null_dereference) ∧
    (freshIndex 4).directory_page_id = 0 ∧ KeyToPageId id 0 (freshIndex 4).dir = 1 ∧
    GetValueF directoryOnly id (freshIndex 4) 0 [] = Except.error Fault.null_dereference :=
  ⟨(first_fetch_fault allFaults 4 id 2 (freshIndex 4) 0 0 [] (Or.inl rfl)).1,
   (first_fetch_fault allFaults 4 id 2 (freshIndex 4) 0 0 [] (Or.inl rfl)).2.1,
   (first_fetch_fault allFaults 4 id 2 (freshIndex 4) 0 0 [] (Or.inl rfl)).2.2,
   by decide!, by decide!,
   (first_fetch_fault directoryOnly 4 id 2 (freshIndex 4) 0 0 [] (Or.inr (by decide!))).1⟩

/-- Claim C34, as amended.  The coordinator has no page-fault path.  If the
pool yields no page for the directory page, or for the bucket page of the key,
then `GetValue`, `Insert` and `Remove` do not return: they use the null page
pointer (`KeyToDirectoryIndex` reads the directory page, `RLatch` or `WLatch`
is called on the bucket page).  No page fault makes a call return false:
whenever `GetValue` or `Remove` returns, result and state are those of the run
on a pool that yields every page, and whenever `Insert` returns, it returns
what that run returns.  On a pool that yields every page the three calls are
the calls of the fault-free coordinator. -/
theorem page_fault_is_not_handled {K V : Type} [DecidableEq K] [DecidableEq V]
    [Inhabited K] [Inhabited V] (f : PoolFaults) (B : Nat) (hash_fn : K → Nat) (fuel : Nat)
    (t : ExtendibleHashTable K V) (key : K) (value : V) (result : List V) :
    ((f.fetchable t.bpm t.directory_page_id = false ∨
        f.fetchable (t.bpm.FetchPage t.directory_page_id) (KeyToPageId hash_fn key t.dir)
          = false) →
      GetValueF f hash_fn t key result = Except.error Fault.null_dereference ∧
      InsertF f B hash_fn t key value = Except.error Fault.null_dereference ∧
      RemoveF f hash_fn fuel t key value = some (Except.error Fault.null_dereference)) ∧
    (∀ r, GetValueF f hash_fn t key result = Except.ok r → r = GetValue hash_fn t key result) ∧
    (∀ r, InsertF f B hash_fn t key value = Except.ok r →
      r.1 = (Insert B hash_fn t key value).1) ∧
    (∀ r, RemoveF f hash_fn fuel t key value = some (Except.ok r) →
      Remove hash_fn fuel t key value = some r) ∧
    ((∀ b p, f.fetchable b p = true) → (∀ b, f.allocatable b = true) →
      GetValueF f hash_fn t key result = Except.ok (GetValue hash_fn t key result) ∧
      InsertF f B hash_fn t key value = Except.ok (Insert B hash_fn t key value) ∧
      RemoveF f hash_fn fuel t key value =
        (Remove hash_fn fuel t key value).map Except.ok) :=
  ⟨first_fetch_fault f B hash_fn fuel t key value result,
   GetValueF_ok f hash_fn t key result,
   InsertF_flag f B hash_fn t key value,
   RemoveF_ok f hash_fn fuel t key value,
   fun hfetch halloc =>
     ⟨GetValueF_noFaults f hash_fn t key result hfetch,
      InsertF_noFaults f B hash_fn t key value hfetch halloc,
      RemoveF_noFaults f hash_fn fuel t key value hfetch⟩⟩

/-- Claim C34 as amended, at a fresh index: on the pool that yields no page
the three calls use the null directory pointer, and on the pool that yields
every page `Insert(0,0)` is the fault-free call, which returns true. -/
theorem page_fault_is_not_handled_witness :
    allFaults.fetchable (freshIndex 4).bpm (freshIndex 4).directory_page_id = false ∧
    (GetValueF allFaults id (freshIndex 4) 0 [] = Except.error Fault.null_dereference ∧
      InsertF allFaults 4 id (freshIndex 4) 0 0 = Except.error Fault.null_dereference ∧
      RemoveF allFaults id 2 (freshIndex 4) 0 0 =
        some (Except.error Fault.null_dereference)) ∧
    InsertF noFaults 4 id (freshIndex 4) 0 0 = Except.ok (Insert 4 id (freshIndex 4) 0 0) ∧
    (Insert 4 id (freshIndex 4) 0 0).1 = true :=
  ⟨rfl,
   (page_fault_is_not_handled allFaults 4 id 2 (freshIndex 4) 0 0 []).1 (Or.inl rfl),
   ((page_fault_is_not_handled noFaults 4 id 2 (freshIndex 4) 0 0 []).2.2.2.2
      (fun _ _ => rfl) (fun _ => rfl)).2.1,
   by decide!⟩

end ExtendibleHashTable

end bustub
